import Mathlib

/-!
The dynamic menu `qdmenu`: matching, paging and selection.

A shallow embedding of the core of `src/qdmenu.cpp` (the query matcher `match`,
the pager `calcoffsets`, the cursor helper `nextrune`, the buffer writer
`insert`, the key handler `keypress`) and of the UTF-8 decoder of `src/drw.cpp`.

Representation.

* A byte is a natural number (the value of an `unsigned char`).
* A region of `char` memory is a `List Nat`.  Reading past the end of the list
  yields `0`, so the end of the list acts as a terminating NUL; the C string
  held by a region is `cstr`, the bytes before the first NUL.
* The item store `items` is a `List Item`; an item is identified by its index.
* The doubly linked list `matches .. matchend` threaded through the `left` and
  `right` fields is the `List Nat` of item indices met when following `right`
  from `matches`.  A pointer into that list (`prev`, `curr`, `next`, `sel`) is
  an `Option Nat`: `none` is `NULL`, `some p` is the node at position `p`.
  For a node at position `p`, `p->right` is position `p + 1` (or `NULL` at the
  tail) and `p->left` is position `p - 1` (or `NULL` at the head).  The section
  on the linked representation embeds `appenditem` and the pointer updates of
  `match`, and `linkedMatch_is_matchList` shows that they build this list.
-/

namespace Qdmenu

/-! ## C strings and the libc string functions used by the matcher -/

/-- The C string held by a memory region: its bytes before the first NUL. -/
def cstr (s : List Nat) : List Nat := s.takeWhile (fun b => b != 0)

/-- libc `strlen`. -/
def strlen (s : List Nat) : Nat := (cstr s).length

/-- libc `tolower` on an `unsigned char` value, in the C (and any UTF-8) locale:
only `A`..`Z` are mapped. -/
def tolower (c : Nat) : Nat := if 65 ≤ c ∧ c ≤ 90 then c + 32 else c

/-- libc `strncmp` (`f = id`) and `strncasecmp` (`f = tolower`): compare at most
`n` bytes, stop after a NUL, return the difference of the first bytes that
differ (`0` when none does). -/
def strncmpBy (f : Nat → Nat) : List Nat → List Nat → Nat → Int
  | _, _, 0 => 0
  | a, b, n + 1 =>
    if f (a.headD 0) ≠ f (b.headD 0) then (f (a.headD 0) : Int) - (f (b.headD 0) : Int)
    else if a.headD 0 = 0 then 0
    else strncmpBy f a.tail b.tail n

/-- libc `strncmp`. -/
def strncmp (a b : List Nat) (n : Nat) : Int := strncmpBy id a b n

/-- libc `strncasecmp`. -/
def strncasecmp (a b : List Nat) (n : Nat) : Int := strncmpBy tolower a b n

/-- Scan of libc `strstr`: the first offset `k` at or after the current position
where the needle `n` starts the rest of the haystack. -/
def strstrScan (n : List Nat) : List Nat → Nat → Option Nat
  | [], k => if n = [] then some k else none
  | c :: h, k => if n.isPrefixOf (c :: h) then some k else strstrScan n h (k + 1)

/-- libc `strstr`: offset of the first occurrence of the string `n` in the
string `h`, `none` for `NULL`. -/
def strstr (h n : List Nat) : Option Nat := strstrScan (cstr n) (cstr h) 0

/-- Inner loop of `cistrstr`,
`for (i = 0; n[i] && tolower(n[i]) == tolower(h[i]); ++i);` followed by the test
`n[i] == '\0'`.  The arguments are the needle from `n + i` and the haystack from
`h + i`. -/
def cistrstrInner : List Nat → List Nat → Bool
  | [], _ => true
  | c :: n, h =>
    if c = 0 then true
    else if tolower c = tolower (h.headD 0) then cistrstrInner n h.tail
    else false

/-- Outer loop of `cistrstr`, `for (; *h; ++h)`, with the offset of `h` from the
start of the haystack. -/
def cistrstrLoop (n : List Nat) : List Nat → Nat → Option Nat
  | [], _ => none
  | d :: h, k =>
    if d = 0 then none
    else if cistrstrInner n (d :: h) then some k
    else cistrstrLoop n h (k + 1)

/-- The function `cistrstr` of `qdmenu.cpp`: case-insensitive `strstr`. -/
def cistrstr (h n : List Nat) : Option Nat :=
  if n.headD 0 = 0 then some 0 else cistrstrLoop n h 0

/-- The function pointer `fstrstr`: `strstr`, or `cistrstr` under `-i`. -/
def fstrstr (ci : Bool) (h n : List Nat) : Option Nat :=
  if ci then cistrstr h n else strstr h n

/-- The function pointer `fstrncmp`: `strncmp`, or `strncasecmp` under `-i`. -/
def fstrncmp (ci : Bool) (a b : List Nat) (n : Nat) : Int :=
  if ci then strncasecmp a b n else strncmp a b n

/-- One call of libc `strtok` with delimiter set `" "` on the rest of the input:
skip the leading spaces; `NULL` at the end of the input; otherwise the token up
to the next space and the input after that space. -/
def strtok (s : List Nat) : Option (List Nat × List Nat) :=
  match s.dropWhile (fun b => b == 32) with
  | [] => none
  | b :: r =>
    some ((b :: r).takeWhile (fun c => c != 32), ((b :: r).dropWhile (fun c => c != 32)).drop 1)

/-- The token loop of `match`:
`for (s = strtok(buf, " "); s; tokv[tokc - 1] = s, s = strtok(NULL, " "))`. -/
def tokenize : Nat → List Nat → List (List Nat)
  | 0, _ => []
  | fuel + 1, s =>
    match strtok s with
    | none => []
    | some (t, r) => t :: tokenize fuel r

/-- The token vector `tokv[0 .. tokc)` that `match` builds from `text`
(`strcpy(buf, text)` copies the C string). -/
def tokens (text : List Nat) : List (List Nat) :=
  tokenize ((cstr text).length + 1) (cstr text)

/-! ## Items and the matcher -/

/-- The type `struct item`: the text and the `out` flag.  The `left` and `right`
fields are represented by the position in the match list. -/
structure Item where
  text : List Nat
  out : Bool
deriving DecidableEq, Repr

/-- The inner loop of `match` over the tokens,
`for (i = 0; i < tokc; i++) if (!fstrstr(item->text, tokv[i])) break;`
followed by the test `i == tokc`. -/
def allTokensMatch (ci : Bool) (tokv : List (List Nat)) (it : Item) : Bool :=
  tokv.all (fun t => (fstrstr ci it.text t).isSome)

/-- The three lists `matches`, `lprefix`, `lsubstr` under construction. -/
structure Bands where
  exact : List Nat
  pre : List Nat
  sub : List Nat
deriving DecidableEq, Repr

/-- The item loop of `match`, `for (item = items; item && item->text; item++)`:
`idx` is the index of the head of the remaining items, `appenditem` appends the
index at the end of one of the three lists. -/
def matchLoop (ci : Bool) (text : List Nat) (tokv : List (List Nat)) :
    List Item → Nat → Bands → Bands
  | [], _, acc => acc
  | it :: rest, idx, acc =>
    if allTokensMatch ci tokv it then
      if tokv.length = 0 ∨ fstrncmp ci text it.text (strlen text + 1) = 0 then
        matchLoop ci text tokv rest (idx + 1) { acc with exact := acc.exact ++ [idx] }
      else if fstrncmp ci (tokv.headD []) it.text (strlen (tokv.headD [])) = 0 then
        matchLoop ci text tokv rest (idx + 1) { acc with pre := acc.pre ++ [idx] }
      else
        matchLoop ci text tokv rest (idx + 1) { acc with sub := acc.sub ++ [idx] }
    else matchLoop ci text tokv rest (idx + 1) acc

/-- The three bands built by `match` for the buffer `text`. -/
def matchBands (ci : Bool) (items : List Item) (text : List Nat) : Bands :=
  matchLoop ci text (tokens text) items 0 ⟨[], [], []⟩

/-- The splicing at the end of `match`: `lprefix`, then `lsubstr`, are linked
after `matchend` when `matches` is not `NULL`, and become `matches` otherwise. -/
def spliceBands (b : Bands) : List Nat :=
  let m1 := if b.pre ≠ [] then (if b.exact ≠ [] then b.exact ++ b.pre else b.pre) else b.exact
  if b.sub ≠ [] then (if m1 ≠ [] then m1 ++ b.sub else b.sub) else m1

/-- The list `matches` left by `match`. -/
def matchList (ci : Bool) (items : List Item) (text : List Nat) : List Nat :=
  spliceBands (matchBands ci items text)

/-! ## The pager -/

/-- The values the pager reads: the `-i` flag, `lines`, the row height `bh`, the
horizontal pixel budget `mw - (promptw + inputw + TEXTW("<") + TEXTW(">"))` as
the `int` that `calcoffsets` stores in `n`, and the text measurement
`drw_fontset_getwidth_clamp(drw, str, n) + lrpad` of the rendering layer. -/
structure Config where
  ci : Bool
  lines : Nat
  bh : Nat
  budget : Int
  width : List Nat → Nat → Nat

/-- The local `n` of `calcoffsets`. -/
def pageBudget (cfg : Config) : Int :=
  if cfg.lines > 0 then (cfg.lines : Int) * (cfg.bh : Int) else cfg.budget

/-- The function `textw_clamp`: its parameter `n` is an `unsigned int`, so the
`int` budget is converted modulo `2^32`; the result is `MIN(w, n)`. -/
def textw_clamp (cfg : Config) (str : List Nat) (n : Int) : Nat :=
  min (cfg.width str (n % 4294967296).toNat) (n % 4294967296).toNat

/-- The amount `calcoffsets` adds to `i` for one node:
`(lines > 0) ? bh : textw_clamp(item->text, n)`. -/
def itemCost (cfg : Config) (str : List Nat) : Int :=
  if cfg.lines > 0 then (cfg.bh : Int) else (textw_clamp cfg str (pageBudget cfg) : Int)

/-- The text of the item with index `i`, `items[i].text`. -/
def itemText (items : List Item) (i : Nat) : List Nat :=
  match items[i]? with
  | none => []
  | some it => it.text

/-- The text of the node at position `p` of the match list. -/
def nodeText (items : List Item) (ms : List Nat) (p : Nat) : List Nat :=
  match ms[p]? with
  | none => []
  | some i => itemText items i

/-- The first loop of `calcoffsets`,
`for (i = 0, next = curr; next; next = next->right) if ((i += cost) > n) break;`
over the nodes from `next` on, `p` being the position of `next`.  The sums are
taken in the integers: they stay below twice the budget plus one row. -/
def nextLoop (cfg : Config) (items : List Item) : List Nat → Int → Nat → Option Nat
  | [], _, _ => none
  | x :: r, i, p =>
    if i + itemCost cfg (itemText items x) > pageBudget cfg then some p
    else nextLoop cfg items r (i + itemCost cfg (itemText items x)) (p + 1)

/-- The second loop of `calcoffsets`,
`for (i = 0, prev = curr; prev && prev->left; prev = prev->left)`
`if ((i += cost of prev->left) > n) break;`, by the position of `prev`. -/
def prevLoop (cfg : Config) (items : List Item) (ms : List Nat) : Nat → Int → Nat
  | 0, _ => 0
  | p + 1, i =>
    if i + itemCost cfg (nodeText items ms p) > pageBudget cfg then p + 1
    else prevLoop cfg items ms p (i + itemCost cfg (nodeText items ms p))

/-! ## The session state -/

/-- How the process stands: still handling keys, or left through `exit(code)`. -/
inductive Status where
  | running
  | exited (code : Nat)
deriving DecidableEq, Repr

/-- The static variables of `qdmenu.cpp` that the core reads and writes, with the
lines written to standard output by `puts`.  The length of `text` is
`sizeof text` (`BUFSIZ`); the field `matched` is the list headed by the pointer
`matches`. -/
structure State where
  text : List Nat
  cursor : Nat
  items : List Item
  matched : List Nat
  prev : Option Nat
  curr : Option Nat
  next : Option Nat
  sel : Option Nat
  out : List (List Nat)
  status : Status
deriving DecidableEq, Repr

/-- The pointer `matches`: the head of the match list. -/
def head (s : State) : Option Nat := if s.matched = [] then none else some 0

/-- The pointer `matchend`: the tail of the match list. -/
def matchend (s : State) : Option Nat :=
  if s.matched = [] then none else some (s.matched.length - 1)

/-- The field `p->right`. -/
def right (s : State) (p : Nat) : Option Nat :=
  if p + 1 < s.matched.length then some (p + 1) else none

/-- The field `p->left`. -/
def left (p : Nat) : Option Nat := if 0 < p then some (p - 1) else none

/-- The function `calcoffsets`: recompute `next` and `prev` from `curr`. -/
def calcoffsets (cfg : Config) (s : State) : State :=
  match s.curr with
  | none => { s with next := none, prev := none }
  | some c =>
    { s with
      next := nextLoop cfg s.items (s.matched.drop c) 0 c
      prev := some (prevLoop cfg s.items s.matched c 0) }

/-- The function `match` of `qdmenu.cpp`: rebuild the match list from `text`, put
`curr` and `sel` on its head and recompute the page. -/
def rematch (cfg : Config) (s : State) : State :=
  let ms := matchList cfg.ci s.items s.text
  calcoffsets cfg
    { s with matched := ms
             curr := if ms = [] then none else some 0
             sel := if ms = [] then none else some 0 }

/-- The function `insert`: `memcpy(text, str, n + 1); match();`.  The count is
converted to `size_t`, so a negative `n + 1` is a count beyond any object; `str`
is `none` for `NULL` and otherwise the bytes of a NUL-terminated array.  After
the copy `match` reads `text` as a C string (`strcpy(buf, text)`,
`strlen(text)`), which runs past the array when the copy has left no NUL in it.
The result is `none` when the copy reads or writes outside its objects, or
leaves `text` without a NUL. -/
def insert (cfg : Config) (s : State) (str : Option (List Nat)) (n : Int) : Option State :=
  if n + 1 < 0 then none
  else if (n + 1).toNat = 0 then some (rematch cfg s)
  else
    match str with
    | none => none
    | some src =>
      if (n + 1).toNat ≤ s.text.length ∧ (n + 1).toNat ≤ src.length + 1 then
        if 0 ∈ (src ++ [0]).take (n + 1).toNat ++ s.text.drop (n + 1).toNat then
          some (rematch cfg
            { s with text := (src ++ [0]).take (n + 1).toNat ++ s.text.drop (n + 1).toNat })
        else none
      else none

/-- The test `(text[n] & 0xc0) == 0x80`: a UTF-8 continuation byte. -/
def isCont (b : Nat) : Bool := (b &&& 0xc0) == 0x80

/-- The loop of `nextrune`,
`for (n = cursor + inc; n + inc >= 0 && (text[n] & 0xc0) == 0x80; n += inc);`,
from the current value of the `ssize_t` variable `n`. -/
def nextruneLoop (text : List Nat) (inc : Int) : Nat → Int → Int
  | 0, n => n
  | fuel + 1, n =>
    if n + inc ≥ 0 ∧ isCont (text.getD n.toNat 0) = true then
      nextruneLoop text inc fuel (n + inc)
    else n

/-- The function `nextrune`, as the final value of its `ssize_t` variable `n`.
It is called with `inc = +1` and `inc = -1` only. -/
def nextrune (text : List Nat) (cursor : Nat) (inc : Int) : Int :=
  nextruneLoop text inc (text.length + 1) ((cursor : Int) + inc)

/-- Conversion of the `ssize_t` result of `nextrune` to the `size_t` it returns. -/
def toSizeT (n : Int) : Nat := (n % 18446744073709551616).toNat

/-! ## The key handler -/

/-- The keys that `keypress` tells apart; `other` is any other key. -/
inductive Key where
  | K | U | W | Y | Return | Enter | BracketLeft | J
  | End | Escape | Home | Left | Up | Right | Down | Tab | other
deriving DecidableEq, Repr

/-- What `keypress` reads from the event and from the line edit: the key, the
Control, Alt and Shift modifiers, the UTF-8 bytes `buf` of the line edit's text
(the array behind them ends with a NUL), the length `len` of that text as a
`QString`, and the line edit's cursor position. -/
structure KeyEvent where
  key : Key
  ctrl : Bool
  alt : Bool
  shift : Bool
  buf : List Nat
  len : Nat
  cursorPos : Nat
deriving DecidableEq, Repr

/-- The loop `while (next && (curr = curr->right)) calcoffsets();` of the End key. -/
def endLoop (cfg : Config) : Nat → State → State
  | 0, s => s
  | fuel + 1, s =>
    match s.next with
    | none => s
    | some _ =>
      match s.curr.bind (right s) with
      | none => { s with curr := none }
      | some c => endLoop cfg fuel (calcoffsets cfg { s with curr := some c })

/-- The case `Qt::Key_Up` (also reached from `Qt::Key_Left`):
`if (sel && sel->left && (sel = sel->left)->right == curr) { curr = prev; calcoffsets(); }`.
The node `(sel->left)->right` is the old `sel`. -/
def keyUp (cfg : Config) (s : State) : State :=
  match s.sel with
  | none => s
  | some p =>
    match left p with
    | none => s
    | some q =>
      if some p = s.curr then calcoffsets cfg { s with sel := some q, curr := s.prev }
      else { s with sel := some q }

/-- The case `Qt::Key_Down` (also reached from `Qt::Key_Right`):
`if (sel && sel->right && (sel = sel->right) == next) { curr = next; calcoffsets(); }`. -/
def keyDown (cfg : Config) (s : State) : State :=
  match s.sel with
  | none => s
  | some p =>
    match right s p with
    | none => s
    | some q =>
      if some q = s.next then calcoffsets cfg { s with sel := some q, curr := s.next }
      else { s with sel := some q }

/-- The case `Qt::Key_End` after its cursor test:
`if (next) { curr = matchend; calcoffsets(); curr = prev; calcoffsets();`
`while (next && (curr = curr->right)) calcoffsets(); } sel = matchend;`. -/
def keyEnd (cfg : Config) (s : State) : State :=
  match s.next with
  | none => { s with sel := matchend s }
  | some _ =>
    let s1 := calcoffsets cfg { s with curr := matchend s }
    let s2 := calcoffsets cfg { s1 with curr := s1.prev }
    let s3 := endLoop cfg (s.matched.length + 1) s2
    { s3 with sel := matchend s3 }

/-- The statement `sel->out = 1` for the node at position `p`. -/
def markOut (s : State) (p : Nat) : State :=
  match s.matched[p]? with
  | none => s
  | some i =>
    { s with items := s.items.modify (fun it => { it with out := true }) i }

/-- The function `keypress`.  The result is `none` when the handler does not
return: a `memcpy` or store outside its objects, or the loops of Control+W, which
call `insert(NULL, nextrune(-1) - cursor)` while `cursor > 0` although `insert`
changes neither `cursor` nor `text`.  Drawing (`drawmenu`) changes no state, so
`break` and `return` coincide. -/
def keypress (cfg : Config) (s0 : State) (ev : KeyEvent) : Option State :=
  let s := { s0 with cursor := ev.cursorPos }
  if ev.ctrl then
    match ev.key with
    | .K =>
      if s.cursor < s.text.length then some (rematch cfg { s with text := s.text.set s.cursor 0 })
      else none
    | .U => insert cfg s none (0 - (s.cursor : Int))
    | .W => if s.cursor = 0 then some s else none
    | .Y => some s
    | .Return => some s
    | .BracketLeft => some { s with status := .exited 1 }
    | _ => some s
  else if ev.alt then
    match ev.key with
    | .J =>
      match s.next with
      | none => some s
      | some q => some (calcoffsets cfg { s with sel := some q, curr := some q })
    | .K =>
      match s.prev with
      | none => some s
      | some q => some (calcoffsets cfg { s with sel := some q, curr := some q })
    | _ => some s
  else
    match ev.key with
    | .End =>
      if s.cursor = ev.len then some { s with cursor := strlen s.text }
      else some (keyEnd cfg s)
    | .Escape => some { s with status := .exited 1 }
    | .Home =>
      if s.sel = head s then some { s with cursor := 0 }
      else some (calcoffsets cfg { s with sel := head s, curr := head s })
    | .Left =>
      if s.cursor > 0 ∧ (s.sel = none ∨ s.sel.bind left = none ∨ cfg.lines > 0) then
        some { s with cursor := toSizeT (nextrune s.text s.cursor (-1)) }
      else if cfg.lines > 0 then some s
      else some (keyUp cfg s)
    | .Up => some (keyUp cfg s)
    | .Enter | .Return =>
      let line :=
        match s.sel with
        | some p => if ev.shift then cstr s.text else cstr (nodeText s.items s.matched p)
        | none => cstr s.text
      let s1 := { s with out := s.out ++ [line] }
      if ¬ ev.ctrl then some { s1 with status := .exited 0 }
      else
        match s1.sel with
        | some p => some (markOut s1 p)
        | none => some s1
    | .Right =>
      if s.text.getD s.cursor 0 ≠ 0 then
        some { s with cursor := toSizeT (nextrune s.text s.cursor 1) }
      else if cfg.lines > 0 then some s
      else some (keyDown cfg s)
    | .Down => some (keyDown cfg s)
    | .Tab =>
      match s.sel with
      | none => some s
      | some p =>
        let src := nodeText s.items s.matched p
        let k := min (strlen src) (s.text.length - 1)
        if k < s.text.length then
          some (rematch cfg
            { s with cursor := k, text := ((src.take k ++ s.text.drop k).set k 0) })
        else none
    | _ => insert cfg s (some ev.buf) (ev.len : Int)


/-! ## The UTF-8 decoder of `drw.cpp` -/

/-- The constant `UTF_INVALID`. -/
def UTF_INVALID : Nat := 0xFFFD

/-- The constant `UTF_SIZ`. -/
def UTF_SIZ : Nat := 4

/-- The table `utfbyte`. -/
def utfbyte : List Nat := [0x80, 0, 0xC0, 0xE0, 0xF0]

/-- The table `utfmask`. -/
def utfmask : List Nat := [0xC0, 0x80, 0xE0, 0xF0, 0xF8]

/-- The table `utfmin`. -/
def utfmin : List Nat := [0, 0, 0x80, 0x800, 0x10000]

/-- The table `utfmax`. -/
def utfmax : List Nat := [0x10FFFF, 0x7F, 0x7FF, 0xFFFF, 0x10FFFF]

/-- Modelled from the spec: the macro `BETWEEN(X, A, B)` of `util.h`, a header
that is not among the sources; it is the inclusive range test
`(A) <= (X) && (X) <= (B)` behind the spec's "out-of-range" and "surrogate". -/
def BETWEEN (x a b : Nat) : Bool := decide (a ≤ x) && decide (x ≤ b)

/-- The loop of `utf8decodebyte` from index `i`:
`for (...; *i < UTF_SIZ + 1; ++(*i)) if ((c & utfmask[*i]) == utfbyte[*i]) return c & ~utfmask[*i];`
and `return 0` after it.  The result is the returned value and the final `*i`. -/
def utf8decodebyteFrom (c : Nat) : Nat → Nat → Nat × Nat
  | 0, i => (0, i)
  | fuel + 1, i =>
    if (c % 256) &&& utfmask.getD i 0 = utfbyte.getD i 0 then
      ((c % 256) &&& (255 - utfmask.getD i 0), i)
    else utf8decodebyteFrom c fuel (i + 1)

/-- The function `utf8decodebyte`: the payload bits of the byte and, in `*i`, its
class (`0` continuation, `1`..`4` leader of that length, `5` none). -/
def utf8decodebyte (c : Nat) : Nat × Nat := utf8decodebyteFrom c (UTF_SIZ + 1) 0

/-- The loop `for (i = 1; *u > utfmax[i]; ++i);` of `utf8validate`. -/
def utf8validateLen (u : Nat) : Nat → Nat → Nat
  | 0, i => i
  | fuel + 1, i => if u > utfmax.getD i 0 then utf8validateLen u fuel (i + 1) else i

/-- The function `utf8validate`: the code point left in `*u` and the returned
length. -/
def utf8validate (u i : Nat) : Nat × Nat :=
  let u1 :=
    if (!BETWEEN u (utfmin.getD i 0) (utfmax.getD i 0)) || BETWEEN u 0xD800 0xDFFF then UTF_INVALID
    else u
  (u1, utf8validateLen u1 UTF_SIZ 1)

/-- The loop of `utf8decode`,
`for (i = 1, j = 1; i < clen && j < len; ++i, ++j)`: `Sum.inl j` is the early
`return j`, `Sum.inr (j, udecoded)` the normal exit. -/
def utf8decodeLoop (c : List Nat) (clen len : Nat) : Nat → Nat → Nat → Nat → Nat ⊕ (Nat × Nat)
  | 0, _, j, u => .inr (j, u)
  | fuel + 1, i, j, u =>
    if i < clen ∧ j < len then
      if (utf8decodebyte (c.getD i 0)).2 ≠ 0 then .inl j
      else
        utf8decodeLoop c clen len fuel (i + 1) (j + 1)
          ((u <<< 6) ||| (utf8decodebyte (c.getD i 0)).1)
    else .inr (j, u)

/-- The function `utf8decode` on the `clen` bytes at `c`: the code point stored in
`*u` and the returned length. -/
def utf8decode (c : List Nat) (clen : Nat) : Nat × Nat :=
  if clen = 0 then (UTF_INVALID, 0)
  else if !BETWEEN (utf8decodebyte (c.getD 0 0)).2 1 UTF_SIZ then (UTF_INVALID, 1)
  else
    match utf8decodeLoop c clen (utf8decodebyte (c.getD 0 0)).2 UTF_SIZ 1 1
        (utf8decodebyte (c.getD 0 0)).1 with
    | .inl j => (UTF_INVALID, j)
    | .inr (j, u) =>
      if j < (utf8decodebyte (c.getD 0 0)).2 then (UTF_INVALID, 0)
      else ((utf8validate u (utf8decodebyte (c.getD 0 0)).2).1, (utf8decodebyte (c.getD 0 0)).2)

/-! ## The linked representation of the match list

The source threads the match list through the `left` and `right` fields of the
items.  This section embeds that representation, `appenditem` and the linking
done by `match`, so that the list `matchList` used above can be compared with
it. -/

/-- The fields `left` and `right` of the items, by item index; `none` is `NULL`. -/
structure Links where
  left : Nat → Option Nat
  right : Nat → Option Nat

/-- A list under construction: the two pointers `*list` and `*last` that
`appenditem` receives. -/
structure Chain where
  first : Option Nat
  last : Option Nat
deriving DecidableEq, Repr

/-- The function `appenditem`:
`if (*last) (*last)->right = item; else *list = item;`
`item->left = *last; item->right = NULL; *last = item;`. -/
def appenditem (lk : Links) (item : Nat) (ch : Chain) : Links × Chain :=
  match ch.last with
  | some l =>
    ({ left := Function.update lk.left item (some l)
       right := Function.update (Function.update lk.right l (some item)) item none },
      { first := ch.first, last := some item })
  | none =>
    ({ left := Function.update lk.left item none
       right := Function.update lk.right item none },
      { first := some item, last := some item })

/-- The variables `matches, matchend`, `lprefix, prefixend`, `lsubstr, substrend`
of `match`, with the link fields of the items. -/
structure Linked where
  lk : Links
  exact : Chain
  pre : Chain
  sub : Chain

/-- The item loop of `match` on the linked representation: the tests of
`matchLoop`, with `appenditem` on the pointers. -/
def linkLoop (ci : Bool) (text : List Nat) (tokv : List (List Nat)) :
    List Item → Nat → Linked → Linked
  | [], _, acc => acc
  | it :: rest, idx, acc =>
    if allTokensMatch ci tokv it then
      if tokv.length = 0 ∨ fstrncmp ci text it.text (strlen text + 1) = 0 then
        linkLoop ci text tokv rest (idx + 1)
          { acc with lk := (appenditem acc.lk idx acc.exact).1
                     exact := (appenditem acc.lk idx acc.exact).2 }
      else if fstrncmp ci (tokv.headD []) it.text (strlen (tokv.headD [])) = 0 then
        linkLoop ci text tokv rest (idx + 1)
          { acc with lk := (appenditem acc.lk idx acc.pre).1
                     pre := (appenditem acc.lk idx acc.pre).2 }
      else
        linkLoop ci text tokv rest (idx + 1)
          { acc with lk := (appenditem acc.lk idx acc.sub).1
                     sub := (appenditem acc.lk idx acc.sub).2 }
    else linkLoop ci text tokv rest (idx + 1) acc

/-- One linking step at the end of `match`, for a second list `(lfirst, llast)`:
`if (lfirst) { if (matches) { matchend->right = lfirst; lfirst->left = matchend; }`
`else matches = lfirst; matchend = llast; }`. -/
def linkAfter (lk : Links) (m : Chain) (l : Chain) : Links × Chain :=
  match l.first with
  | none => (lk, m)
  | some f =>
    match m.first with
    | none => (lk, { first := some f, last := l.last })
    | some a =>
      match m.last with
      | none => (lk, { first := some a, last := l.last })
      | some e =>
        ({ left := Function.update lk.left f (some e)
           right := Function.update lk.right e (some f) },
          { first := some a, last := l.last })

/-- The function `match` on the linked representation, from arbitrary earlier
contents of the link fields: the final fields and the pointers `matches` and
`matchend`. -/
def linkedMatch (ci : Bool) (items : List Item) (text : List Nat) (lk0 : Links) :
    Links × Chain :=
  let acc := linkLoop ci text (tokens text) items 0
    { lk := lk0, exact := ⟨none, none⟩, pre := ⟨none, none⟩, sub := ⟨none, none⟩ }
  let r1 := linkAfter acc.lk acc.exact acc.pre
  linkAfter r1.1 r1.2 acc.sub

/-- The nodes met when following `right` from the pointer `p`, at most `fuel` of
them. -/
def follow (lk : Links) : Nat → Option Nat → List Nat
  | 0, _ => []
  | _ + 1, none => []
  | fuel + 1, some x => x :: follow lk fuel (lk.right x)

/-- The linked list that starts after the node `p` (or at the head, for `none`)
holds exactly the nodes `xs`: each node's `left` is its predecessor and its
`right` its successor, `NULL` at the two ends. -/
def SegFrom (lk : Links) : Option Nat → List Nat → Prop
  | _, [] => True
  | p, x :: rest => lk.left x = p ∧ lk.right x = rest.head? ∧ SegFrom lk (some x) rest
/-! ## The vocabulary of the specification -/

/-- The comparator's byte folding. -/
def fold (ci : Bool) : Nat → Nat := if ci then tolower else id

/-- Spec wording: `tok` is a substring of `txt` under the comparator. -/
def SubstringUnder (ci : Bool) (tok txt : List Nat) : Prop :=
  tok.map (fold ci) <:+: txt.map (fold ci)

/-- Spec wording: the strings are equal under the comparator. -/
def EqualUnder (ci : Bool) (a b : List Nat) : Prop :=
  a.map (fold ci) = b.map (fold ci)

/-- Spec wording: `txt` begins with `tok` under the comparator, compared over the
length of `tok`. -/
def BeginsUnder (ci : Bool) (tok txt : List Nat) : Prop :=
  tok.map (fold ci) <+: txt.map (fold ci)

/-- Spec wording: an item is a candidate when every token of the query is a
substring of its text under the comparator. -/
def Candidate (ci : Bool) (text : List Nat) (it : Item) : Prop :=
  ∀ t ∈ tokens text, SubstringUnder ci t (cstr it.text)

/-- Spec wording: a candidate is exact when the query has zero tokens or the
whole query string equals the item's text under the comparator. -/
def ExactFor (ci : Bool) (text : List Nat) (it : Item) : Prop :=
  tokens text = [] ∨ EqualUnder ci (cstr text) (cstr it.text)

/-- Spec wording: the item's text begins with the first token of the query. -/
def BeginsFor (ci : Bool) (text : List Nat) (it : Item) : Prop :=
  BeginsUnder ci ((tokens text).headD []) (cstr it.text)

instance (ci : Bool) (tok txt : List Nat) : Decidable (SubstringUnder ci tok txt) := by
  unfold SubstringUnder; infer_instance

instance (ci : Bool) (a b : List Nat) : Decidable (EqualUnder ci a b) := by
  unfold EqualUnder; infer_instance

instance (ci : Bool) (tok txt : List Nat) : Decidable (BeginsUnder ci tok txt) := by
  unfold BeginsUnder; infer_instance

instance (ci : Bool) (text : List Nat) (it : Item) : Decidable (Candidate ci text it) := by
  unfold Candidate; infer_instance

instance (ci : Bool) (text : List Nat) (it : Item) : Decidable (ExactFor ci text it) := by
  unfold ExactFor; infer_instance

instance (ci : Bool) (text : List Nat) (it : Item) : Decidable (BeginsFor ci text it) := by
  unfold BeginsFor; infer_instance

/-- Spec wording: the store-order list of the items that satisfy `p`. -/
def storeOrder (items : List Item) (p : Item → Bool) : List Nat :=
  (items.enum.filter (fun x => p x.2)).map Prod.fst

/-- Spec wording: the exact band. -/
def exactBand (ci : Bool) (items : List Item) (text : List Nat) : List Nat :=
  storeOrder items (fun it => decide (Candidate ci text it ∧ ExactFor ci text it))

/-- Spec wording: the band of the candidates that are not exact and begin with the first token. -/
def beginBand (ci : Bool) (items : List Item) (text : List Nat) : List Nat :=
  storeOrder items
    (fun it => decide (Candidate ci text it ∧ ¬ ExactFor ci text it ∧ BeginsFor ci text it))

/-- Spec wording: the band of the remaining candidates. -/
def restBand (ci : Bool) (items : List Item) (text : List Nat) : List Nat :=
  storeOrder items
    (fun it => decide (Candidate ci text it ∧ ¬ ExactFor ci text it ∧ ¬ BeginsFor ci text it))


/-- The assignment `cursor = nextrune(inc)`: the new cursor, for a result of
`nextrune` that is not negative. -/
def runeStep (text : List Nat) (inc : Int) (c : Nat) : Nat := (nextrune text c inc).toNat

/-- Spec wording: a UTF-8 continuation byte, top two bits `10`. -/
def IsContinuation (b : Nat) : Prop := 0x80 ≤ b ∧ b < 0xC0

instance (b : Nat) : Decidable (IsContinuation b) := by
  unfold IsContinuation; infer_instance

/-- Spec wording: the length a leading byte declares (`0xxxxxxx` one byte,
`110xxxxx` two, `1110xxxx` three, `11110xxx` four), and `0` for a byte that is
not a leading byte. -/
def leaderLen (b : Nat) : Nat :=
  if b < 0x80 then 1
  else if 0xC0 ≤ b ∧ b < 0xE0 then 2
  else if 0xE0 ≤ b ∧ b < 0xF0 then 3
  else if 0xF0 ≤ b ∧ b < 0xF8 then 4
  else 0

/-- Spec wording: the payload bits of a leading byte. -/
def leaderPayload (b : Nat) : Nat :=
  if b < 0x80 then b
  else if b < 0xE0 then b % 32
  else if b < 0xF0 then b % 16
  else b % 8

/-- Spec wording: the code point encoded by the first `len` bytes of `c`, six
payload bits from each byte after the leading byte. -/
def encodedValue (c : List Nat) (len : Nat) : Nat :=
  ((c.take len).drop 1).foldl (fun acc b => acc * 64 + b % 64) (leaderPayload (c.getD 0 0))

/-- Spec wording: the code point is outside the range allowed for an encoding of
length `len` (which for length four includes being above `0x10FFFF`), or is a
surrogate `0xD800..0xDFFF`. -/
def OutOfRange (u len : Nat) : Prop :=
  u < utfmin.getD len 0 ∨ utfmax.getD len 0 < u ∨ (0xD800 ≤ u ∧ u ≤ 0xDFFF)

instance (u len : Nat) : Decidable (OutOfRange u len) := by
  unfold OutOfRange; infer_instance

/-- The amount `calcoffsets` adds for the node at position `p`. -/
def costAt (cfg : Config) (items : List Item) (ms : List Nat) (p : Nat) : Int :=
  itemCost cfg (nodeText items ms p)

/-- The sum of the amounts of the `k` nodes from position `q` on. -/
def pageCost (cfg : Config) (items : List Item) (ms : List Nat) (q : Nat) : Nat → Int
  | 0 => 0
  | k + 1 => costAt cfg items ms q + pageCost cfg items ms (q + 1) k

/-- The page budget admits every single node: the layout is vertical, or the
horizontal pixel budget is not negative. -/
def Budgeted (cfg : Config) : Prop := 0 < cfg.lines ∨ 0 ≤ cfg.budget

instance (cfg : Config) : Decidable (Budgeted cfg) := by
  unfold Budgeted; infer_instance

/-- Spec wording: the text chosen by ConfirmSelection in the code's design, the
selected item's text when an item is selected and Shift is not held, the raw
buffer content otherwise. -/
def chosenText (s : State) (shift : Bool) : List Nat :=
  match s.sel with
  | some p => if shift then cstr s.text else cstr (nodeText s.items s.matched p)
  | none => cstr s.text

/-- Spec wording: `insertAt(cursor, bytes)`, the old content with the bytes
spliced in at the cursor, cut off at the capacity. -/
def spliceAt (old : List Nat) (cursor : Nat) (bytes : List Nat) (cap : Nat) : List Nat :=
  (old.take cursor ++ bytes ++ old.drop cursor).take cap

/-- A Return key event with the given modifiers; the line edit is empty. -/
def returnKey (ctrl shift : Bool) : KeyEvent :=
  { key := .Return, ctrl := ctrl, alt := false, shift := shift, buf := [], len := 0,
    cursorPos := 0 }

/-- The value `calcoffsets` gives to `next` for a given `curr`. -/
def pageNext (cfg : Config) (items : List Item) (ms : List Nat) : Option Nat → Option Nat
  | none => none
  | some c => nextLoop cfg items (ms.drop c) 0 c

/-- The value `calcoffsets` gives to `prev` for a given `curr`. -/
def pagePrev (cfg : Config) (items : List Item) (ms : List Nat) : Option Nat → Option Nat
  | none => none
  | some c => some (prevLoop cfg items ms c 0)

/-- Spec wording: selection containment.  `sel` is `NULL` exactly when the match
list is empty; otherwise `sel` is a position `p` of the match list with
`curr <= p` and `next` either `NULL` or after `p`. -/
def Contained (s : State) : Prop :=
  (s.sel = none ↔ s.matched = []) ∧
    ∀ p, s.sel = some p →
      p < s.matched.length ∧
        ∃ c, s.curr = some c ∧ c ≤ p ∧ (s.next = none ∨ ∃ nx, s.next = some nx ∧ p < nx)

/-- The navigation transitions: Up, Down, Home, End and Tab without the Control
and Alt modifiers, and J and K with the Alt modifier and without Control. -/
def IsNav (ev : KeyEvent) : Prop :=
  ev.ctrl = false ∧
    ((ev.alt = false ∧
        (ev.key = .Up ∨ ev.key = .Down ∨ ev.key = .Home ∨ ev.key = .End ∨ ev.key = .Tab)) ∨
      (ev.alt = true ∧ (ev.key = .J ∨ ev.key = .K)))

instance (ev : KeyEvent) : Decidable (IsNav ev) := by
  unfold IsNav; infer_instance

/-- The session's step relation iterated over a sequence of key events; `none`
when some `keypress` does not return. -/
def run (cfg : Config) : State → List KeyEvent → Option State
  | s, [] => some s
  | s, ev :: evs => (keypress cfg s ev).bind (fun s1 => run cfg s1 evs)

/-- The invariant behind selection containment: the buffer is not of size zero,
`next` and `prev` are what `calcoffsets` computes from `curr`, and `sel` is
`NULL` with an empty match list and `curr = NULL`, or a position of the match
list inside the page that starts at `curr`. -/
def PageInv (cfg : Config) (s : State) : Prop :=
  0 < s.text.length ∧
    s.next = pageNext cfg s.items s.matched s.curr ∧
    s.prev = pagePrev cfg s.items s.matched s.curr ∧
    match s.sel with
    | none => s.matched = [] ∧ s.curr = none
    | some p =>
      p < s.matched.length ∧ ∃ c, s.curr = some c ∧ c ≤ p ∧ ∀ nx, s.next = some nx → p < nx

/-- A plain key event (no modifier) with the line edit's cursor at `cursorPos` in
a text of length `len`. -/
def plainKey (k : Key) (len cursorPos : Nat) : KeyEvent :=
  { key := k, ctrl := false, alt := false, shift := false, buf := [], len := len,
    cursorPos := cursorPos }

/-- The pointers of a chain and the link fields hold the list `xs`: `first` and
`last` are its two ends, the fields link its nodes in order, and no node occurs
twice. -/
def Holds (lk : Links) (ch : Chain) (xs : List Nat) : Prop :=
  ch.first = xs.head? ∧ ch.last = xs.getLast? ∧ SegFrom lk none xs ∧ xs.Nodup

/-- The linked lists of `match` hold the three bands of the list model, the bands
share no node, and every node in them is an item before `idx`. -/
def LinkInv (idx : Nat) (acc : Linked) (b : Bands) : Prop :=
  Holds acc.lk acc.exact b.exact ∧ Holds acc.lk acc.pre b.pre ∧ Holds acc.lk acc.sub b.sub ∧
    (∀ x ∈ b.exact, x < idx) ∧ (∀ x ∈ b.pre, x < idx) ∧ (∀ x ∈ b.sub, x < idx) ∧
    List.Disjoint b.exact b.pre ∧ List.Disjoint b.exact b.sub ∧ List.Disjoint b.pre b.sub
/-! ## Sample data -/

/-- A vertical layout with `lines` rows of height `bh`, case-sensitive. -/
def verticalCfg (lines bh : Nat) : Config :=
  { ci := false, lines := lines, bh := bh, budget := 0, width := fun _ _ => 0 }

/-- A horizontal layout with pixel budget `budget` in which every item measures
`w` pixels (padding included), case-sensitive. -/
def horizontalCfg (budget : Int) (w : Nat) : Config :=
  { ci := false, lines := 0, bh := 1, budget := budget, width := fun _ _ => w }

/-- An item store holding the given texts, no item marked. -/
def mkItems (texts : List (List Nat)) : List Item := texts.map (fun t => ⟨t, false⟩)

/-- The state before the first `match`: the buffer `text`, the loaded items, no
match list yet. -/
def initState (text : List Nat) (items : List Item) : State :=
  { text := text, cursor := 0, items := items, matched := [], prev := none, curr := none,
    next := none, sel := none, out := [], status := .running }

/-- An Alt key event with the line edit's cursor at `cursorPos` in a text of
length `len`. -/
def altKey (k : Key) (len cursorPos : Nat) : KeyEvent :=
  { key := k, ctrl := false, alt := true, shift := false, buf := [], len := len,
    cursorPos := cursorPos }

/-- A walk through a list: two steps down, to the end, one step up, a page back,
a page forward, home, and Tab. -/
def sampleWalk : List KeyEvent :=
  [plainKey .Down 0 0, plainKey .Down 0 0, plainKey .End 1 0, plainKey .Up 0 0,
    altKey .K 0 0, altKey .J 0 0, plainKey .Home 0 0, plainKey .Tab 0 0]

/-- The state left by `match` on the empty query with five one-letter items, in a
buffer of four bytes, in the vertical layout with two rows: the page starts at
the head and `next` is the third match. -/
def fiveItems : State :=
  rematch (verticalCfg 2 1) (initState [0, 0, 0, 0] (mkItems [[97], [98], [99], [100], [101]]))

/-- The four pointers `prev`, `curr`, `next` and `sel` of a state, when the key
sequence returned. -/
def pointers (r : Option State) : Option (Option Nat × Option Nat × Option Nat × Option Nat) :=
  r.map (fun s => (s.prev, s.curr, s.next, s.sel))

/-- A state with a buffer of `n` bytes holding the empty query and one item of `n`
letters `a`, which is the match list, the page and the selection. -/
def longItem (n : Nat) : State :=
  { text := List.replicate n 0, cursor := 0, items := [⟨List.replicate n 97, false⟩],
    matched := [0], prev := some 0, curr := some 0, next := none, sel := some 0, out := [],
    status := .running }

/-- A key that is no command, pressed while the line edit holds a text of `len`
characters whose UTF-8 bytes are `buf`, with its cursor at `cursorPos`. -/
def typedKey (buf : List Nat) (len cursorPos : Nat) : KeyEvent :=
  { key := .other, ctrl := false, alt := false, shift := false, buf := buf, len := len,
    cursorPos := cursorPos }

/-- The state `fiveItems` after the Down key: `sel` is the second match, the page
still starts at the head. -/
def secondSelected : State := keyDown (verticalCfg 2 1) fiveItems
/-! ## Facts about the string functions -/

theorem tolower_eq_zero (c : Nat) : tolower c = 0 ↔ c = 0 := by
  unfold tolower
  by_cases h : 65 ≤ c ∧ c ≤ 90
  · rw [if_pos h]; constructor <;> intro h1 <;> omega
  · rw [if_neg h]

theorem fold_eq_zero (ci : Bool) (c : Nat) : fold ci c = 0 ↔ c = 0 := by
  cases ci <;> simp [fold, tolower_eq_zero]

theorem cstr_nil : cstr [] = [] := rfl

theorem cstr_cons_zero (s : List Nat) : cstr (0 :: s) = [] := by simp [cstr]

theorem cstr_cons_ne (c : Nat) (s : List Nat) (h : c ≠ 0) : cstr (c :: s) = c :: cstr s := by
  simp [cstr, List.takeWhile_cons, h]

theorem cstr_eq_nil_iff (s : List Nat) : cstr s = [] ↔ s.headD 0 = 0 := by
  cases s with
  | nil => simp [cstr]
  | cons c s =>
    by_cases h : c = 0
    · subst h; simp [cstr]
    · simp [cstr_cons_ne c s h, h]

theorem cstr_idem (s : List Nat) : cstr (cstr s) = cstr s := by
  induction s with
  | nil => rfl
  | cons c s ih =>
    by_cases h : c = 0
    · subst h; simp [cstr]
    · rw [cstr_cons_ne c s h, cstr_cons_ne c _ h, ih]

theorem strncmpBy_succ (f : Nat → Nat) (a b : List Nat) (n : Nat) :
    strncmpBy f a b (n + 1) =
      if f (a.headD 0) ≠ f (b.headD 0) then (f (a.headD 0) : Int) - (f (b.headD 0) : Int)
      else if a.headD 0 = 0 then 0
      else strncmpBy f a.tail b.tail n := rfl

theorem strncmpBy_succ_eq_zero (f : Nat → Nat) (a b : List Nat) (n : Nat) :
    strncmpBy f a b (n + 1) = 0 ↔
      (f (a.headD 0) = f (b.headD 0) ∧ (a.headD 0 = 0 ∨ strncmpBy f a.tail b.tail n = 0)) := by
  rw [strncmpBy_succ]
  by_cases e : f (a.headD 0) = f (b.headD 0)
  · rw [if_neg (by simpa using e)]
    by_cases z : a.headD 0 = 0
    · rw [if_pos z]; exact ⟨fun _ => ⟨e, Or.inl z⟩, fun _ => rfl⟩
    · rw [if_neg z]
      exact ⟨fun h => ⟨e, Or.inr h⟩, fun h => h.2.resolve_left z⟩
  · rw [if_pos e]
    constructor
    · intro h; exfalso; apply e; omega
    · intro h; exact absurd h.1 e

/-- Comparing against a string whose first byte is NUL. -/
theorem strncmpBy_one_of_empty (f : Nat → Nat) (hf : ∀ c, f c = 0 ↔ c = 0) (a b : List Nat)
    (ha : a.headD 0 = 0) :
    strncmpBy f a b 1 = 0 ↔ ([] : List Nat) = (cstr b).map f := by
  have h0 : f 0 = 0 := (hf 0).2 rfl
  rw [strncmpBy_succ_eq_zero, ha, h0]
  simp only [true_or, and_true]
  rw [eq_comm, hf, ← cstr_eq_nil_iff]
  cases cstr b <;> simp

theorem strncmpBy_full (f : Nat → Nat) (hf : ∀ c, f c = 0 ↔ c = 0) (a b : List Nat) :
    strncmpBy f a b (strlen a + 1) = 0 ↔ (cstr a).map f = (cstr b).map f := by
  induction a generalizing b with
  | nil => exact strncmpBy_one_of_empty f hf [] b rfl
  | cons c a ih =>
    by_cases hc : c = 0
    · subst hc
      have hl : strlen (0 :: a) = 0 := by simp [strlen, cstr_cons_zero]
      rw [hl, cstr_cons_zero]
      exact strncmpBy_one_of_empty f hf (0 :: a) b rfl
    · have hl : strlen (c :: a) + 1 = (strlen a + 1) + 1 := by
        simp [strlen, cstr_cons_ne c a hc]
      rw [hl, strncmpBy_succ_eq_zero, cstr_cons_ne c a hc]
      simp only [List.headD_cons, List.tail_cons, List.map_cons, hc, false_or]
      have hfc : f c ≠ 0 := fun h => hc ((hf c).1 h)
      have h0 : f 0 = 0 := (hf 0).2 rfl
      cases b with
      | nil => simp [h0, hfc, cstr_nil]
      | cons d b =>
        simp only [List.headD_cons, List.tail_cons]
        by_cases hd : d = 0
        · subst hd
          simp [h0, hfc, cstr_cons_zero]
        · rw [cstr_cons_ne d b hd, ih b]
          simp

theorem strncmpBy_begins (f : Nat → Nat) (hf : ∀ c, f c = 0 ↔ c = 0) (t b : List Nat) :
    strncmpBy f t b (strlen t) = 0 ↔ (cstr t).map f <+: (cstr b).map f := by
  induction t generalizing b with
  | nil => simp [strlen, cstr_nil, strncmpBy]
  | cons c t ih =>
    by_cases hc : c = 0
    · subst hc
      simp [strlen, cstr_cons_zero, strncmpBy]
    · have hl : strlen (c :: t) = strlen t + 1 := by
        simp [strlen, cstr_cons_ne c t hc]
      rw [hl, strncmpBy_succ_eq_zero, cstr_cons_ne c t hc]
      simp only [List.headD_cons, List.tail_cons, List.map_cons, hc, false_or]
      have hfc : f c ≠ 0 := fun h => hc ((hf c).1 h)
      have h0 : f 0 = 0 := (hf 0).2 rfl
      cases b with
      | nil => simp [h0, hfc, cstr_nil]
      | cons d b =>
        simp only [List.headD_cons, List.tail_cons]
        by_cases hd : d = 0
        · subst hd
          simp [h0, hfc, cstr_cons_zero]
        · rw [cstr_cons_ne d b hd, ih b]
          simp [List.cons_prefix_cons]

theorem tolower_zero : tolower 0 = 0 := rfl

theorem cistrstrInner_iff (n h : List Nat) :
    cistrstrInner n h = true ↔ (cstr n).map tolower <+: (cstr h).map tolower := by
  induction n generalizing h with
  | nil => simp [cistrstrInner, cstr_nil]
  | cons c n ih =>
    by_cases hc : c = 0
    · subst hc; simp [cistrstrInner, cstr_cons_zero]
    · have hfc : tolower c ≠ 0 := fun e => hc ((tolower_eq_zero c).1 e)
      rw [cistrstrInner, if_neg hc, cstr_cons_ne c n hc]
      cases h with
      | nil => simp [tolower_zero, hfc, cstr_nil]
      | cons d h =>
        by_cases hd : d = 0
        · subst hd; simp [tolower_zero, hfc, cstr_cons_zero]
        · rw [cstr_cons_ne d h hd]
          simp only [List.headD_cons, List.tail_cons, List.map_cons]
          by_cases e : tolower c = tolower d
          · rw [if_pos e, ih h, e, List.cons_prefix_cons]; simp
          · rw [if_neg e, List.cons_prefix_cons]; simp [e]

theorem cistrstrLoop_iff (n h : List Nat) (k : Nat) (hn : cstr n ≠ []) :
    (cistrstrLoop n h k).isSome = true ↔ (cstr n).map tolower <:+: (cstr h).map tolower := by
  induction h generalizing k with
  | nil => simp [cistrstrLoop, cstr_nil, hn]
  | cons d h ih =>
    by_cases hd : d = 0
    · subst hd; simp [cistrstrLoop, cstr_cons_zero, hn]
    · rw [cistrstrLoop, if_neg hd]
      by_cases hi : cistrstrInner n (d :: h) = true
      · rw [if_pos hi]
        simp only [Option.isSome_some, true_iff]
        exact ((cistrstrInner_iff n (d :: h)).1 hi).isInfix
      · rw [if_neg hi, ih (k + 1), cstr_cons_ne d h hd, List.map_cons, List.infix_cons_iff]
        have hp := (cistrstrInner_iff n (d :: h)).not.1 hi
        rw [cstr_cons_ne d h hd, List.map_cons] at hp
        simp [hp]

theorem cistrstr_isSome_iff (h n : List Nat) :
    (cistrstr h n).isSome = true ↔ (cstr n).map tolower <:+: (cstr h).map tolower := by
  unfold cistrstr
  by_cases hz : n.headD 0 = 0
  · rw [if_pos hz, (cstr_eq_nil_iff n).2 hz]; simp
  · rw [if_neg hz]
    exact cistrstrLoop_iff n h 0 (fun e => hz ((cstr_eq_nil_iff n).1 e))

theorem strstrScan_isSome_iff (n h : List Nat) (k : Nat) :
    (strstrScan n h k).isSome = true ↔ n <:+: h := by
  induction h generalizing k with
  | nil =>
    by_cases hn : n = []
    · simp [strstrScan, hn]
    · simp [strstrScan, hn]
  | cons c h ih =>
    rw [strstrScan, List.infix_cons_iff]
    by_cases hp : n.isPrefixOf (c :: h) = true
    · rw [if_pos hp]
      simp only [Option.isSome_some, true_iff]
      exact Or.inl (List.isPrefixOf_iff_prefix.1 hp)
    · rw [if_neg hp, ih (k + 1)]
      have : ¬ n <+: c :: h := fun e => hp (List.isPrefixOf_iff_prefix.2 e)
      simp [this]

theorem strstr_isSome_iff (h n : List Nat) :
    (strstr h n).isSome = true ↔ cstr n <:+: cstr h :=
  strstrScan_isSome_iff (cstr n) (cstr h) 0

theorem fstrstr_isSome_iff (ci : Bool) (h n : List Nat) :
    (fstrstr ci h n).isSome = true ↔ (cstr n).map (fold ci) <:+: (cstr h).map (fold ci) := by
  cases ci
  · simp [fstrstr, fold, strstr_isSome_iff]
  · simp [fstrstr, fold, cistrstr_isSome_iff]

theorem fstrncmp_full (ci : Bool) (a b : List Nat) :
    fstrncmp ci a b (strlen a + 1) = 0 ↔ (cstr a).map (fold ci) = (cstr b).map (fold ci) := by
  cases ci
  · simpa [fstrncmp, fold, strncmp] using strncmpBy_full id (fun c => Iff.rfl) a b
  · simpa [fstrncmp, fold, strncasecmp] using strncmpBy_full tolower tolower_eq_zero a b

theorem fstrncmp_begins (ci : Bool) (t b : List Nat) :
    fstrncmp ci t b (strlen t) = 0 ↔ (cstr t).map (fold ci) <+: (cstr b).map (fold ci) := by
  cases ci
  · simpa [fstrncmp, fold, strncmp] using strncmpBy_begins id (fun c => Iff.rfl) t b
  · simpa [fstrncmp, fold, strncasecmp] using strncmpBy_begins tolower tolower_eq_zero t b

theorem strtok_some {s t r : List Nat} (h : strtok s = some (t, r)) :
    t ≠ [] ∧ (∀ b ∈ t, b ∈ s) ∧ (∀ b ∈ r, b ∈ s) := by
  unfold strtok at h
  split at h
  · exact absurd h (by simp)
  · rename_i b r0 hd
    simp only [Option.some.injEq, Prod.mk.injEq] at h
    obtain ⟨ht, hr⟩ := h
    have hsub : ∀ x ∈ b :: r0, x ∈ s := by
      intro x hx
      rw [← hd] at hx
      exact (List.dropWhile_sublist _).subset hx
    have hb : b ≠ 32 := by
      have := List.head_dropWhile_not (fun b => b == 32) s (by rw [hd]; simp)
      simpa [hd] using this
    refine ⟨?_, ?_, ?_⟩
    · rw [← ht, List.takeWhile_cons]; simp [hb]
    · intro x hx
      rw [← ht] at hx
      exact hsub x ((List.takeWhile_sublist _).subset hx)
    · intro x hx
      rw [← hr] at hx
      exact hsub x ((List.dropWhile_sublist _).subset (List.mem_of_mem_drop hx))

theorem tokenize_bytes (fuel : Nat) (s : List Nat) :
    ∀ t ∈ tokenize fuel s, t ≠ [] ∧ ∀ b ∈ t, b ∈ s := by
  induction fuel generalizing s with
  | zero => intro t ht; simp [tokenize] at ht
  | succ fuel ih =>
    intro t ht
    unfold tokenize at ht
    split at ht
    · simp at ht
    · rename_i t0 r hs
      obtain ⟨h1, h2, h3⟩ := strtok_some hs
      rcases List.mem_cons.1 ht with e | e
      · subst e; exact ⟨h1, h2⟩
      · obtain ⟨h4, h5⟩ := ih r t e
        exact ⟨h4, fun b hb => h3 b (h5 b hb)⟩

theorem cstr_no_zero (s : List Nat) : ∀ b ∈ cstr s, b ≠ 0 := by
  intro b hb
  have := List.mem_takeWhile_imp hb
  simpa using this

theorem cstr_eq_self {s : List Nat} (h : ∀ b ∈ s, b ≠ 0) : cstr s = s := by
  unfold cstr
  rw [List.takeWhile_eq_self_iff]
  intro b hb; simpa using h b hb

theorem tokens_cstr {text t : List Nat} (ht : t ∈ tokens text) : cstr t = t :=
  cstr_eq_self (fun b hb => cstr_no_zero text b ((tokenize_bytes _ _ t ht).2 b hb))

theorem tokens_headD_cstr (text : List Nat) : cstr ((tokens text).headD []) = (tokens text).headD [] := by
  cases h : tokens text with
  | nil => rfl
  | cons t ts => exact tokens_cstr (by rw [h]; simp)

theorem allTokensMatch_iff (ci : Bool) (text : List Nat) (it : Item) :
    allTokensMatch ci (tokens text) it = true ↔ Candidate ci text it := by
  unfold allTokensMatch Candidate SubstringUnder
  rw [List.all_eq_true]
  constructor
  · intro h t ht
    have := (fstrstr_isSome_iff ci it.text t).1 (h t ht)
    rwa [tokens_cstr ht] at this
  · intro h t ht
    apply (fstrstr_isSome_iff ci it.text t).2
    rw [tokens_cstr ht]; exact h t ht

theorem exactTest_iff (ci : Bool) (text : List Nat) (it : Item) :
    ((tokens text).length = 0 ∨ fstrncmp ci text it.text (strlen text + 1) = 0) ↔
      ExactFor ci text it := by
  unfold ExactFor EqualUnder
  rw [fstrncmp_full, List.length_eq_zero]

theorem beginsTest_iff (ci : Bool) (text : List Nat) (it : Item) :
    fstrncmp ci ((tokens text).headD []) it.text (strlen ((tokens text).headD [])) = 0 ↔
      BeginsFor ci text it := by
  unfold BeginsFor BeginsUnder
  rw [fstrncmp_begins, tokens_headD_cstr]

theorem matchLoop_eq (ci : Bool) (text : List Nat) (rest : List Item) (idx : Nat) (acc : Bands) :
    matchLoop ci text (tokens text) rest idx acc =
      { exact := acc.exact ++ ((rest.enumFrom idx).filter
          (fun x => decide (Candidate ci text x.2 ∧ ExactFor ci text x.2))).map Prod.fst
        pre := acc.pre ++ ((rest.enumFrom idx).filter
          (fun x => decide (Candidate ci text x.2 ∧ ¬ ExactFor ci text x.2 ∧
            BeginsFor ci text x.2))).map Prod.fst
        sub := acc.sub ++ ((rest.enumFrom idx).filter
          (fun x => decide (Candidate ci text x.2 ∧ ¬ ExactFor ci text x.2 ∧
            ¬ BeginsFor ci text x.2))).map Prod.fst } := by
  induction rest generalizing idx acc with
  | nil => simp [matchLoop]
  | cons it rest ih =>
    rw [matchLoop]
    simp only [List.enumFrom_cons, List.filter_cons]
    by_cases hc : Candidate ci text it
    · rw [if_pos ((allTokensMatch_iff ci text it).2 hc)]
      by_cases he : ExactFor ci text it
      · rw [if_pos ((exactTest_iff ci text it).2 he), ih]
        simp [hc, he]
      · rw [if_neg (fun h => he ((exactTest_iff ci text it).1 h))]
        by_cases hb : BeginsFor ci text it
        · rw [if_pos ((beginsTest_iff ci text it).2 hb), ih]
          simp [hc, he, hb]
        · rw [if_neg (fun h => hb ((beginsTest_iff ci text it).1 h)), ih]
          simp [hc, he, hb]
    · rw [if_neg (fun h => hc ((allTokensMatch_iff ci text it).1 h)), ih]
      simp [hc]

theorem spliceBands_eq (b : Bands) : spliceBands b = b.exact ++ b.pre ++ b.sub := by
  unfold spliceBands
  by_cases h1 : b.pre = [] <;> by_cases h2 : b.exact = [] <;> by_cases h3 : b.sub = [] <;>
    simp [h1, h2, h3]

theorem matchBands_eq (ci : Bool) (items : List Item) (text : List Nat) :
    matchBands ci items text =
      ⟨exactBand ci items text, beginBand ci items text, restBand ci items text⟩ := by
  unfold matchBands
  rw [matchLoop_eq]
  simp [exactBand, beginBand, restBand, storeOrder, List.enum]

theorem matchList_eq (ci : Bool) (items : List Item) (text : List Nat) :
    matchList ci items text =
      exactBand ci items text ++ beginBand ci items text ++ restBand ci items text := by
  unfold matchList
  rw [spliceBands_eq, matchBands_eq]

/-! ## The token loop splits the query on spaces -/

theorem tokenize_nil (fuel : Nat) : tokenize fuel [] = [] := by
  cases fuel <;> simp [tokenize, strtok]

theorem strtok_dropWhile (s : List Nat) : strtok (s.dropWhile (fun b => b == 32)) = strtok s := by
  unfold strtok
  rw [List.dropWhile_idempotent]

theorem splitOn_dropWhile (s : List Nat) :
    (s.splitOn 32).filter (fun t => decide (t ≠ [])) =
      ((s.dropWhile (fun b => b == 32)).splitOn 32).filter (fun t => decide (t ≠ [])) := by
  induction s with
  | nil => rfl
  | cons b s ih =>
    by_cases hb : b = 32
    · subst hb
      simp only [List.splitOn, List.splitOnP_cons, beq_self_eq_true, if_true, List.dropWhile_cons]
      simpa [List.splitOn] using ih
    · have : (b == 32) = false := by simpa using hb
      simp [List.dropWhile_cons, this]

theorem tokenize_eq_splitOn (fuel : Nat) (s : List Nat) (h : s.length < fuel) :
    tokenize fuel s = (s.splitOn 32).filter (fun t => decide (t ≠ [])) := by
  induction fuel generalizing s with
  | zero => omega
  | succ fuel ih =>
    rw [splitOn_dropWhile, tokenize, ← strtok_dropWhile]
    have hlen : (s.dropWhile (fun b => b == 32)).length ≤ s.length :=
      (List.dropWhile_sublist _).length_le
    cases hd : s.dropWhile (fun b => b == 32) with
    | nil => simp [strtok, List.splitOn]
    | cons b r =>
      have hb : ¬ (b == 32) = true := by
        have := List.head_dropWhile_not (fun b => b == 32) s (by rw [hd]; simp)
        simpa [hd] using this
      have hst : strtok (b :: r) =
          some ((b :: r).takeWhile (fun c => c != 32),
            ((b :: r).dropWhile (fun c => c != 32)).drop 1) := by
        unfold strtok
        have : (b :: r).dropWhile (fun b => b == 32) = b :: r := by
          rw [List.dropWhile_cons, if_neg hb]
        rw [this]
      rw [hst]
      simp only
      have hsplit := List.takeWhile_append_dropWhile (fun c => c != 32) (b :: r)
      have htk : ∀ x ∈ (b :: r).takeWhile (fun c => c != 32), ¬ (x == 32) = true := by
        intro x hx
        have := List.mem_takeWhile_imp hx
        simpa using this
      have htne : (b :: r).takeWhile (fun c => c != 32) ≠ [] := by
        rw [List.takeWhile_cons]
        have : (b != 32) = true := by simpa using hb
        simp [this]
      cases hr : (b :: r).dropWhile (fun c => c != 32) with
      | nil =>
        rw [hr, List.append_nil] at hsplit
        have h1 : (b :: r).splitOn 32 = [b :: r] := by
          apply List.splitOnP_eq_single
          intro x hx
          rw [← hsplit] at hx
          exact htk x hx
        rw [h1, hsplit]
        simp [tokenize_nil]
      | cons c as =>
        have hc : (c == 32) = true := by
          have := List.head_dropWhile_not (fun c => c != 32) (b :: r) (by rw [hr]; simp)
          simpa [hr] using this
        rw [hr] at hsplit
        have h1 : (b :: r).splitOn 32 =
            (b :: r).takeWhile (fun c => c != 32) :: as.splitOn 32 := by
          conv_lhs => rw [← hsplit]
          exact List.splitOnP_first _ _ htk c hc as
        have hlen2 : as.length < fuel := by
          have h2 := congrArg List.length hsplit
          rw [hd] at hlen
          simp only [List.length_append, List.length_cons] at h2 hlen
          omega
        rw [h1, List.drop_one, List.tail_cons, ih as hlen2, List.filter_cons]
        simp [htne]

/-- The token vector of `match` is the query split on the space byte, without
the empty pieces. -/
theorem tokens_eq_splitOn (text : List Nat) :
    tokens text = ((cstr text).splitOn 32).filter (fun t => decide (t ≠ [])) :=
  tokenize_eq_splitOn _ _ (Nat.lt_succ_self _)

theorem forall_tokens_iff (text : List Nat) (P : List Nat → Prop) (h0 : P []) :
    (∀ t ∈ tokens text, P t) ↔ ∀ t ∈ (cstr text).splitOn 32, P t := by
  rw [tokens_eq_splitOn]
  constructor
  · intro h t ht
    by_cases e : t = []
    · subst e; exact h0
    · exact h t (List.mem_filter.2 ⟨ht, by simpa using e⟩)
  · intro h t ht
    exact h t (List.mem_filter.1 ht).1
/-! ## The matcher -/

theorem storeOrder_mem (items : List Item) (p : Item → Bool) (x : Nat) :
    x ∈ storeOrder items p ↔ ∃ it, items[x]? = some it ∧ p it = true := by
  unfold storeOrder
  simp only [List.mem_map, List.mem_filter, Prod.exists]
  constructor
  · rintro ⟨i, it, ⟨hm, hp⟩, rfl⟩
    exact ⟨it, List.mk_mem_enum_iff_getElem?.1 hm, hp⟩
  · rintro ⟨it, hg, hp⟩
    exact ⟨x, it, ⟨List.mk_mem_enum_iff_getElem?.2 hg, hp⟩, rfl⟩

theorem storeOrder_sublist (items : List Item) (p : Item → Bool) :
    (storeOrder items p).Sublist (List.range items.length) := by
  unfold storeOrder
  rw [← List.enum_map_fst]
  exact (List.filter_sublist _).map _

theorem storeOrder_nodup (items : List Item) (p : Item → Bool) : (storeOrder items p).Nodup :=
  (storeOrder_sublist items p).nodup (List.nodup_range _)

theorem storeOrder_disjoint (items : List Item) (p q : Item → Bool)
    (h : ∀ it, p it = true → q it = true → False) :
    List.Disjoint (storeOrder items p) (storeOrder items q) := by
  intro x hp hq
  obtain ⟨it, hg, h1⟩ := (storeOrder_mem items p x).1 hp
  obtain ⟨it2, hg2, h2⟩ := (storeOrder_mem items q x).1 hq
  rw [hg] at hg2
  cases hg2
  exact h it h1 h2

theorem storeOrder_all (items : List Item) (p : Item → Bool) (h : ∀ it ∈ items, p it = true) :
    storeOrder items p = List.range items.length := by
  unfold storeOrder
  rw [← List.enum_map_fst, List.filter_eq_self.2]
  intro x hx
  have := List.mem_enum_iff_getElem?.1 hx
  exact h x.2 (List.getElem?_mem this)

theorem storeOrder_none (items : List Item) (p : Item → Bool) (h : ∀ it ∈ items, p it = false) :
    storeOrder items p = [] := by
  unfold storeOrder
  rw [List.map_eq_nil_iff, List.filter_eq_nil_iff]
  intro x hx
  have := List.mem_enum_iff_getElem?.1 hx
  have hf := h x.2 (List.getElem?_mem this)
  simp [hf]

theorem matchList_nodup (ci : Bool) (items : List Item) (text : List Nat) :
    (matchList ci items text).Nodup := by
  rw [matchList_eq]
  refine List.Nodup.append (List.Nodup.append (storeOrder_nodup _ _) (storeOrder_nodup _ _) ?_)
    (storeOrder_nodup _ _) ?_
  · apply storeOrder_disjoint
    intro it h1 h2
    simp only [decide_eq_true_eq] at h1 h2
    exact h2.2.1 h1.2
  · rw [List.disjoint_append_left]
    constructor
    · apply storeOrder_disjoint
      intro it h1 h2
      simp only [decide_eq_true_eq] at h1 h2
      exact h2.2.1 h1.2
    · apply storeOrder_disjoint
      intro it h1 h2
      simp only [decide_eq_true_eq] at h1 h2
      exact h2.2.2 h1.2.2

theorem mem_matchList_iff (ci : Bool) (items : List Item) (text : List Nat) (i : Nat) :
    i ∈ matchList ci items text ↔ ∃ it, items[i]? = some it ∧ Candidate ci text it := by
  rw [matchList_eq]
  simp only [List.mem_append, exactBand, beginBand, restBand, storeOrder_mem, decide_eq_true_eq]
  constructor
  · rintro ((⟨it, hg, hc, _⟩ | ⟨it, hg, hc, _⟩) | ⟨it, hg, hc, _⟩) <;> exact ⟨it, hg, hc⟩
  · rintro ⟨it, hg, hc⟩
    by_cases he : ExactFor ci text it
    · exact Or.inl (Or.inl ⟨it, hg, hc, he⟩)
    · by_cases hb : BeginsFor ci text it
      · exact Or.inl (Or.inr ⟨it, hg, hc, he, hb⟩)
      · exact Or.inr ⟨it, hg, hc, he, hb⟩
/-! ## The cursor helper `nextrune` -/

theorem isCont_zero : isCont 0 = false := by decide

theorem getD_strlen (text : List Nat) : text.getD (strlen text) 0 = 0 := by
  induction text with
  | nil => rfl
  | cons c t ih =>
    by_cases hc : c = 0
    · subst hc; simp [strlen, cstr_cons_zero]
    · have : strlen (c :: t) = strlen t + 1 := by simp [strlen, cstr_cons_ne c t hc]
      rw [this, List.getD_cons_succ]; exact ih

theorem strlen_le_length (text : List Nat) : strlen text ≤ text.length :=
  (List.takeWhile_sublist _).length_le

theorem getD_ne_zero_of_lt_strlen (text : List Nat) (k : Nat) (h : k < strlen text) :
    text.getD k 0 ≠ 0 := by
  induction text generalizing k with
  | nil => simp [strlen, cstr_nil] at h
  | cons c t ih =>
    by_cases hc : c = 0
    · subst hc; simp [strlen, cstr_cons_zero] at h
    · have hl : strlen (c :: t) = strlen t + 1 := by simp [strlen, cstr_cons_ne c t hc]
      cases k with
      | zero => simpa using hc
      | succ k =>
        rw [List.getD_cons_succ]
        exact ih k (by omega)

/-- The forward loop stops on the first byte at or after `n` that is not a
continuation byte, whenever the fuel reaches the end of the region. -/
theorem nextruneLoop_forward (text : List Nat) (fuel : Nat) (n : Nat)
    (hf : text.length < n + fuel) :
    ∃ r : Nat, nextruneLoop text 1 fuel (n : Int) = (r : Int) ∧ n ≤ r ∧
      isCont (text.getD r 0) = false ∧ ∀ k, n ≤ k → k < r → isCont (text.getD k 0) = true := by
  induction fuel generalizing n with
  | zero =>
    refine ⟨n, rfl, le_refl _, ?_, fun k h1 h2 => absurd h2 (by omega)⟩
    rw [List.getD_eq_default _ _ (by omega)]; exact isCont_zero
  | succ fuel ih =>
    rw [nextruneLoop]
    by_cases hc : isCont (text.getD n 0) = true
    · have hcond : (n : Int) + 1 ≥ 0 ∧ isCont (text.getD (n : Int).toNat 0) = true :=
        ⟨by omega, by simpa using hc⟩
      rw [if_pos hcond]
      obtain ⟨r, hr, h1, h2, h3⟩ := ih (n + 1) (by omega)
      refine ⟨r, ?_, by omega, h2, ?_⟩
      · rw [← hr]; norm_cast
      · intro k hk1 hk2
        by_cases e : k = n
        · subst e; exact hc
        · exact h3 k (by omega) hk2
    · have hcond : ¬ ((n : Int) + 1 ≥ 0 ∧ isCont (text.getD (n : Int).toNat 0) = true) := by
        intro h; exact hc (by simpa using h.2)
      rw [if_neg hcond]
      exact ⟨n, rfl, le_refl _, by simpa using hc, fun k h1 h2 => absurd h2 (by omega)⟩

/-- The backward loop stops at offset `0` or on the first byte at or before `n`
that is not a continuation byte. -/
theorem nextruneLoop_backward (text : List Nat) (fuel : Nat) (n : Nat) (hf : n < fuel) :
    ∃ r : Nat, nextruneLoop text (-1) fuel (n : Int) = (r : Int) ∧ r ≤ n ∧
      (r = 0 ∨ isCont (text.getD r 0) = false) ∧
      ∀ k, r < k → k ≤ n → isCont (text.getD k 0) = true := by
  induction fuel generalizing n with
  | zero => omega
  | succ fuel ih =>
    rw [nextruneLoop]
    by_cases hc : 1 ≤ n ∧ isCont (text.getD n 0) = true
    · have hcond : (n : Int) + -1 ≥ 0 ∧ isCont (text.getD (n : Int).toNat 0) = true :=
        ⟨by omega, by simpa using hc.2⟩
      rw [if_pos hcond]
      obtain ⟨r, hr, h1, h2, h3⟩ := ih (n - 1) (by omega)
      refine ⟨r, ?_, by omega, h2, ?_⟩
      · rw [← hr]; congr 1; omega
      · intro k hk1 hk2
        by_cases e : k = n
        · subst e; exact hc.2
        · exact h3 k hk1 (by omega)
    · have hcond : ¬ ((n : Int) + -1 ≥ 0 ∧ isCont (text.getD (n : Int).toNat 0) = true) := by
        intro h; exact hc ⟨by omega, by simpa using h.2⟩
      rw [if_neg hcond]
      refine ⟨n, rfl, le_refl _, ?_, fun k h1 h2 => absurd h2 (by omega)⟩
      by_cases h0 : n = 0
      · exact Or.inl h0
      · right
        by_contra hn
        exact hc ⟨by omega, by simpa using hn⟩

/-- One application of `nextrune(+1)`: the result is past the cursor, on a byte
that is not a continuation byte, and every byte skipped is one. -/
theorem nextrune_forward (text : List Nat) (c : Nat) :
    ∃ r : Nat, nextrune text c 1 = (r : Int) ∧ c < r ∧ isCont (text.getD r 0) = false ∧
      ∀ k, c < k → k < r → isCont (text.getD k 0) = true := by
  obtain ⟨r, hr, h1, h2, h3⟩ := nextruneLoop_forward text (text.length + 1) (c + 1) (by omega)
  refine ⟨r, ?_, by omega, h2, fun k hk1 hk2 => h3 k (by omega) hk2⟩
  unfold nextrune
  rw [← hr]; norm_cast

theorem nextrune_forward_le (text : List Nat) (c : Nat) (hc : c < strlen text) :
    ∃ r : Nat, nextrune text c 1 = (r : Int) ∧ c < r ∧ r ≤ strlen text ∧
      isCont (text.getD r 0) = false := by
  obtain ⟨r, hr, h1, h2, h3⟩ := nextrune_forward text c
  refine ⟨r, hr, h1, ?_, h2⟩
  by_contra hgt
  have := h3 (strlen text) hc (by omega)
  rw [getD_strlen, isCont_zero] at this
  exact absurd this (by simp)

/-- One application of `nextrune(-1)` at a cursor that is not `0`: the result is
before the cursor, and is offset `0` or a byte that is not a continuation byte. -/
theorem nextrune_backward (text : List Nat) (c : Nat) (hc : 0 < c) :
    ∃ r : Nat, nextrune text c (-1) = (r : Int) ∧ r < c ∧
      (r = 0 ∨ isCont (text.getD r 0) = false) := by
  by_cases hlen : c - 1 < text.length + 1
  · obtain ⟨r, hr, h1, h2, _⟩ := nextruneLoop_backward text (text.length + 1) (c - 1) hlen
    refine ⟨r, ?_, by omega, h2⟩
    unfold nextrune
    rw [← hr]; congr 1; omega
  · refine ⟨c - 1, ?_, by omega, Or.inr ?_⟩
    · unfold nextrune
      rw [nextruneLoop]
      have hg : text.getD ((c : Int) + -1).toNat 0 = 0 :=
        List.getD_eq_default _ _ (by omega)
      rw [if_neg (by rw [hg, isCont_zero]; simp)]
      omega
    · rw [List.getD_eq_default _ _ (by omega)]; exact isCont_zero

theorem runeStep_forward (text : List Nat) (c : Nat) (hc : c < strlen text) :
    c < runeStep text 1 c ∧ runeStep text 1 c ≤ strlen text ∧
      isCont (text.getD (runeStep text 1 c) 0) = false := by
  obtain ⟨r, hr, h1, h2, h3⟩ := nextrune_forward_le text c hc
  have : runeStep text 1 c = r := by unfold runeStep; rw [hr]; simp
  rw [this]; exact ⟨h1, h2, h3⟩

theorem runeStep_backward (text : List Nat) (c : Nat) (hc : 0 < c) :
    runeStep text (-1) c < c ∧
      (runeStep text (-1) c = 0 ∨ isCont (text.getD (runeStep text (-1) c) 0) = false) := by
  obtain ⟨r, hr, h1, h2⟩ := nextrune_backward text c hc
  have : runeStep text (-1) c = r := by unfold runeStep; rw [hr]; simp
  rw [this]; exact ⟨h1, h2⟩

theorem runeStep_forward_iterate (text : List Nat) (d c : Nat) (hd : strlen text - c ≤ d)
    (hc : c ≤ strlen text) :
    ∃ k, k ≤ strlen text - c ∧ (runeStep text 1)^[k] c = strlen text ∧
      (∀ j, j < k → (runeStep text 1)^[j] c < strlen text) ∧
      ∀ j, j ≤ k → c ≤ (runeStep text 1)^[j] c ∧ (runeStep text 1)^[j] c ≤ strlen text ∧
        (0 < j → isCont (text.getD ((runeStep text 1)^[j] c) 0) = false) := by
  induction d generalizing c with
  | zero =>
    have : c = strlen text := by omega
    refine ⟨0, by omega, by simpa using this, fun j hj => absurd hj (by omega), ?_⟩
    intro j hj
    have : j = 0 := by omega
    subst this
    simp [hc]
  | succ d ih =>
    by_cases he : c = strlen text
    · refine ⟨0, by omega, by simpa using he, fun j hj => absurd hj (by omega), ?_⟩
      intro j hj
      have : j = 0 := by omega
      subst this
      simp [hc]
    · have hlt : c < strlen text := by omega
      obtain ⟨h1, h2, h3⟩ := runeStep_forward text c hlt
      obtain ⟨k, hk, hreach, hbefore, hall⟩ := ih (runeStep text 1 c) (by omega) h2
      refine ⟨k + 1, by omega, ?_, ?_, ?_⟩
      · rw [Function.iterate_succ_apply]; exact hreach
      · intro j hj
        cases j with
        | zero => simpa using hlt
        | succ j => rw [Function.iterate_succ_apply]; exact hbefore j (by omega)
      · intro j hj
        cases j with
        | zero => simp [hc]
        | succ j =>
          rw [Function.iterate_succ_apply]
          obtain ⟨a1, a2, a3⟩ := hall j (by omega)
          refine ⟨by omega, a2, fun _ => ?_⟩
          cases j with
          | zero => simpa using h3
          | succ j => exact a3 (by omega)

theorem runeStep_backward_iterate (text : List Nat) (c : Nat) :
    ∃ k, k ≤ c ∧ (runeStep text (-1))^[k] c = 0 ∧
      (∀ j, j < k → 0 < (runeStep text (-1))^[j] c) ∧
      ∀ j, j ≤ k → (runeStep text (-1))^[j] c ≤ c ∧
        (0 < j → (runeStep text (-1))^[j] c = 0 ∨
          isCont (text.getD ((runeStep text (-1))^[j] c) 0) = false) := by
  induction c using Nat.strong_induction_on with
  | _ c ih =>
    by_cases he : c = 0
    · refine ⟨0, by omega, by simpa using he, fun j hj => absurd hj (by omega), ?_⟩
      intro j hj
      have : j = 0 := by omega
      subst this
      simp
    · have hpos : 0 < c := by omega
      obtain ⟨h1, h2⟩ := runeStep_backward text c hpos
      obtain ⟨k, hk, hreach, hbefore, hall⟩ := ih (runeStep text (-1) c) h1
      refine ⟨k + 1, by omega, ?_, ?_, ?_⟩
      · rw [Function.iterate_succ_apply]; exact hreach
      · intro j hj
        cases j with
        | zero => simpa using hpos
        | succ j => rw [Function.iterate_succ_apply]; exact hbefore j (by omega)
      · intro j hj
        cases j with
        | zero => simp
        | succ j =>
          rw [Function.iterate_succ_apply]
          obtain ⟨a1, a3⟩ := hall j (by omega)
          refine ⟨by omega, fun _ => ?_⟩
          cases j with
          | zero => simpa using h2
          | succ j => exact a3 (by omega)
/-! ## The UTF-8 decoder -/

set_option maxRecDepth 100000 in
theorem utf8decodebyte_class :
    ∀ b, b < 256 → (utf8decodebyte b).2 =
      if 0x80 ≤ b ∧ b < 0xC0 then 0 else if leaderLen b = 0 then 5 else leaderLen b := by
  decide

set_option maxRecDepth 100000 in
theorem utf8decodebyte_continuation :
    ∀ b, b < 256 → 0x80 ≤ b ∧ b < 0xC0 → (utf8decodebyte b).1 = b % 64 := by
  decide

set_option maxRecDepth 100000 in
theorem utf8decodebyte_leader :
    ∀ b, b < 256 → 1 ≤ leaderLen b → (utf8decodebyte b).1 = leaderPayload b := by
  decide

theorem getD_lt_of_forall {c : List Nat} (hb : ∀ b ∈ c, b < 256) (i : Nat) : c.getD i 0 < 256 := by
  by_cases h : i < c.length
  · rw [List.getD_eq_getElem _ _ h]; exact hb _ (List.getElem_mem h)
  · rw [List.getD_eq_default _ _ (by omega)]; omega

theorem utf8decodebyte_class_continuation {b : Nat} (hb : b < 256) (h : IsContinuation b) :
    (utf8decodebyte b).2 = 0 := by
  rw [utf8decodebyte_class b hb, if_pos (by unfold IsContinuation at h; exact h)]

theorem utf8decodebyte_class_other {b : Nat} (hb : b < 256) (h : ¬ IsContinuation b) :
    (utf8decodebyte b).2 ≠ 0 := by
  rw [utf8decodebyte_class b hb, if_neg (by unfold IsContinuation at h; exact h)]
  split_ifs <;> omega

theorem utf8decodebyte_class_leader {b : Nat} (hb : b < 256) (h : 1 ≤ leaderLen b) :
    (utf8decodebyte b).2 = leaderLen b := by
  have hnc : ¬ (0x80 ≤ b ∧ b < 0xC0) := by
    intro hc
    unfold leaderLen at h
    split_ifs at h <;> omega
  rw [utf8decodebyte_class b hb, if_neg hnc, if_neg (by omega)]

theorem leaderLen_le (b : Nat) : leaderLen b ≤ 4 := by
  unfold leaderLen; split_ifs <;> omega

theorem shift_or_payload (u d : Nat) (hd : d < 64) : (u <<< 6) ||| d = u * 64 + d := by
  rw [Nat.shiftLeft_eq]
  have := Nat.mul_add_lt_is_or (i := 6) (by simpa using hd) u
  rw [Nat.mul_comm] at this
  exact this.symm

/-- The loop over trailing bytes that are all continuation bytes runs to the end
of the declared length or of the input and accumulates six bits per byte. -/
theorem utf8decodeLoop_continuations (c : List Nat) (len : Nat) (hb : ∀ b ∈ c, b < 256) :
    ∀ fuel j u, j ≤ min len c.length → min len c.length - j ≤ fuel →
      (∀ i, j ≤ i → i < len → i < c.length → IsContinuation (c.getD i 0)) →
      utf8decodeLoop c c.length len fuel j j u =
        .inr (min len c.length,
          ((c.take (min len c.length)).drop j).foldl (fun acc b => acc * 64 + b % 64) u) := by
  intro fuel
  induction fuel with
  | zero =>
    intro j u hj hf _
    have : j = min len c.length := by omega
    rw [utf8decodeLoop, ← this]
    rw [List.drop_eq_nil_of_le (by simp)]
    rfl
  | succ fuel ih =>
    intro j u hj hf hall
    rw [utf8decodeLoop]
    by_cases hlt : j < c.length ∧ j < len
    · rw [if_pos hlt]
      have hcont := hall j le_rfl hlt.2 hlt.1
      have hlt256 := getD_lt_of_forall hb j
      rw [if_neg (by rw [utf8decodebyte_class_continuation hlt256 hcont]; simp)]
      rw [ih (j + 1) _ (by omega) (by omega) (fun i h1 h2 h3 => hall i (by omega) h2 h3)]
      rw [utf8decodebyte_continuation _ hlt256 hcont,
        shift_or_payload _ _ (Nat.mod_lt _ (by omega))]
      have hj' : j < (c.take (min len c.length)).length := by
        rw [List.length_take]; omega
      rw [List.drop_eq_getElem_cons hj', List.foldl_cons]
      have hget : (c.take (min len c.length))[j] = c.getD j 0 := by
        rw [List.getElem_take, List.getD_eq_getElem _ _ hlt.1]
      rw [hget]
    · rw [if_neg hlt]
      have : j = min len c.length := by omega
      rw [← this, List.drop_eq_nil_of_le (by simp)]
      rfl

/-- The loop returns early at the first trailing byte that is not a continuation
byte. -/
theorem utf8decodeLoop_bad (c : List Nat) (len k : Nat) (hb : ∀ b ∈ c, b < 256)
    (hk1 : k < len) (hk2 : k < c.length) (hbad : ¬ IsContinuation (c.getD k 0)) :
    ∀ fuel j u, j ≤ k → k - j < fuel →
      (∀ i, j ≤ i → i < k → IsContinuation (c.getD i 0)) →
      utf8decodeLoop c c.length len fuel j j u = .inl k := by
  intro fuel
  induction fuel with
  | zero => intro j u hj hf; omega
  | succ fuel ih =>
    intro j u hj hf hall
    rw [utf8decodeLoop, if_pos (by omega)]
    by_cases e : j = k
    · subst e
      rw [if_pos (utf8decodebyte_class_other (getD_lt_of_forall hb j) hbad)]
    · have hcont := hall j le_rfl (by omega)
      rw [if_neg (by rw [utf8decodebyte_class_continuation (getD_lt_of_forall hb j) hcont]; simp)]
      exact ih (j + 1) _ (by omega) (by omega) (fun i h1 h2 => hall i (by omega) h2)

theorem utf8validate_out_of_range (u len : Nat) (h : OutOfRange u len) :
    (utf8validate u len).1 = UTF_INVALID := by
  unfold utf8validate
  simp only
  rw [if_pos]
  unfold OutOfRange at h
  simp only [BETWEEN, Bool.or_eq_true, Bool.not_eq_true', Bool.and_eq_false_iff,
    decide_eq_false_iff_not, Bool.and_eq_true, decide_eq_true_eq]
  rcases h with h | h | h
  · exact Or.inl (Or.inl (by omega))
  · exact Or.inl (Or.inr (by omega))
  · exact Or.inr h

theorem utf8decode_unfold_leader (c : List Nat) (hb : ∀ b ∈ c, b < 256) (hne : c ≠ [])
    (hl : 1 ≤ leaderLen (c.getD 0 0)) :
    utf8decode c c.length =
      match utf8decodeLoop c c.length (leaderLen (c.getD 0 0)) UTF_SIZ 1 1
          (leaderPayload (c.getD 0 0)) with
      | .inl j => (UTF_INVALID, j)
      | .inr (j, u) =>
        if j < leaderLen (c.getD 0 0) then (UTF_INVALID, 0)
        else ((utf8validate u (leaderLen (c.getD 0 0))).1, leaderLen (c.getD 0 0)) := by
  have h0 := getD_lt_of_forall hb 0
  have hlen : c.length ≠ 0 := by simpa [List.length_eq_zero] using hne
  unfold utf8decode
  rw [if_neg hlen, utf8decodebyte_class_leader h0 hl, utf8decodebyte_leader _ h0 hl]
  have hle := leaderLen_le (c.getD 0 0)
  have hbt : BETWEEN (leaderLen (c.getD 0 0)) 1 UTF_SIZ = true := by
    unfold BETWEEN UTF_SIZ
    rw [decide_eq_true hl, decide_eq_true hle]; rfl
  rw [hbt]
  simp
/-! ## The pager `calcoffsets` -/

theorem itemCost_nonneg (cfg : Config) (str : List Nat) : 0 ≤ itemCost cfg str := by
  unfold itemCost; split_ifs <;> omega

theorem itemCost_le_budget (cfg : Config) (h : Budgeted cfg) (str : List Nat) :
    itemCost cfg str ≤ pageBudget cfg := by
  unfold itemCost pageBudget
  by_cases hl : cfg.lines > 0
  · rw [if_pos hl, if_pos hl]
    have : (1 : Int) ≤ (cfg.lines : Int) := by omega
    nlinarith [Int.ofNat_nonneg cfg.bh]
  · rw [if_neg hl, if_neg hl]
    have hb : 0 ≤ cfg.budget := by
      rcases h with h | h
      · exact absurd h hl
      · exact h
    unfold textw_clamp
    have h1 : ((min (cfg.width str (cfg.budget % 4294967296).toNat)
        (cfg.budget % 4294967296).toNat : Nat) : Int) ≤ ((cfg.budget % 4294967296).toNat : Int) := by
      exact_mod_cast Nat.min_le_right _ _
    omega

theorem nextLoop_range (cfg : Config) (items : List Item) (r : List Nat) (i : Int) (p : Nat) :
    ∀ t, nextLoop cfg items r i p = some t → p ≤ t ∧ t < p + r.length := by
  induction r generalizing i p with
  | nil => intro t h; simp [nextLoop] at h
  | cons x r ih =>
    intro t h
    rw [nextLoop] at h
    split_ifs at h with hc
    · cases h; simp
    · have := ih _ _ t h
      simp only [List.length_cons]; omega

theorem drop_eq_cons {ms : List Nat} {q : Nat} (h : q < ms.length) :
    ms.drop q = ms[q] :: ms.drop (q + 1) := List.drop_eq_getElem_cons h

theorem nodeText_eq {items : List Item} {ms : List Nat} {q : Nat} (h : q < ms.length) :
    nodeText items ms q = itemText items ms[q] := by
  unfold nodeText
  rw [List.getElem?_eq_getElem h]

/-- The forward walk does not stop on the first `k` nodes when their amounts fit
in what is left of the budget. -/
theorem nextLoop_skip (cfg : Config) (items : List Item) (ms : List Nat) (k : Nat) :
    ∀ q i, q + k ≤ ms.length → i + pageCost cfg items ms q k ≤ pageBudget cfg →
      nextLoop cfg items (ms.drop q) i q =
        nextLoop cfg items (ms.drop (q + k)) (i + pageCost cfg items ms q k) (q + k) := by
  induction k with
  | zero => intro q i _ _; simp [pageCost]
  | succ k ih =>
    intro q i hq hi
    have hql : q < ms.length := by omega
    rw [drop_eq_cons hql, nextLoop]
    rw [pageCost] at hi
    have hnn : ∀ q k, 0 ≤ pageCost cfg items ms q k := by
      intro q k
      induction k generalizing q with
      | zero => simp [pageCost]
      | succ k ih2 =>
        rw [pageCost]
        have := itemCost_nonneg cfg (nodeText items ms q)
        have := ih2 (q + 1)
        unfold costAt; omega
    have h1 := hnn (q + 1) k
    have hc : costAt cfg items ms q = itemCost cfg (itemText items ms[q]) := by
      unfold costAt; rw [nodeText_eq hql]
    rw [← hc, if_neg (by omega), ih (q + 1) _ (by omega) (by omega), pageCost]
    have e1 : q + 1 + k = q + (k + 1) := by omega
    have e2 : i + costAt cfg items ms q + pageCost cfg items ms (q + 1) k =
        i + (costAt cfg items ms q + pageCost cfg items ms (q + 1) k) := by omega
    rw [e1, e2]

theorem pageCost_snoc (cfg : Config) (items : List Item) (ms : List Nat) (k : Nat) :
    ∀ q, pageCost cfg items ms q (k + 1) =
      pageCost cfg items ms q k + costAt cfg items ms (q + k) := by
  induction k with
  | zero => intro q; simp [pageCost]
  | succ k ih =>
    intro q
    rw [pageCost, ih (q + 1), pageCost]
    have : q + 1 + k = q + (k + 1) := by omega
    rw [this]; omega

/-- The backward walk stops `k` nodes before its start, and the amounts of these
`k` nodes fit in what was left of the budget. -/
theorem prevLoop_spec (cfg : Config) (items : List Item) (ms : List Nat) (p : Nat) :
    ∀ i, i ≤ pageBudget cfg →
      ∃ k, k ≤ p ∧ prevLoop cfg items ms p i = p - k ∧
        i + pageCost cfg items ms (p - k) k ≤ pageBudget cfg := by
  induction p with
  | zero => intro i hi; exact ⟨0, le_rfl, rfl, by simpa [pageCost] using hi⟩
  | succ p ih =>
    intro i hi
    rw [prevLoop]
    by_cases hc : i + itemCost cfg (nodeText items ms p) > pageBudget cfg
    · rw [if_pos hc]
      exact ⟨0, by omega, rfl, by simpa [pageCost] using hi⟩
    · rw [if_neg hc]
      obtain ⟨k, hk, he, hs⟩ := ih (i + itemCost cfg (nodeText items ms p)) (by omega)
      refine ⟨k + 1, by omega, ?_, ?_⟩
      · rw [he]; omega
      · have e : p + 1 - (k + 1) = p - k := by omega
        rw [e, pageCost_snoc]
        have e2 : p - k + k = p := by omega
        rw [e2]
        unfold costAt
        omega

theorem prevLoop_le (cfg : Config) (items : List Item) (ms : List Nat) (p : Nat) (i : Int) :
    prevLoop cfg items ms p i ≤ p := by
  induction p generalizing i with
  | zero => simp [prevLoop]
  | succ p ih =>
    rw [prevLoop]
    split_ifs
    · exact le_rfl
    · exact le_trans (ih _) (Nat.le_succ _)

/-- In a budgeted layout the backward walk from a node that is not the head moves
at least one node. -/
theorem prevLoop_lt (cfg : Config) (h : Budgeted cfg) (items : List Item) (ms : List Nat)
    (p : Nat) (hp : 0 < p) : prevLoop cfg items ms p 0 < p := by
  cases p with
  | zero => omega
  | succ p =>
    rw [prevLoop, if_neg]
    · exact Nat.lt_succ_of_le (prevLoop_le _ _ _ _ _)
    · have := itemCost_le_budget cfg h (nodeText items ms p)
      omega

/-- In a budgeted layout the page computed from `c` holds the node at `c`. -/
theorem nextLoop_gt (cfg : Config) (h : Budgeted cfg) (items : List Item) (ms : List Nat)
    (c : Nat) : ∀ t, nextLoop cfg items (ms.drop c) 0 c = some t → c < t := by
  intro t ht
  by_cases hc : c < ms.length
  · have hs := nextLoop_skip cfg items ms 1 c 0 (by omega)
      (by
        simp only [pageCost]
        have := itemCost_le_budget cfg h (nodeText items ms c)
        unfold costAt; omega)
    rw [hs] at ht
    have := nextLoop_range _ _ _ _ _ t ht
    omega
  · rw [List.drop_eq_nil_of_le (by omega)] at ht
    simp [nextLoop] at ht

/-- In a budgeted layout the page computed from the start of the previous page
reaches the current page: its `next` is not before `c`. -/
theorem nextLoop_from_prev (cfg : Config) (h : Budgeted cfg) (items : List Item)
    (ms : List Nat) (c : Nat) (hc : c ≤ ms.length) :
    ∀ t, nextLoop cfg items (ms.drop (prevLoop cfg items ms c 0)) 0
        (prevLoop cfg items ms c 0) = some t → c ≤ t := by
  intro t ht
  have hb : (0 : Int) ≤ pageBudget cfg :=
    le_trans (itemCost_nonneg cfg []) (itemCost_le_budget cfg h [])
  obtain ⟨k, hk, he, hs⟩ := prevLoop_spec cfg items ms c 0 hb
  rw [he] at ht
  rw [nextLoop_skip cfg items ms k (c - k) 0 (by omega) hs] at ht
  have := nextLoop_range _ _ _ _ _ t ht
  omega

theorem itemCost_vertical (cfg : Config) (hl : 0 < cfg.lines) (str : List Nat) :
    itemCost cfg str = (cfg.bh : Int) := by
  unfold itemCost; rw [if_pos hl]

theorem pageBudget_vertical (cfg : Config) (hl : 0 < cfg.lines) :
    pageBudget cfg = (cfg.lines : Int) * (cfg.bh : Int) := by
  unfold pageBudget; rw [if_pos hl]

theorem rows_exceed_iff (lines bh k : Nat) (hbh : 0 < bh) (hk : k ≤ lines) :
    ((k : Int) * (bh : Int) + (bh : Int) > (lines : Int) * (bh : Int)) ↔ k = lines := by
  constructor
  · intro h
    by_contra hne
    have h1 : k + 1 ≤ lines := by omega
    have h2 : (k + 1) * bh ≤ lines * bh := Nat.mul_le_mul_right _ h1
    have h3 : ((k : Int) + 1) * (bh : Int) ≤ (lines : Int) * (bh : Int) := by exact_mod_cast h2
    nlinarith
  · intro h
    subst h
    have : (0 : Int) < (bh : Int) := by exact_mod_cast hbh
    omega

/-- Vertical layout: after `k` rows, the forward walk stops `lines - k` nodes on,
when there is a node there. -/
theorem nextLoop_vertical (cfg : Config) (hl : 0 < cfg.lines) (hbh : 0 < cfg.bh)
    (items : List Item) (r : List Nat) :
    ∀ k p, k ≤ cfg.lines →
      nextLoop cfg items r ((k : Int) * (cfg.bh : Int)) p =
        if cfg.lines - k < r.length then some (p + (cfg.lines - k)) else none := by
  induction r with
  | nil => intro k p _; simp [nextLoop]
  | cons x r ih =>
    intro k p hk
    rw [nextLoop, itemCost_vertical cfg hl, pageBudget_vertical cfg hl]
    by_cases e : k = cfg.lines
    · rw [if_pos ((rows_exceed_iff _ _ _ hbh hk).2 e)]
      subst e
      simp
    · rw [if_neg (fun h => e ((rows_exceed_iff _ _ _ hbh hk).1 h))]
      have hk1 : k + 1 ≤ cfg.lines := by omega
      have := ih (k + 1) (p + 1) hk1
      have ecast : ((k + 1 : Nat) : Int) * (cfg.bh : Int) = (k : Int) * (cfg.bh : Int) + cfg.bh := by
        push_cast; ring
      rw [ecast] at this
      rw [this]
      simp only [List.length_cons]
      by_cases hlen : cfg.lines - (k + 1) < r.length
      · rw [if_pos hlen, if_pos (by omega)]
        congr 1; omega
      · rw [if_neg hlen, if_neg (by omega)]

/-- Vertical layout: after `k` rows, the backward walk stops `lines - k` nodes
back, or at the head. -/
theorem prevLoop_vertical (cfg : Config) (hl : 0 < cfg.lines) (hbh : 0 < cfg.bh)
    (items : List Item) (ms : List Nat) (p : Nat) :
    ∀ k, k ≤ cfg.lines →
      prevLoop cfg items ms p ((k : Int) * (cfg.bh : Int)) = p - (cfg.lines - k) := by
  induction p with
  | zero => intro k _; simp [prevLoop]
  | succ p ih =>
    intro k hk
    rw [prevLoop, itemCost_vertical cfg hl, pageBudget_vertical cfg hl]
    by_cases e : k = cfg.lines
    · rw [if_pos ((rows_exceed_iff _ _ _ hbh hk).2 e)]
      subst e
      simp
    · rw [if_neg (fun h => e ((rows_exceed_iff _ _ _ hbh hk).1 h))]
      have hk1 : k + 1 ≤ cfg.lines := by omega
      have := ih (k + 1) hk1
      have ecast : ((k + 1 : Nat) : Int) * (cfg.bh : Int) = (k : Int) * (cfg.bh : Int) + cfg.bh := by
        push_cast; ring
      rw [ecast] at this
      rw [this]
      omega

theorem calcoffsets_some (cfg : Config) (s : State) (c : Nat) (hc : s.curr = some c) :
    calcoffsets cfg s =
      { s with
        next := nextLoop cfg s.items (s.matched.drop c) 0 c
        prev := some (prevLoop cfg s.items s.matched c 0) } := by
  unfold calcoffsets; rw [hc]

theorem calcoffsets_none (cfg : Config) (s : State) (hc : s.curr = none) :
    calcoffsets cfg s = { s with next := none, prev := none } := by
  unfold calcoffsets; rw [hc]
/-! ## The linked representation holds the match list -/

theorem SegFrom.frame {lk lk1 : Links} {p : Option Nat} {ys : List Nat}
    (h : SegFrom lk p ys)
    (hf : ∀ y ∈ ys, lk1.left y = lk.left y ∧ lk1.right y = lk.right y) :
    SegFrom lk1 p ys := by
  induction ys generalizing p with
  | nil => trivial
  | cons y ys ih =>
    obtain ⟨h1, h2, h3⟩ := h
    have hy := hf y (List.mem_cons_self _ _)
    exact ⟨by rw [hy.1, h1], by rw [hy.2, h2],
      ih h3 (fun z hz => hf z (List.mem_cons_of_mem _ hz))⟩

theorem follow_of_segFrom {lk : Links} {p : Option Nat} {xs : List Nat} (h : SegFrom lk p xs) :
    ∀ fuel, xs.length ≤ fuel → follow lk fuel xs.head? = xs := by
  induction xs generalizing p with
  | nil => intro fuel _; cases fuel <;> rfl
  | cons x xs ih =>
    intro fuel hf
    obtain ⟨_, h2, h3⟩ := h
    cases fuel with
    | zero => simp at hf
    | succ fuel =>
      simp only [List.head?_cons, follow]
      rw [h2, ih h3 fuel (by simpa using hf)]

/-- Appending a fresh node after the end `e` of a list: `e->right = item` when
there is an end, `item->left = e`, `item->right = NULL`. -/
theorem SegFrom.snoc {lk : Links} {p : Option Nat} {xs : List Nat} (item : Nat)
    (h : SegFrom lk p xs) (hnd : xs.Nodup) (hni : item ∉ xs) (e : Nat)
    (he : (match xs.getLast? with
      | some l => some l
      | none => p) = some e) :
    SegFrom
      { left := Function.update lk.left item (some e)
        right := Function.update (Function.update lk.right e (some item)) item none }
      p (xs ++ [item]) := by
  induction xs generalizing p with
  | nil =>
    simp only [List.getLast?_nil] at he
    subst he
    refine ⟨?_, ?_, trivial⟩
    · simp
    · simp
  | cons x rest ih =>
    obtain ⟨h1, h2, h3⟩ := h
    have hxi : x ≠ item := fun e1 => hni (by rw [e1]; exact List.mem_cons_self _ _)
    have hnd' := (List.nodup_cons.1 hnd)
    have hni' : item ∉ rest := fun hm => hni (List.mem_cons_of_mem _ hm)
    have he' : (match rest.getLast? with
      | some l => some l
      | none => some x) = some e := by
      cases rest with
      | nil => simpa using he
      | cons y ys =>
        rw [List.getLast?_cons_cons] at he
        exact he
    refine ⟨?_, ?_, ih h3 hnd'.2 hni' he'⟩
    · show Function.update lk.left item (some e) x = p
      rw [Function.update_noteq hxi]; exact h1
    · show Function.update (Function.update lk.right e (some item)) item none x =
        (rest ++ [item]).head?
      rw [Function.update_noteq hxi]
      cases rest with
      | nil =>
        simp only [List.getLast?_nil, Option.some.injEq] at he'
        subst he'
        simp
      | cons y ys =>
        have hxe : x ≠ e := by
          intro e1
          have hl : (y :: ys).getLast? = some e := by
            cases hg : (y :: ys).getLast? with
            | none => simp at hg
            | some l => rw [hg] at he'; simpa using he'
          have : e ∈ y :: ys := List.mem_of_getLast?_eq_some hl
          exact hnd'.1 (by rw [e1]; exact this)
        rw [Function.update_noteq hxe, h2]
        rfl

theorem Holds.nil (lk : Links) : Holds lk ⟨none, none⟩ [] :=
  ⟨rfl, rfl, trivial, List.nodup_nil⟩

/-- The function `appenditem` appends the fresh node to the list it is given. -/
theorem Holds.snoc_item {lk : Links} {ch : Chain} {xs : List Nat} (item : Nat)
    (h : Holds lk ch xs) (hni : item ∉ xs) :
    Holds (appenditem lk item ch).1 (appenditem lk item ch).2 (xs ++ [item]) := by
  obtain ⟨hf, hl, hs, hnd⟩ := h
  have hnd2 : (xs ++ [item]).Nodup := by
    rw [List.nodup_append]
    exact ⟨hnd, List.nodup_singleton _, by
      intro a ha hb
      rw [List.mem_singleton] at hb
      exact hni (hb ▸ ha)⟩
  unfold Qdmenu.appenditem
  cases hlast : ch.last with
  | none =>
    have hx : xs = [] := by
      rw [hlast] at hl
      exact List.getLast?_eq_none_iff.1 hl.symm
    subst hx
    refine ⟨rfl, rfl, ⟨?_, ?_, trivial⟩, hnd2⟩
    · simp
    · simp
  | some e =>
    have hne : xs ≠ [] := by
      intro e1; subst e1; rw [hlast] at hl; simp at hl
    refine ⟨?_, ?_, ?_, hnd2⟩
    · show ch.first = (xs ++ [item]).head?
      rw [hf, List.head?_append_of_ne_nil _ hne]
    · show some item = (xs ++ [item]).getLast?
      simp
    · apply SegFrom.snoc item hs hnd hni e
      rw [← hl, hlast]

/-- Calling `appenditem` on one list leaves another list, which shares no node with it
and does not hold the new node, as it was. -/
theorem Holds.other_item {lk : Links} {ch ch2 : Chain} {xs ys : List Nat} (item : Nat)
    (h : Holds lk ch xs) (h2 : Holds lk ch2 ys) (hni : item ∉ ys) (hd : List.Disjoint xs ys) :
    Holds (appenditem lk item ch).1 ch2 ys := by
  obtain ⟨hf, hl, hs, hnd⟩ := h2
  refine ⟨hf, hl, ?_, hnd⟩
  apply hs.frame
  intro y hy
  have hyi : y ≠ item := fun e1 => hni (e1 ▸ hy)
  unfold Qdmenu.appenditem
  cases hlast : ch.last with
  | none =>
    exact ⟨Function.update_noteq hyi _ _, Function.update_noteq hyi _ _⟩
  | some e =>
    have he : e ∈ xs := by
      have := h.2.1
      rw [hlast] at this
      exact List.mem_of_getLast?_eq_some this.symm
    have hye : y ≠ e := fun e1 => hd he (e1 ▸ hy)
    refine ⟨Function.update_noteq hyi _ _, ?_⟩
    show Function.update (Function.update lk.right e (some item)) item none y = lk.right y
    rw [Function.update_noteq hyi, Function.update_noteq hye]

/-- Linking the list `f :: ys` after the end `e` of a list: `e->right = f` and
`f->left = e`. -/
theorem SegFrom.concat {lk : Links} {p : Option Nat} {xs : List Nat} (f : Nat) (ys : List Nat)
    (e : Nat) (h : SegFrom lk p xs) (h2 : SegFrom lk none (f :: ys)) (hnd : xs.Nodup)
    (hnd2 : (f :: ys).Nodup) (hd : List.Disjoint xs (f :: ys)) (hne : xs ≠ [])
    (he : xs.getLast? = some e) :
    SegFrom
      { left := Function.update lk.left f (some e)
        right := Function.update lk.right e (some f) }
      p (xs ++ f :: ys) := by
  induction xs generalizing p with
  | nil => exact absurd rfl hne
  | cons x rest ih =>
    obtain ⟨h1, h3, h4⟩ := h
    have hxf : x ≠ f := fun e1 =>
      hd (List.mem_cons_self _ _) (e1 ▸ List.mem_cons_self _ _)
    have hnd' := List.nodup_cons.1 hnd
    have hd' : List.Disjoint rest (f :: ys) := fun a ha hb => hd (List.mem_cons_of_mem _ ha) hb
    cases rest with
    | nil =>
      simp only [List.getLast?_singleton, Option.some.injEq] at he
      subst he
      obtain ⟨g1, g2, g3⟩ := h2
      have hnf := List.nodup_cons.1 hnd2
      refine ⟨?_, ?_, ?_, ?_, ?_⟩
      · show Function.update lk.left f (some x) x = p
        rw [Function.update_noteq hxf]; exact h1
      · show Function.update lk.right x (some f) x = _
        simp
      · show Function.update lk.left f (some x) f = some x
        simp
      · show Function.update lk.right x (some f) f = ys.head?
        rw [Function.update_noteq (Ne.symm hxf)]; exact g2
      · apply g3.frame
        intro y hy
        have hyf : y ≠ f := fun e1 => hnf.1 (e1 ▸ hy)
        have hyx : y ≠ x := fun e1 =>
          hd (List.mem_cons_self _ _) (e1 ▸ List.mem_cons_of_mem _ hy)
        exact ⟨Function.update_noteq hyf _ _, Function.update_noteq hyx _ _⟩
    | cons y rest2 =>
      rw [List.getLast?_cons_cons] at he
      have hxe : x ≠ e := by
        intro e1
        exact hnd'.1 (e1 ▸ List.mem_of_getLast?_eq_some he)
      refine ⟨?_, ?_, ih h4 hnd'.2 hd' (by simp) he⟩
      · show Function.update lk.left f (some e) x = p
        rw [Function.update_noteq hxf]; exact h1
      · show Function.update lk.right e (some f) x = _
        rw [Function.update_noteq hxe, h3]
        rfl

/-- The linking at the end of `match` links the second list after the first. -/
theorem Holds.linked {lk : Links} {m l : Chain} {xs ys : List Nat} (h : Holds lk m xs)
    (h2 : Holds lk l ys) (hd : List.Disjoint xs ys) :
    Holds (linkAfter lk m l).1 (linkAfter lk m l).2 (xs ++ ys) := by
  obtain ⟨hf, hl, hs, hnd⟩ := h
  obtain ⟨gf, gl, gs, gnd⟩ := h2
  unfold Qdmenu.linkAfter
  cases ys with
  | nil =>
    rw [gf]
    simp only [List.head?_nil, List.append_nil]
    exact ⟨hf, hl, hs, hnd⟩
  | cons f ys =>
    rw [gf]
    simp only [List.head?_cons]
    cases xs with
    | nil =>
      rw [hf]
      simp only [List.head?_nil, List.nil_append]
      exact ⟨rfl, gl, gs, gnd⟩
    | cons a xs =>
      rw [hf]
      simp only [List.head?_cons]
      cases hlast : (a :: xs).getLast? with
      | none => simp at hlast
      | some e =>
        rw [hl, hlast]
        simp only
        have hnd3 : (a :: xs ++ f :: ys).Nodup := by
          rw [List.nodup_append]
          exact ⟨hnd, gnd, fun x hx hy => hd hx hy⟩
        refine ⟨rfl, ?_, ?_, hnd3⟩
        · show l.last = (a :: xs ++ f :: ys).getLast?
          rw [gl, List.getLast?_append_of_ne_nil _ (by simp)]
        · exact SegFrom.concat f ys e hs gs hnd gnd hd (by simp) hlast

theorem not_mem_of_lt {xs : List Nat} {idx : Nat} (h : ∀ x ∈ xs, x < idx) : idx ∉ xs :=
  fun hm => Nat.lt_irrefl _ (h idx hm)

theorem lt_succ_of_mem_snoc {xs : List Nat} {idx : Nat} (h : ∀ x ∈ xs, x < idx) :
    ∀ x ∈ xs ++ [idx], x < idx + 1 := by
  intro x hx
  rcases List.mem_append.1 hx with h1 | h1
  · exact Nat.lt_succ_of_lt (h x h1)
  · rw [List.mem_singleton] at h1; omega

theorem disjoint_snoc_left {xs ys : List Nat} {idx : Nat} (hd : List.Disjoint xs ys)
    (h : idx ∉ ys) : List.Disjoint (xs ++ [idx]) ys := by
  intro a ha hb
  rcases List.mem_append.1 ha with h1 | h1
  · exact hd h1 hb
  · rw [List.mem_singleton] at h1; exact h (h1 ▸ hb)

theorem disjoint_snoc_right {xs ys : List Nat} {idx : Nat} (hd : List.Disjoint xs ys)
    (h : idx ∉ xs) : List.Disjoint xs (ys ++ [idx]) :=
  fun _ ha hb => disjoint_snoc_left (fun _ h1 h2 => hd h2 h1) h hb ha

/-- The item loop on the linked representation keeps step with the item loop on
lists. -/
theorem linkLoop_inv (ci : Bool) (text : List Nat) (tokv : List (List Nat)) (items : List Item) :
    ∀ idx acc b, LinkInv idx acc b →
      LinkInv (idx + items.length) (linkLoop ci text tokv items idx acc)
        (matchLoop ci text tokv items idx b) := by
  induction items with
  | nil => intro idx acc b h; exact h
  | cons it rest ih =>
    intro idx acc b h
    obtain ⟨hE, hP, hS, bE, bP, bS, dEP, dES, dPS⟩ := h
    have lt1 : ∀ {xs : List Nat}, (∀ x ∈ xs, x < idx) → ∀ x ∈ xs, x < idx + 1 :=
      fun h x hx => Nat.lt_succ_of_lt (h x hx)
    have elen : idx + (it :: rest).length = idx + 1 + rest.length := by
      simp only [List.length_cons]; omega
    rw [elen, linkLoop, matchLoop]
    by_cases hc : allTokensMatch ci tokv it = true
    · rw [if_pos hc, if_pos hc]
      by_cases he : tokv.length = 0 ∨ fstrncmp ci text it.text (strlen text + 1) = 0
      · rw [if_pos he, if_pos he]
        apply ih
        exact ⟨hE.snoc_item idx (not_mem_of_lt bE),
          hE.other_item idx hP (not_mem_of_lt bP) dEP,
          hE.other_item idx hS (not_mem_of_lt bS) dES,
          lt_succ_of_mem_snoc bE, lt1 bP, lt1 bS,
          disjoint_snoc_left dEP (not_mem_of_lt bP),
          disjoint_snoc_left dES (not_mem_of_lt bS), dPS⟩
      · rw [if_neg he, if_neg he]
        by_cases hb : fstrncmp ci (tokv.headD []) it.text (strlen (tokv.headD [])) = 0
        · rw [if_pos hb, if_pos hb]
          apply ih
          exact ⟨hP.other_item idx hE (not_mem_of_lt bE) (fun _ h1 h2 => dEP h2 h1),
            hP.snoc_item idx (not_mem_of_lt bP),
            hP.other_item idx hS (not_mem_of_lt bS) dPS,
            lt1 bE, lt_succ_of_mem_snoc bP, lt1 bS,
            disjoint_snoc_right dEP (not_mem_of_lt bE), dES,
            disjoint_snoc_left dPS (not_mem_of_lt bS)⟩
        · rw [if_neg hb, if_neg hb]
          apply ih
          exact ⟨hS.other_item idx hE (not_mem_of_lt bE) (fun _ h1 h2 => dES h2 h1),
            hS.other_item idx hP (not_mem_of_lt bP) (fun _ h1 h2 => dPS h2 h1),
            hS.snoc_item idx (not_mem_of_lt bS),
            lt1 bE, lt1 bP, lt_succ_of_mem_snoc bS, dEP,
            disjoint_snoc_right dES (not_mem_of_lt bE),
            disjoint_snoc_right dPS (not_mem_of_lt bP)⟩
    · rw [if_neg hc, if_neg hc]
      apply ih
      exact ⟨hE, hP, hS, lt1 bE, lt1 bP, lt1 bS, dEP, dES, dPS⟩

/-- The linking of a second list after a first leaves a third list, which shares
no node with either, as it was. -/
theorem Holds.linked_other {lk : Links} {m l c : Chain} {xs ys zs : List Nat}
    (h : Holds lk m xs) (h2 : Holds lk l ys) (h3 : Holds lk c zs)
    (hd1 : List.Disjoint xs zs) (hd2 : List.Disjoint ys zs) :
    Holds (linkAfter lk m l).1 c zs := by
  obtain ⟨gf, gl, gs, gnd⟩ := h3
  refine ⟨gf, gl, ?_, gnd⟩
  apply gs.frame
  intro y hy
  unfold Qdmenu.linkAfter
  cases hlf : l.first with
  | none => exact ⟨rfl, rfl⟩
  | some f =>
    cases hmf : m.first with
    | none => exact ⟨rfl, rfl⟩
    | some a =>
      cases hml : m.last with
      | none => exact ⟨rfl, rfl⟩
      | some e =>
        have hfm : f ∈ ys := by
          have := h2.1
          rw [hlf] at this
          exact List.mem_of_mem_head? (by rw [← this]; rfl)
        have hem : e ∈ xs := by
          have := h.2.1
          rw [hml] at this
          exact List.mem_of_getLast?_eq_some this.symm
        have hyf : y ≠ f := fun e1 => hd2 hfm (e1 ▸ hy)
        have hye : y ≠ e := fun e1 => hd1 hem (e1 ▸ hy)
        exact ⟨Function.update_noteq hyf _ _, Function.update_noteq hye _ _⟩

/-- The linked list that `match` builds, from whatever the link fields held
before, is the list model: `matches` and `matchend` are the two ends of
`matchList`, each node's `left` and `right` are its neighbours in `matchList`
(`NULL` at the ends), and following `right` from `matches` yields `matchList`. -/
theorem linkedMatch_is_matchList (ci : Bool) (items : List Item) (text : List Nat)
    (lk0 : Links) :
    Holds (linkedMatch ci items text lk0).1 (linkedMatch ci items text lk0).2
        (matchList ci items text) ∧
      follow (linkedMatch ci items text lk0).1 (matchList ci items text).length
        (linkedMatch ci items text lk0).2.first = matchList ci items text := by
  have hinv := linkLoop_inv ci text (tokens text) items 0
    { lk := lk0, exact := ⟨none, none⟩, pre := ⟨none, none⟩, sub := ⟨none, none⟩ } ⟨[], [], []⟩
    ⟨Holds.nil lk0, Holds.nil lk0, Holds.nil lk0, by simp, by simp, by simp, by simp, by simp,
      by simp⟩
  obtain ⟨hE, hP, hS, _, _, _, dEP, dES, dPS⟩ := hinv
  have h1 := hE.linked hP dEP
  have hS2 := hE.linked_other hP hS dES dPS
  have hd : List.Disjoint
      ((matchLoop ci text (tokens text) items 0 ⟨[], [], []⟩).exact ++
        (matchLoop ci text (tokens text) items 0 ⟨[], [], []⟩).pre)
      (matchLoop ci text (tokens text) items 0 ⟨[], [], []⟩).sub := by
    intro a ha hb
    rcases List.mem_append.1 ha with h | h
    · exact dES h hb
    · exact dPS h hb
  have h2 := h1.linked hS2 hd
  have hfin : Holds (linkedMatch ci items text lk0).1 (linkedMatch ci items text lk0).2
      (matchList ci items text) := by
    unfold matchList matchBands
    rw [spliceBands_eq]
    exact h2
  exact ⟨hfin, by
    have := follow_of_segFrom hfin.2.2.1 _ (le_refl _)
    rw [← hfin.1] at this
    exact this⟩
/-! ## Selection containment -/

theorem calcoffsets_eq (cfg : Config) (s : State) :
    calcoffsets cfg s =
      { s with
        next := pageNext cfg s.items s.matched s.curr
        prev := pagePrev cfg s.items s.matched s.curr } := by
  unfold calcoffsets
  cases h : s.curr <;> simp [pageNext, pagePrev]

theorem PageInv.contained {cfg : Config} {s : State} (h : PageInv cfg s) : Contained s := by
  obtain ⟨_, _, _, hsel⟩ := h
  unfold Contained
  cases hs : s.sel with
  | none =>
    rw [hs] at hsel
    exact ⟨⟨fun _ => hsel.1, fun _ => rfl⟩, fun p hp => Option.noConfusion hp⟩
  | some p =>
    rw [hs] at hsel
    obtain ⟨hp, c, hc, hcp, hnx⟩ := hsel
    refine ⟨⟨fun h => Option.noConfusion h, fun h => ?_⟩, ?_⟩
    · rw [h] at hp; simp at hp
    · intro q hq
      cases hq
      refine ⟨hp, c, hc, hcp, ?_⟩
      cases hn : s.next with
      | none => exact Or.inl rfl
      | some nx => exact Or.inr ⟨nx, rfl, hnx nx hn⟩

/-- Recomputing the page after putting `curr` at `c` and `sel` at `p`, when the
page computed from `c` holds `p`. -/
theorem PageInv.of_calcoffsets (cfg : Config) (s : State) (c p : Nat)
    (hlen : 0 < s.text.length) (hc : s.curr = some c) (hs : s.sel = some p)
    (hp : p < s.matched.length) (hcp : c ≤ p)
    (hnx : ∀ nx, pageNext cfg s.items s.matched (some c) = some nx → p < nx) :
    PageInv cfg (calcoffsets cfg s) := by
  rw [calcoffsets_eq]
  refine ⟨hlen, rfl, rfl, ?_⟩
  simp only [hs]
  exact ⟨hp, c, hc, hcp, fun nx h => hnx nx (by rw [← hc]; exact h)⟩

/-- Putting both `sel` and `curr` on a node of the list and recomputing the page. -/
theorem PageInv.jump (cfg : Config) (hB : Budgeted cfg) (s : State) (q : Nat)
    (hlen : 0 < s.text.length) (hq : q < s.matched.length) :
    PageInv cfg (calcoffsets cfg { s with sel := some q, curr := some q }) := by
  apply PageInv.of_calcoffsets cfg { s with sel := some q, curr := some q } q q hlen rfl rfl hq
    le_rfl
  intro nx h
  exact nextLoop_gt cfg hB s.items s.matched q nx h

theorem PageInv.empty (cfg : Config) (s : State) (hlen : 0 < s.text.length)
    (hm : s.matched = []) :
    PageInv cfg (calcoffsets cfg { s with sel := none, curr := none }) := by
  rw [calcoffsets_eq]
  exact ⟨hlen, rfl, rfl, hm, rfl⟩

theorem PageInv.rematch (cfg : Config) (hB : Budgeted cfg) (s : State)
    (hlen : 0 < s.text.length) : PageInv cfg (rematch cfg s) := by
  unfold Qdmenu.rematch
  simp only
  by_cases hm : matchList cfg.ci s.items s.text = []
  · rw [if_pos hm]
    exact PageInv.empty cfg { s with matched := matchList cfg.ci s.items s.text } hlen hm
  · rw [if_neg hm]
    exact PageInv.jump cfg hB { s with matched := matchList cfg.ci s.items s.text } 0 hlen
      (List.length_pos.2 hm)

theorem PageInv.next_lt {cfg : Config} {s : State} (h : PageInv cfg s) (q : Nat)
    (hq : s.next = some q) : q < s.matched.length := by
  obtain ⟨_, hn, _, _⟩ := h
  rw [hn] at hq
  cases hc : s.curr with
  | none => rw [hc] at hq; simp [pageNext] at hq
  | some c =>
    rw [hc] at hq
    have := nextLoop_range _ _ _ _ _ q hq
    rw [List.length_drop] at this
    omega

theorem PageInv.curr_lt {cfg : Config} {s : State} (h : PageInv cfg s) (c : Nat)
    (hc : s.curr = some c) : c < s.matched.length := by
  obtain ⟨_, _, _, hsel⟩ := h
  cases hs : s.sel with
  | none => rw [hs] at hsel; rw [hsel.2] at hc; cases hc
  | some p =>
    rw [hs] at hsel
    obtain ⟨hp, c', hc', hcp, _⟩ := hsel
    rw [hc] at hc'; cases hc'
    omega

theorem PageInv.prev_lt {cfg : Config} {s : State} (h : PageInv cfg s) (q : Nat)
    (hq : s.prev = some q) : q < s.matched.length := by
  have h' := h
  obtain ⟨_, _, hp, _⟩ := h
  rw [hp] at hq
  cases hc : s.curr with
  | none => rw [hc] at hq; simp [pagePrev] at hq
  | some c =>
    rw [hc] at hq
    simp only [pagePrev, Option.some.injEq] at hq
    have := prevLoop_le cfg s.items s.matched c 0
    have := h'.curr_lt c hc
    omega

theorem PageInv.set_cursor {cfg : Config} {s : State} (h : PageInv cfg s) (k : Nat) :
    PageInv cfg { s with cursor := k } := h

theorem PageInv.keyUp (cfg : Config) (hB : Budgeted cfg) (s : State) (h : PageInv cfg s) :
    PageInv cfg (keyUp cfg s) := by
  have h0 := h
  obtain ⟨hlen, hn, hpv, hsel⟩ := h
  unfold Qdmenu.keyUp
  cases hs : s.sel with
  | none => exact h0
  | some p =>
    rw [hs] at hsel
    obtain ⟨hp, c, hc, hcp, hnx⟩ := hsel
    simp only
    by_cases hp0 : 0 < p
    · have hl : left p = some (p - 1) := by unfold left; rw [if_pos hp0]
      rw [hl]
      simp only
      by_cases hpc : some p = s.curr
      · rw [if_pos hpc]
        have hcp' : c = p := by rw [hc] at hpc; cases hpc; rfl
        subst hcp'
        have hprev : s.prev = some (prevLoop cfg s.items s.matched c 0) := by
          rw [hpv, hc]; rfl
        rw [hprev]
        apply PageInv.of_calcoffsets cfg
          { s with sel := some (c - 1), curr := some (prevLoop cfg s.items s.matched c 0) }
          (prevLoop cfg s.items s.matched c 0) (c - 1) hlen rfl rfl
          (show c - 1 < s.matched.length by omega)
        · have := prevLoop_lt cfg hB s.items s.matched c hp0
          omega
        · intro nx hnx2
          have := nextLoop_from_prev cfg hB s.items s.matched c (by omega) nx hnx2
          omega
      · rw [if_neg hpc]
        refine ⟨hlen, hn, hpv, ?_⟩
        have hne : c ≠ p := fun e => hpc (by rw [hc, e])
        exact ⟨show p - 1 < s.matched.length by omega, c, hc, by omega,
          fun nx hx => by have := hnx nx hx; omega⟩
    · have hl : left p = none := by unfold left; rw [if_neg hp0]
      rw [hl]
      exact h0

theorem PageInv.keyDown (cfg : Config) (hB : Budgeted cfg) (s : State) (h : PageInv cfg s) :
    PageInv cfg (keyDown cfg s) := by
  have h0 := h
  obtain ⟨hlen, hn, hpv, hsel⟩ := h
  unfold Qdmenu.keyDown
  cases hs : s.sel with
  | none => exact h0
  | some p =>
    rw [hs] at hsel
    obtain ⟨hp, c, hc, hcp, hnx⟩ := hsel
    simp only
    by_cases hp1 : p + 1 < s.matched.length
    · have hr : right s p = some (p + 1) := by unfold right; rw [if_pos hp1]
      rw [hr]
      simp only
      by_cases hpn : some (p + 1) = s.next
      · rw [if_pos hpn, ← hpn]
        exact PageInv.jump cfg hB s (p + 1) hlen hp1
      · rw [if_neg hpn]
        refine ⟨hlen, hn, hpv, ?_⟩
        refine ⟨hp1, c, hc, by omega, fun nx hx => ?_⟩
        have := hnx nx hx
        have hne : nx ≠ p + 1 := fun e => hpn (by rw [hx, e])
        omega
    · have hr : right s p = none := by unfold right; rw [if_neg hp1]
      rw [hr]
      exact h0

theorem PageInv.altJ (cfg : Config) (hB : Budgeted cfg) (s : State) (h : PageInv cfg s) (q : Nat)
    (hq : s.next = some q) :
    PageInv cfg (calcoffsets cfg { s with sel := some q, curr := some q }) :=
  PageInv.jump cfg hB s q h.1 (h.next_lt q hq)

theorem PageInv.altK (cfg : Config) (hB : Budgeted cfg) (s : State) (h : PageInv cfg s) (q : Nat)
    (hq : s.prev = some q) :
    PageInv cfg (calcoffsets cfg { s with sel := some q, curr := some q }) :=
  PageInv.jump cfg hB s q h.1 (h.prev_lt q hq)

theorem PageInv.home (cfg : Config) (hB : Budgeted cfg) (s : State) (h : PageInv cfg s) :
    PageInv cfg (calcoffsets cfg { s with sel := head s, curr := head s }) := by
  unfold head
  by_cases hm : s.matched = []
  · rw [if_pos hm]
    exact PageInv.empty cfg s h.1 hm
  · rw [if_neg hm]
    exact PageInv.jump cfg hB s 0 h.1 (List.length_pos.2 hm)

theorem state_eq_of_page {t : State} {c : Option Nat} {n p : Option Nat} (hc : t.curr = c)
    (hn : t.next = n) (hp : t.prev = p) : t = { t with curr := c, next := n, prev := p } := by
  cases t
  simp only at hc hn hp
  subst hc hn hp
  rfl

/-- The loop of the End key moves `curr` right until the page reaches the end of
the list, and then stops with `next = NULL`. -/
theorem endLoop_spec (cfg : Config) (hB : Budgeted cfg) :
    ∀ fuel (t : State) (c : Nat), t.curr = some c → c < t.matched.length →
      t.next = pageNext cfg t.items t.matched (some c) →
      t.prev = pagePrev cfg t.items t.matched (some c) →
      t.matched.length - c ≤ fuel →
      ∃ c1, c ≤ c1 ∧ c1 < t.matched.length ∧
        pageNext cfg t.items t.matched (some c1) = none ∧
        endLoop cfg fuel t =
          { t with curr := some c1, next := none,
                   prev := pagePrev cfg t.items t.matched (some c1) } := by
  intro fuel
  induction fuel with
  | zero => intro t c _ hlt _ _ hf; omega
  | succ fuel ih =>
    intro t c hc hlt hn hp hf
    rw [endLoop]
    cases hnx : t.next with
    | none =>
      refine ⟨c, le_rfl, hlt, by rw [← hn, hnx], ?_⟩
      simp only
      exact state_eq_of_page hc hnx hp
    | some nx =>
      simp only
      have hnx2 : nextLoop cfg t.items (t.matched.drop c) 0 c = some nx := by
        rw [hn] at hnx; exact hnx
      have h1 := nextLoop_gt cfg hB t.items t.matched c nx hnx2
      have h2 := nextLoop_range _ _ _ _ _ nx hnx2
      rw [List.length_drop] at h2
      have hc1 : c + 1 < t.matched.length := by omega
      have hr : t.curr.bind (right t) = some (c + 1) := by
        rw [hc]; simp only [Option.bind, right]; rw [if_pos hc1]
      rw [hr]
      simp only
      rw [calcoffsets_eq]
      obtain ⟨c1, a1, a2, a3, a4⟩ := ih
        { t with curr := some (c + 1),
                 next := pageNext cfg t.items t.matched (some (c + 1)),
                 prev := pagePrev cfg t.items t.matched (some (c + 1)) }
        (c + 1) rfl hc1 rfl rfl (by simp only; omega)
      refine ⟨c1, by omega, a2, a3, ?_⟩
      rw [a4]

theorem PageInv.sel_tail (cfg : Config) (t : State) (c1 : Nat) (hlen : 0 < t.text.length)
    (hm : t.matched ≠ []) (hc : t.curr = some c1) (hc1 : c1 < t.matched.length)
    (hn : t.next = none) (hnx : pageNext cfg t.items t.matched (some c1) = none)
    (hp : t.prev = pagePrev cfg t.items t.matched (some c1)) :
    PageInv cfg { t with sel := matchend t } := by
  have hme : matchend t = some (t.matched.length - 1) := by
    unfold matchend; rw [if_neg hm]
  rw [hme]
  refine ⟨hlen, ?_, ?_, ?_⟩
  · show t.next = pageNext cfg t.items t.matched t.curr
    rw [hn, hc, hnx]
  · show t.prev = pagePrev cfg t.items t.matched t.curr
    rw [hp, hc]
  · exact ⟨show t.matched.length - 1 < t.matched.length by omega, c1, hc,
      show c1 ≤ t.matched.length - 1 by omega,
      fun nx hx => by
        have hx' : t.next = some nx := hx
        rw [hn] at hx'; cases hx'⟩

theorem PageInv.keyEnd (cfg : Config) (hB : Budgeted cfg) (s : State) (h : PageInv cfg s) :
    PageInv cfg (keyEnd cfg s) := by
  have h0 := h
  obtain ⟨hlen, hn, hpv, hsel⟩ := h
  unfold Qdmenu.keyEnd
  cases hnx : s.next with
  | none =>
    simp only
    refine ⟨hlen, (by show none = _; rw [← hn, hnx]), hpv, ?_⟩
    cases hs : s.sel with
    | none =>
      rw [hs] at hsel
      have hme : matchend s = none := by unfold matchend; rw [if_pos hsel.1]
      rw [hme]
      exact ⟨hsel.1, hsel.2⟩
    | some p =>
      rw [hs] at hsel
      obtain ⟨hp, c, hc, hcp, _⟩ := hsel
      have hm : s.matched ≠ [] := by intro e; rw [e] at hp; simp at hp
      have hme : matchend s = some (s.matched.length - 1) := by
        unfold matchend; rw [if_neg hm]
      rw [hme]
      exact ⟨show s.matched.length - 1 < s.matched.length by omega, c, hc,
        show c ≤ s.matched.length - 1 by omega,
        fun nx hx => Option.noConfusion hx⟩
  | some nx =>
    simp only
    have hnl := h0.next_lt nx hnx
    have hm : s.matched ≠ [] := by intro e; rw [e] at hnl; simp at hnl
    have hme : matchend s = some (s.matched.length - 1) := by
      unfold matchend; rw [if_neg hm]
    rw [hme, calcoffsets_eq]
    simp only
    rw [calcoffsets_eq]
    simp only [pagePrev]
    have hq := prevLoop_le cfg s.items s.matched (s.matched.length - 1) 0
    obtain ⟨c1, a1, a2, a3, a4⟩ := endLoop_spec cfg hB (s.matched.length + 1)
      { s with curr := some (prevLoop cfg s.items s.matched (s.matched.length - 1) 0),
               next := pageNext cfg s.items s.matched
                 (some (prevLoop cfg s.items s.matched (s.matched.length - 1) 0)),
               prev := pagePrev cfg s.items s.matched
                 (some (prevLoop cfg s.items s.matched (s.matched.length - 1) 0)) }
      (prevLoop cfg s.items s.matched (s.matched.length - 1) 0) rfl
      (show prevLoop cfg s.items s.matched (s.matched.length - 1) 0 < s.matched.length by omega)
      rfl rfl (by simp only; omega)
    simp only [pagePrev] at a4
    rw [a4]
    simp only at a2 a3
    exact PageInv.sel_tail cfg
      { s with curr := some c1, next := none, prev := some (prevLoop cfg s.items s.matched c1 0) }
      c1 hlen hm rfl a2 rfl a3 rfl

theorem keypress_up (cfg : Config) (s : State) (ev : KeyEvent) (hc : ev.ctrl = false)
    (ha : ev.alt = false) (hk : ev.key = .Up) :
    keypress cfg s ev = some (keyUp cfg { s with cursor := ev.cursorPos }) := by
  unfold keypress; simp only [hc, ha, hk, Bool.false_eq_true, if_false]

theorem keypress_down (cfg : Config) (s : State) (ev : KeyEvent) (hc : ev.ctrl = false)
    (ha : ev.alt = false) (hk : ev.key = .Down) :
    keypress cfg s ev = some (keyDown cfg { s with cursor := ev.cursorPos }) := by
  unfold keypress; simp only [hc, ha, hk, Bool.false_eq_true, if_false]

theorem keypress_home (cfg : Config) (s : State) (ev : KeyEvent) (hc : ev.ctrl = false)
    (ha : ev.alt = false) (hk : ev.key = .Home) :
    keypress cfg s ev =
      if s.sel = head s then some { s with cursor := 0 }
      else some (calcoffsets cfg
        { s with cursor := ev.cursorPos, sel := head s, curr := head s }) := by
  unfold keypress; simp only [hc, ha, hk, Bool.false_eq_true, if_false]; rfl

theorem keypress_end (cfg : Config) (s : State) (ev : KeyEvent) (hc : ev.ctrl = false)
    (ha : ev.alt = false) (hk : ev.key = .End) :
    keypress cfg s ev =
      if ev.cursorPos = ev.len then some { s with cursor := strlen s.text }
      else some (keyEnd cfg { s with cursor := ev.cursorPos }) := by
  unfold keypress; simp only [hc, ha, hk, Bool.false_eq_true, if_false]

theorem keypress_tab (cfg : Config) (s : State) (ev : KeyEvent) (hc : ev.ctrl = false)
    (ha : ev.alt = false) (hk : ev.key = .Tab) :
    keypress cfg s ev =
      match s.sel with
      | none => some { s with cursor := ev.cursorPos }
      | some p =>
        if min (strlen (nodeText s.items s.matched p)) (s.text.length - 1) < s.text.length then
          some (rematch cfg
            { s with
              cursor := min (strlen (nodeText s.items s.matched p)) (s.text.length - 1)
              text :=
                ((nodeText s.items s.matched p).take
                    (min (strlen (nodeText s.items s.matched p)) (s.text.length - 1)) ++
                  s.text.drop (min (strlen (nodeText s.items s.matched p)) (s.text.length - 1))).set
                  (min (strlen (nodeText s.items s.matched p)) (s.text.length - 1)) 0 })
        else none := by
  unfold keypress; simp only [hc, ha, hk, Bool.false_eq_true, if_false]

theorem keypress_altJ (cfg : Config) (s : State) (ev : KeyEvent) (hc : ev.ctrl = false)
    (ha : ev.alt = true) (hk : ev.key = .J) :
    keypress cfg s ev =
      match s.next with
      | none => some { s with cursor := ev.cursorPos }
      | some q =>
        some (calcoffsets cfg { s with cursor := ev.cursorPos, sel := some q, curr := some q }) := by
  unfold keypress; simp only [hc, ha, hk, Bool.false_eq_true, if_false, if_true]

theorem keypress_altK (cfg : Config) (s : State) (ev : KeyEvent) (hc : ev.ctrl = false)
    (ha : ev.alt = true) (hk : ev.key = .K) :
    keypress cfg s ev =
      match s.prev with
      | none => some { s with cursor := ev.cursorPos }
      | some q =>
        some (calcoffsets cfg { s with cursor := ev.cursorPos, sel := some q, curr := some q }) := by
  unfold keypress; simp only [hc, ha, hk, Bool.false_eq_true, if_false, if_true]

/-- Every navigation key returns, and keeps the invariant. -/
theorem keypress_nav (cfg : Config) (hB : Budgeted cfg) (s : State) (ev : KeyEvent)
    (h : PageInv cfg s) (hnav : IsNav ev) :
    ∃ s1, keypress cfg s ev = some s1 ∧ PageInv cfg s1 := by
  have hcur : PageInv cfg { s with cursor := ev.cursorPos } := h
  obtain ⟨hc, hrest⟩ := hnav
  rcases hrest with ⟨ha, hk | hk | hk | hk | hk⟩ | ⟨ha, hk | hk⟩
  · exact ⟨_, keypress_up cfg s ev hc ha hk, PageInv.keyUp cfg hB _ hcur⟩
  · exact ⟨_, keypress_down cfg s ev hc ha hk, PageInv.keyDown cfg hB _ hcur⟩
  · rw [keypress_home cfg s ev hc ha hk]
    by_cases hs : s.sel = head s
    · rw [if_pos hs]; exact ⟨_, rfl, h⟩
    · rw [if_neg hs]; exact ⟨_, rfl, PageInv.home cfg hB _ hcur⟩
  · rw [keypress_end cfg s ev hc ha hk]
    by_cases hs : ev.cursorPos = ev.len
    · rw [if_pos hs]; exact ⟨_, rfl, h⟩
    · rw [if_neg hs]; exact ⟨_, rfl, PageInv.keyEnd cfg hB _ hcur⟩
  · rw [keypress_tab cfg s ev hc ha hk]
    cases hs : s.sel with
    | none => refine ⟨_, rfl, ?_⟩; rw [← hs]; exact hcur
    | some p =>
      simp only
      have hlen := h.1
      rw [if_pos (by omega)]
      refine ⟨_, rfl, PageInv.rematch cfg hB _ ?_⟩
      simp only [List.length_set, List.length_append, List.length_drop]
      omega
  · rw [keypress_altJ cfg s ev hc ha hk]
    cases hs : s.next with
    | none => refine ⟨_, rfl, ?_⟩; rw [← hs]; exact hcur
    | some q => exact ⟨_, rfl, PageInv.altJ cfg hB _ hcur q hs⟩
  · rw [keypress_altK cfg s ev hc ha hk]
    cases hs : s.prev with
    | none => refine ⟨_, rfl, ?_⟩; rw [← hs]; exact hcur
    | some q => exact ⟨_, rfl, PageInv.altK cfg hB _ hcur q hs⟩

theorem run_nav (cfg : Config) (hB : Budgeted cfg) (evs : List KeyEvent) :
    ∀ s, PageInv cfg s → (∀ ev ∈ evs, IsNav ev) →
      ∃ s1, run cfg s evs = some s1 ∧ PageInv cfg s1 := by
  induction evs with
  | nil => intro s h _; exact ⟨s, rfl, h⟩
  | cons ev evs ih =>
    intro s h hnav
    obtain ⟨s1, h1, h2⟩ := keypress_nav cfg hB s ev h (hnav ev (List.mem_cons_self _ _))
    obtain ⟨s2, h3, h4⟩ := ih s1 h2 (fun e he => hnav e (List.mem_cons_of_mem _ he))
    exact ⟨s2, by rw [run, h1]; exact h3, h4⟩

/-- The record `calcoffsets` returns differs from its argument in `next` and
`prev` only. -/
theorem calcoffsets_frame (cfg : Config) (s : State) :
    (calcoffsets cfg s).text = s.text ∧ (calcoffsets cfg s).cursor = s.cursor ∧
      (calcoffsets cfg s).items = s.items ∧ (calcoffsets cfg s).matched = s.matched ∧
      (calcoffsets cfg s).sel = s.sel ∧ (calcoffsets cfg s).out = s.out ∧
      (calcoffsets cfg s).status = s.status := by
  rw [calcoffsets_eq]
  exact ⟨rfl, rfl, rfl, rfl, rfl, rfl, rfl⟩

/-- The loop of the End key assigns `curr`, `next` and `prev` only. -/
theorem endLoop_frame (cfg : Config) :
    ∀ fuel (s : State), (endLoop cfg fuel s).text = s.text ∧
      (endLoop cfg fuel s).cursor = s.cursor ∧ (endLoop cfg fuel s).items = s.items ∧
      (endLoop cfg fuel s).matched = s.matched ∧ (endLoop cfg fuel s).sel = s.sel ∧
      (endLoop cfg fuel s).out = s.out ∧ (endLoop cfg fuel s).status = s.status := by
  intro fuel
  induction fuel with
  | zero => intro s; exact ⟨rfl, rfl, rfl, rfl, rfl, rfl, rfl⟩
  | succ fuel ih =>
    intro s
    rw [endLoop]
    cases hn : s.next with
    | none => exact ⟨rfl, rfl, rfl, rfl, rfl, rfl, rfl⟩
    | some nx =>
      simp only
      cases hr : s.curr.bind (right s) with
      | none => exact ⟨rfl, rfl, rfl, rfl, rfl, rfl, rfl⟩
      | some c =>
        simp only
        obtain ⟨a1, a2, a3, a4, a5, a6, a7⟩ := ih (calcoffsets cfg { s with curr := some c })
        obtain ⟨b1, b2, b3, b4, b5, b6, b7⟩ := calcoffsets_frame cfg { s with curr := some c }
        exact ⟨a1.trans b1, a2.trans b2, a3.trans b3, a4.trans b4, a5.trans b5, a6.trans b6,
          a7.trans b7⟩

/-- The End key in the list: `sel` becomes `matchend`; the buffer, the cursor, the
items and the match list are not assigned. -/
theorem keyEnd_frame (cfg : Config) (s : State) :
    (keyEnd cfg s).sel = matchend s ∧ (keyEnd cfg s).text = s.text ∧
      (keyEnd cfg s).cursor = s.cursor ∧ (keyEnd cfg s).items = s.items ∧
      (keyEnd cfg s).matched = s.matched := by
  unfold Qdmenu.keyEnd
  cases hn : s.next with
  | none => exact ⟨rfl, rfl, rfl, rfl, rfl⟩
  | some nx =>
    simp only
    obtain ⟨a1, a2, a3, a4, _, _, _⟩ := endLoop_frame cfg (s.matched.length + 1)
      (calcoffsets cfg
        { calcoffsets cfg { s with curr := matchend s } with
          curr := (calcoffsets cfg { s with curr := matchend s }).prev })
    obtain ⟨b1, b2, b3, b4, _, _, _⟩ := calcoffsets_frame cfg
      { calcoffsets cfg { s with curr := matchend s } with
        curr := (calcoffsets cfg { s with curr := matchend s }).prev }
    obtain ⟨c1, c2, c3, c4, _, _, _⟩ := calcoffsets_frame cfg { s with curr := matchend s }
    have hm : (endLoop cfg (s.matched.length + 1)
        (calcoffsets cfg
          { calcoffsets cfg { s with curr := matchend s } with
            curr := (calcoffsets cfg { s with curr := matchend s }).prev })).matched =
        s.matched := a4.trans (b4.trans c4)
    exact ⟨congrArg (fun m : List Nat => if m = [] then none else some (m.length - 1)) hm,
      a1.trans (b1.trans c1), a2.trans (b2.trans c2), a3.trans (b3.trans c3), hm⟩

/-! ## The Tab key -/

theorem mem_intersperse_of_mem {α : Type} (sep : α) :
    ∀ (L : List α) (t : α), t ∈ L → t ∈ L.intersperse sep
  | [], _, h => by simp at h
  | [x], t, h => by simpa using h
  | x :: y :: L, t, h => by
    rw [List.intersperse_cons_cons]
    rcases List.mem_cons.1 h with h | h
    · rw [h]; exact List.mem_cons_self _ _
    · exact List.mem_cons_of_mem _
        (List.mem_cons_of_mem _ (mem_intersperse_of_mem sep (y :: L) t h))

theorem piece_of_mem_splitOn (a : Nat) (l t : List Nat) (h : t ∈ l.splitOn a) : t <:+: l := by
  have h1 := List.intercalate_splitOn l a
  have h2 : t ∈ List.intersperse [a] (l.splitOn a) := mem_intersperse_of_mem _ _ _ h
  have h3 := List.infix_of_mem_flatten h2
  rw [← h1]
  exact h3

/-- Every token of a query is a piece of the query string. -/
theorem tokens_are_pieces {text t : List Nat} (ht : t ∈ tokens text) : t <:+: cstr text := by
  rw [tokens_eq_splitOn] at ht
  exact piece_of_mem_splitOn 32 _ _ (List.mem_filter.1 ht).1

/-- An item whose text is the query string is a candidate of the query. -/
theorem candidate_of_cstr_eq (ci : Bool) (text : List Nat) (it : Item)
    (h : cstr text = cstr it.text) : Candidate ci text it := by
  intro t ht
  unfold SubstringUnder
  rw [← h]
  exact (tokens_are_pieces ht).map _

theorem take_eq_cstr_take (src : List Nat) :
    ∀ k, k ≤ strlen src → src.take k = (cstr src).take k := by
  induction src with
  | nil => intro k _; simp [cstr_nil]
  | cons c src ih =>
    intro k hk
    cases k with
    | zero => simp
    | succ k =>
      by_cases hc : c = 0
      · subst hc
        simp [strlen, cstr_cons_zero] at hk
      · have hl : strlen (c :: src) = strlen src + 1 := by
          simp [strlen, cstr_cons_ne c src hc]
        rw [cstr_cons_ne c src hc, List.take_succ_cons, List.take_succ_cons,
          ih k (by omega)]

theorem cstr_set_append (A B : List Nat) (hz : ∀ b ∈ A, b ≠ 0) (hB : B ≠ []) :
    cstr ((A ++ B).set A.length 0) = A := by
  induction A with
  | nil =>
    cases B with
    | nil => exact absurd rfl hB
    | cons b r => simp [cstr]
  | cons c A ih =>
    have hc : c ≠ 0 := hz c (List.mem_cons_self _ _)
    rw [List.cons_append, List.length_cons, List.set_cons_succ, cstr_cons_ne c _ hc,
      ih (fun b hb => hz b (List.mem_cons_of_mem _ hb))]

/-- The bytes Tab leaves in a buffer `text` for a selected text `src`,
`cursor = strnlen(src, sizeof text - 1); memcpy(text, src, cursor);
text[cursor] = 0`: the string is `src` cut to `sizeof text - 1` bytes, and the
size of the buffer is unchanged. -/
theorem tab_buffer (src text : List Nat) (hlen : 0 < text.length) :
    cstr ((src.take (min (strlen src) (text.length - 1)) ++
          text.drop (min (strlen src) (text.length - 1))).set
        (min (strlen src) (text.length - 1)) 0) = (cstr src).take (text.length - 1) ∧
      ((src.take (min (strlen src) (text.length - 1)) ++
          text.drop (min (strlen src) (text.length - 1))).set
        (min (strlen src) (text.length - 1)) 0).length = text.length := by
  have hk : min (strlen src) (text.length - 1) ≤ strlen src := Nat.min_le_left _ _
  have hk2 : min (strlen src) (text.length - 1) < text.length := by
    have := Nat.min_le_right (strlen src) (text.length - 1); omega
  have hA : src.take (min (strlen src) (text.length - 1)) = (cstr src).take (text.length - 1) := by
    rw [take_eq_cstr_take src _ hk]
    unfold strlen
    rw [Nat.min_comm, ← List.take_take, List.take_length]
  have hAl : ((cstr src).take (text.length - 1)).length = min (strlen src) (text.length - 1) := by
    rw [List.length_take, Nat.min_comm]; rfl
  rw [hA]
  constructor
  · have := cstr_set_append ((cstr src).take (text.length - 1))
      (text.drop (min (strlen src) (text.length - 1)))
      (fun b hb => cstr_no_zero src b (List.mem_of_mem_take hb))
      (by
        intro e
        have := congrArg List.length e
        rw [List.length_drop] at this
        simp only [List.length_nil] at this
        omega)
    rw [hAl] at this
    exact this
  · rw [List.length_set, List.length_append, hAl, List.length_drop]
    omega

/-- The Tab key with an item selected: the new buffer holds the item's text cut to
`sizeof text - 1` bytes, `cursor` is its length, and `match` is run on it. -/
theorem keypress_tab_selected (cfg : Config) (s : State) (ev : KeyEvent) (p i : Nat) (it : Item)
    (hc : ev.ctrl = false) (ha : ev.alt = false) (hk : ev.key = .Tab) (hs : s.sel = some p)
    (hi : s.matched[p]? = some i) (hit : s.items[i]? = some it) (hlen : 0 < s.text.length) :
    ∃ T, cstr T = (cstr it.text).take (s.text.length - 1) ∧ T.length = s.text.length ∧
      keypress cfg s ev = some (rematch cfg { s with cursor := strlen T, text := T }) := by
  have hsrc : nodeText s.items s.matched p = it.text := by
    unfold nodeText itemText
    rw [hi]
    simp only
    rw [hit]
  have hb := tab_buffer it.text s.text hlen
  have hk2 : min (strlen it.text) (s.text.length - 1) < s.text.length := by
    have := Nat.min_le_right (strlen it.text) (s.text.length - 1); omega
  refine ⟨_, hb.1, hb.2, ?_⟩
  rw [keypress_tab cfg s ev hc ha hk, hs]
  simp only
  rw [hsrc, if_pos hk2]
  have hl : strlen ((it.text.take (min (strlen it.text) (s.text.length - 1)) ++
          s.text.drop (min (strlen it.text) (s.text.length - 1))).set
        (min (strlen it.text) (s.text.length - 1)) 0) =
      min (strlen it.text) (s.text.length - 1) := by
    show (cstr _).length = _
    rw [hb.1, List.length_take, Nat.min_comm]
    rfl
  rw [hl]
/-! ## Claims about `match` -/

theorem calcoffsets_matched (cfg : Config) (s : State) :
    (calcoffsets cfg s).matched = s.matched := by
  unfold calcoffsets; cases s.curr <;> rfl

theorem calcoffsets_sel (cfg : Config) (s : State) : (calcoffsets cfg s).sel = s.sel := by
  unfold calcoffsets; cases s.curr <;> rfl

theorem calcoffsets_curr (cfg : Config) (s : State) : (calcoffsets cfg s).curr = s.curr := by
  unfold calcoffsets; cases h : s.curr <;> simp [h]

theorem rematch_matched (cfg : Config) (s : State) :
    (rematch cfg s).matched = matchList cfg.ci s.items s.text := by
  unfold rematch; simp only [calcoffsets_matched]

theorem rematch_sel (cfg : Config) (s : State) :
    (rematch cfg s).sel = if matchList cfg.ci s.items s.text = [] then none else some 0 := by
  unfold rematch; simp only [calcoffsets_sel]

theorem rematch_curr (cfg : Config) (s : State) :
    (rematch cfg s).curr = if matchList cfg.ci s.items s.text = [] then none else some 0 := by
  unfold rematch; simp only [calcoffsets_curr]

theorem tokens_of_empty {text : List Nat} (h : cstr text = []) : tokens text = [] := by
  unfold tokens; rw [h]; rfl

/-- C1: for every item store and every query, under either comparator, the list
left by `match` is `E ++ P ++ S`: `E` the candidates that are exact (zero tokens,
or the whole query equal to the item's text under the comparator), `P` the
candidates that are not exact and begin with the first token, `S` the remaining
candidates, each in store order; and no item occurs in the list twice.  The
spec's example `["foo bar", "foobar", "bar foo"]` with query `"foo bar"` gives
the items in that order. -/
theorem match_order_exact_begin_rest (cfg : Config) (s : State) :
    (rematch cfg s).matched =
        exactBand cfg.ci s.items s.text ++ beginBand cfg.ci s.items s.text ++
          restBand cfg.ci s.items s.text ∧
      (rematch cfg s).matched.Nodup ∧
      (rematch (verticalCfg 2 1)
          (initState [102, 111, 111, 32, 98, 97, 114]
            (mkItems [[102, 111, 111, 32, 98, 97, 114], [102, 111, 111, 98, 97, 114],
              [98, 97, 114, 32, 102, 111, 111]]))).matched = [0, 1, 2] := by
  refine ⟨?_, ?_, by decide⟩
  · rw [rematch_matched, matchList_eq]
  · rw [rematch_matched]; exact matchList_nodup _ _ _

/-- C2: an item of the store occurs in the list left by `match` exactly when every
token of the query, the query split on the space byte, is a substring of the
item's text under the configured comparator; only items of the store occur.  For
the items `["apple", "application", "snapple", "banana"]` and the query `"app"`
the list is the first three items. -/
theorem match_member_iff_all_tokens (cfg : Config) (s : State) (i : Nat) :
    (i ∈ (rematch cfg s).matched ↔
        ∃ it, s.items[i]? = some it ∧
          ∀ t ∈ (cstr s.text).splitOn 32, SubstringUnder cfg.ci t (cstr it.text)) ∧
      (rematch (verticalCfg 2 1)
          (initState [97, 112, 112]
            (mkItems [[97, 112, 112, 108, 101],
              [97, 112, 112, 108, 105, 99, 97, 116, 105, 111, 110],
              [115, 110, 97, 112, 112, 108, 101], [98, 97, 110, 97, 110, 97]]))).matched =
        [0, 1, 2] := by
  refine ⟨?_, by decide⟩
  rw [rematch_matched, mem_matchList_iff]
  constructor
  · rintro ⟨it, hg, hc⟩
    refine ⟨it, hg, ?_⟩
    exact (forall_tokens_iff s.text (fun t => SubstringUnder cfg.ci t (cstr it.text))
      (by simp [SubstringUnder])).1 hc
  · rintro ⟨it, hg, hc⟩
    refine ⟨it, hg, ?_⟩
    exact (forall_tokens_iff s.text (fun t => SubstringUnder cfg.ci t (cstr it.text))
      (by simp [SubstringUnder])).2 hc

/-- C3: on the empty query `match` puts every item of the store in the exact band,
in store order, leaves the other two bands empty, so that the match list is the
whole store, each item once, and sets `sel` and `curr` to the first item, or to
`NULL` when the store is empty. -/
theorem match_empty_query (cfg : Config) (s : State) (h : cstr s.text = []) :
    matchBands cfg.ci s.items s.text = ⟨List.range s.items.length, [], []⟩ ∧
      (rematch cfg s).matched = List.range s.items.length ∧
      (rematch cfg s).sel = (if s.items = [] then none else some 0) ∧
      (rematch cfg s).curr = (if s.items = [] then none else some 0) := by
  have ht := tokens_of_empty h
  have hb : matchBands cfg.ci s.items s.text = ⟨List.range s.items.length, [], []⟩ := by
    rw [matchBands_eq]
    have hE : exactBand cfg.ci s.items s.text = List.range s.items.length := by
      apply storeOrder_all
      intro it _
      simp [Candidate, ExactFor, ht]
    have hP : beginBand cfg.ci s.items s.text = [] := by
      apply storeOrder_none
      intro it _
      simp [ExactFor, ht]
    have hS : restBand cfg.ci s.items s.text = [] := by
      apply storeOrder_none
      intro it _
      simp [ExactFor, ht]
    rw [hE, hP, hS]
  have hm : matchList cfg.ci s.items s.text = List.range s.items.length := by
    unfold matchList; rw [spliceBands_eq, hb]; simp
  have he : (List.range s.items.length = []) ↔ s.items = [] := by
    rw [List.range_eq_nil, List.length_eq_zero]
  refine ⟨hb, ?_, ?_, ?_⟩
  · rw [rematch_matched, hm]
  · rw [rematch_sel, hm]; simp only [he]
  · rw [rematch_curr, hm]; simp only [he]

/-- C3 at a store of two items with the buffer holding an empty string. -/
theorem match_empty_query_witness :
    cstr (initState [0, 97] (mkItems [[97], [98]])).text = [] ∧
      (rematch (verticalCfg 2 1) (initState [0, 97] (mkItems [[97], [98]]))).matched =
        List.range (initState [0, 97] (mkItems [[97], [98]])).items.length :=
  ⟨by decide, (match_empty_query (verticalCfg 2 1) (initState [0, 97] (mkItems [[97], [98]]))
    (by decide)).2.1⟩
/-! ## Claims about the text buffer -/

/-- C5, amended: for every buffer content of length `L` and every starting offset
`c` in `[0, L]`, setting `cursor = nextrune(+1)` while the cursor is before `L`
reaches `L` after at most `L - c` applications, every cursor on the way lies in
`[0, L]` and every cursor produced is on a byte that is not a continuation byte;
setting `cursor = nextrune(-1)` while the cursor is after `0` reaches `0` after
at most `c` applications, every cursor on the way lies in `[0, L]` and every
cursor produced is offset `0` or on a byte that is not a continuation byte. -/
theorem nextrune_reaches_the_ends (text : List Nat) (c : Nat) (hc : c ≤ strlen text) :
    (∃ k, k ≤ strlen text - c ∧ (runeStep text 1)^[k] c = strlen text ∧
      (∀ j, j < k → (runeStep text 1)^[j] c < strlen text) ∧
      ∀ j, j ≤ k → (runeStep text 1)^[j] c ≤ strlen text ∧
        (0 < j → isCont (text.getD ((runeStep text 1)^[j] c) 0) = false)) ∧
    (∃ k, k ≤ c ∧ (runeStep text (-1))^[k] c = 0 ∧
      (∀ j, j < k → 0 < (runeStep text (-1))^[j] c) ∧
      ∀ j, j ≤ k → (runeStep text (-1))^[j] c ≤ strlen text ∧
        (0 < j → (runeStep text (-1))^[j] c = 0 ∨
          isCont (text.getD ((runeStep text (-1))^[j] c) 0) = false)) := by
  constructor
  · obtain ⟨k, h1, h2, h3, h4⟩ := runeStep_forward_iterate text (strlen text - c) c le_rfl hc
    exact ⟨k, h1, h2, h3, fun j hj => ⟨(h4 j hj).2.1, (h4 j hj).2.2⟩⟩
  · obtain ⟨k, h1, h2, h3, h4⟩ := runeStep_backward_iterate text c
    exact ⟨k, h1, h2, h3, fun j hj => ⟨le_trans (h4 j hj).1 hc, (h4 j hj).2⟩⟩

/-- C5 at the buffer with the bytes `0x41 0xC3 0xA9 0x42` and the cursor at
offset 1, before the two-byte rune. -/
theorem nextrune_reaches_the_ends_witness :
    1 ≤ strlen [65, 195, 169, 66] ∧
      ∃ k, k ≤ strlen [65, 195, 169, 66] - 1 ∧
        (runeStep [65, 195, 169, 66] 1)^[k] 1 = strlen [65, 195, 169, 66] ∧
        (∀ j, j < k → (runeStep [65, 195, 169, 66] 1)^[j] 1 < strlen [65, 195, 169, 66]) ∧
        ∀ j, j ≤ k → (runeStep [65, 195, 169, 66] 1)^[j] 1 ≤ strlen [65, 195, 169, 66] ∧
          (0 < j →
            isCont ([65, 195, 169, 66].getD ((runeStep [65, 195, 169, 66] 1)^[j] 1) 0) = false) :=
  ⟨by decide, (nextrune_reaches_the_ends [65, 195, 169, 66] 1 (by decide)).1⟩

/-- C5 as stated fails: in the buffer with bytes `0x80 0x41` (length 2) and the
cursor at offset 1, `nextrune(-1)` returns offset 0, whose byte `0x80` is a
continuation byte; and applied at the ends, `nextrune(+1)` at offset `L` returns
`L + 1` and `nextrune(-1)` at offset 0 returns `-1`, outside `[0, L]`. -/
theorem nextrune_lands_on_continuation_byte :
    strlen [128, 65] = 2 ∧ nextrune [128, 65] 1 (-1) = 0 ∧
      isCont ([128, 65].getD 0 0) = true ∧
      nextrune [128, 65] 2 1 = 3 ∧ nextrune [128, 65] 0 (-1) = -1 := by
  decide

/-- C9, amended: for every non-empty sequence of bytes that is malformed UTF-8 in
one of the named ways, `utf8decode` stores the reserved code point `0xFFFD`; the
length it returns is `0` when the declared length overruns the available bytes
and all the bytes after the leading byte are continuation bytes; it is the
declared length (2, 3 or 4) when the encoded code point is outside the range of
its length, above `0x10FFFF`, or a surrogate; it is the offset of the first byte
after the leading byte that is not a continuation byte when there is one within
the declared length; and it is `1` when the first byte is not a leading byte. -/
theorem utf8decode_malformed (c : List Nat) (hb : ∀ b ∈ c, b < 256) (hne : c ≠ []) :
    (1 ≤ leaderLen (c.getD 0 0) → c.length < leaderLen (c.getD 0 0) →
        (∀ i, 1 ≤ i → i < c.length → IsContinuation (c.getD i 0)) →
        utf8decode c c.length = (0xFFFD, 0)) ∧
      (1 ≤ leaderLen (c.getD 0 0) → leaderLen (c.getD 0 0) ≤ c.length →
        (∀ i, 1 ≤ i → i < leaderLen (c.getD 0 0) → IsContinuation (c.getD i 0)) →
        OutOfRange (encodedValue c (leaderLen (c.getD 0 0))) (leaderLen (c.getD 0 0)) →
        utf8decode c c.length = (0xFFFD, leaderLen (c.getD 0 0))) ∧
      (∀ k, 1 ≤ k → k < leaderLen (c.getD 0 0) → k < c.length →
        (∀ i, 1 ≤ i → i < k → IsContinuation (c.getD i 0)) →
        ¬ IsContinuation (c.getD k 0) →
        utf8decode c c.length = (0xFFFD, k)) ∧
      (leaderLen (c.getD 0 0) = 0 → utf8decode c c.length = (0xFFFD, 1)) := by
  have hlen : c.length ≠ 0 := by simpa [List.length_eq_zero] using hne
  have h0 := getD_lt_of_forall hb 0
  refine ⟨?_, ?_, ?_, ?_⟩
  · intro hl hshort hcont
    rw [utf8decode_unfold_leader c hb hne hl,
      utf8decodeLoop_continuations c _ hb UTF_SIZ 1 _ (by omega)
        (by have := leaderLen_le (c.getD 0 0); unfold UTF_SIZ; omega)
        (fun i h1 _ h3 => hcont i h1 h3)]
    simp only
    rw [if_pos (by omega)]
    rfl
  · intro hl hfull hcont hbad
    rw [utf8decode_unfold_leader c hb hne hl,
      utf8decodeLoop_continuations c _ hb UTF_SIZ 1 _ (by omega)
        (by have := leaderLen_le (c.getD 0 0); unfold UTF_SIZ; omega)
        (fun i h1 h2 _ => hcont i h1 h2)]
    simp only
    rw [if_neg (by omega), Nat.min_eq_left hfull]
    have := utf8validate_out_of_range _ _ hbad
    unfold encodedValue at this
    rw [this]
    rfl
  · intro k hk1 hk2 hk3 hcont hbad
    have hl : 1 ≤ leaderLen (c.getD 0 0) := by omega
    rw [utf8decode_unfold_leader c hb hne hl,
      utf8decodeLoop_bad c _ k hb hk2 hk3 hbad UTF_SIZ 1 _ hk1
        (by have := leaderLen_le (c.getD 0 0); unfold UTF_SIZ; omega)
        (fun i h1 h2 => hcont i h1 h2)]
    rfl
  · intro hz
    unfold utf8decode
    rw [if_neg hlen]
    have hcls := utf8decodebyte_class _ h0
    rw [hz] at hcls
    have hbt : BETWEEN (utf8decodebyte (c.getD 0 0)).2 1 UTF_SIZ = false := by
      rw [hcls]
      split_ifs <;> decide
    rw [hbt]
    rfl

/-- C9 at the surrogate encoding `0xED 0xA0 0x80`. -/
theorem utf8decode_malformed_witness :
    (∀ b ∈ [237, 160, 128], b < 256) ∧ [237, 160, 128] ≠ [] ∧
      1 ≤ leaderLen ([237, 160, 128].getD 0 0) ∧
      leaderLen ([237, 160, 128].getD 0 0) ≤ [237, 160, 128].length ∧
      OutOfRange (encodedValue [237, 160, 128] (leaderLen ([237, 160, 128].getD 0 0)))
        (leaderLen ([237, 160, 128].getD 0 0)) ∧
      utf8decode [237, 160, 128] [237, 160, 128].length =
        (0xFFFD, leaderLen ([237, 160, 128].getD 0 0)) :=
  ⟨by decide, by decide, by decide, by decide, by decide,
    (utf8decode_malformed [237, 160, 128] (by decide) (by decide)).2.1 (by decide) (by decide)
      (by decide) (by decide)⟩

/-- C9 as stated fails: the overlong pair `0xC0 0x80` decodes to `0xFFFD` with
returned length 2, the surrogate `0xED 0xA0 0x80` with length 3, `0xF4 0x90 0x80
0x80` (above `0x10FFFF`) with length 4, and the truncated `0xE2 0x82` with
length 0; none returns length 1. -/
theorem utf8decode_length_not_one :
    utf8decode [192, 128] 2 = (0xFFFD, 2) ∧ utf8decode [237, 160, 128] 3 = (0xFFFD, 3) ∧
      utf8decode [244, 144, 128, 128] 4 = (0xFFFD, 4) ∧ utf8decode [226, 130] 2 = (0xFFFD, 0) := by
  decide
/-! ## Claim about selection containment -/

/-- C4, amended: when the page budget admits every single node, that is in the
vertical layout, and in the horizontal layout with a pixel budget that is not
negative, selection containment is an invariant: starting from the state left by
`match`, every finite sequence of navigation keys (Up, Down, Alt+J, Alt+K, Home,
End, Tab) is handled to the end, and afterwards `sel` is `NULL` exactly when the
match list is empty, and otherwise `sel` is a position `p` of the match list with
`curr <= p` and `next` either `NULL` or after `p`. -/
theorem selection_containment (cfg : Config) (hB : Budgeted cfg) (s0 : State)
    (hlen : 0 < s0.text.length) (evs : List KeyEvent) (hnav : ∀ ev ∈ evs, IsNav ev) :
    ∃ s1, run cfg (rematch cfg s0) evs = some s1 ∧ Contained s1 := by
  obtain ⟨s1, h1, h2⟩ := run_nav cfg hB evs (rematch cfg s0) (PageInv.rematch cfg hB s0 hlen) hnav
  exact ⟨s1, h1, h2.contained⟩

/-- C4 at a horizontal layout of budget 10 with five items of width 4, along the
sample walk. -/
theorem selection_containment_witness :
    Budgeted (horizontalCfg 10 4) ∧
      0 < (initState [0, 0, 0, 0] (mkItems [[97], [98], [99], [100], [101]])).text.length ∧
      (∀ ev ∈ sampleWalk, IsNav ev) ∧
      ∃ s1, run (horizontalCfg 10 4)
          (rematch (horizontalCfg 10 4)
            (initState [0, 0, 0, 0] (mkItems [[97], [98], [99], [100], [101]]))) sampleWalk =
          some s1 ∧ Contained s1 :=
  ⟨by decide, by decide, by decide,
    selection_containment (horizontalCfg 10 4) (by decide)
      (initState [0, 0, 0, 0] (mkItems [[97], [98], [99], [100], [101]])) (by decide) sampleWalk
      (by decide)⟩

/-- C4 as stated fails in the horizontal layout: with a pixel budget of `-1` (a
prompt wider than the space left of the input field) and one item of width 5,
`match` leaves `sel = curr = next` on the only node, so `sel` is not before
`next`. -/
theorem selection_outside_empty_page :
    (rematch (horizontalCfg (-1) 5) (initState [0, 0, 0, 0] (mkItems [[97]]))).sel = some 0 ∧
      (rematch (horizontalCfg (-1) 5) (initState [0, 0, 0, 0] (mkItems [[97]]))).curr = some 0 ∧
      (rematch (horizontalCfg (-1) 5) (initState [0, 0, 0, 0] (mkItems [[97]]))).next = some 0 ∧
      ¬ Contained (rematch (horizontalCfg (-1) 5) (initState [0, 0, 0, 0] (mkItems [[97]]))) := by
  have hs : (rematch (horizontalCfg (-1) 5) (initState [0, 0, 0, 0] (mkItems [[97]]))).sel =
      some 0 := by decide
  have hn : (rematch (horizontalCfg (-1) 5) (initState [0, 0, 0, 0] (mkItems [[97]]))).next =
      some 0 := by decide
  refine ⟨hs, by decide, hn, ?_⟩
  intro h
  obtain ⟨_, c, _, _, h3⟩ := h.2 0 hs
  rcases h3 with h3 | ⟨nx, h3, h4⟩
  · rw [hn] at h3; cases h3
  · rw [hn] at h3; cases h3; omega
/-! ## Claims about the pager -/

/-- C10, amended: in the vertical layout with `N > 0` rows of positive height, for
a match list of length `m` and `curr` at position `c < m`, `calcoffsets` sets
`next` to position `c + N` when `c + N < m` and to `NULL` otherwise, and sets
`prev` to position `c - N` when `c >= N` and to the head when `c < N`; when
`curr` is the head, `prev` is the head itself, not `NULL`. -/
theorem calcoffsets_vertical_page (cfg : Config) (s : State) (c : Nat)
    (hl : 0 < cfg.lines) (hbh : 0 < cfg.bh) (hc : s.curr = some c)
    (hm : c < s.matched.length) :
    (calcoffsets cfg s).next =
        (if c + cfg.lines < s.matched.length then some (c + cfg.lines) else none) ∧
      (calcoffsets cfg s).prev = (if cfg.lines ≤ c then some (c - cfg.lines) else some 0) := by
  rw [calcoffsets_some cfg s c hc]
  have hn := nextLoop_vertical cfg hl hbh s.items (s.matched.drop c) 0 c (Nat.zero_le _)
  have hp := prevLoop_vertical cfg hl hbh s.items s.matched c 0 (Nat.zero_le _)
  simp only [Nat.cast_zero, zero_mul, Nat.sub_zero] at hn hp
  constructor
  · show nextLoop cfg s.items (s.matched.drop c) 0 c = _
    rw [hn, List.length_drop]
    by_cases h : c + cfg.lines < s.matched.length
    · rw [if_pos h, if_pos (by omega)]
    · rw [if_neg h, if_neg (by omega)]
  · show some (prevLoop cfg s.items s.matched c 0) = _
    rw [hp]
    by_cases h : cfg.lines ≤ c
    · rw [if_pos h]
    · rw [if_neg h]; congr 1; omega

/-- C10 at two rows and three matches, `curr` on the head. -/
theorem calcoffsets_vertical_page_witness :
    0 < (verticalCfg 2 1).lines ∧ 0 < (verticalCfg 2 1).bh ∧
      (rematch (verticalCfg 2 1) (initState [] (mkItems [[97], [98], [99]]))).curr = some 0 ∧
      0 < (rematch (verticalCfg 2 1) (initState [] (mkItems [[97], [98], [99]]))).matched.length ∧
      (calcoffsets (verticalCfg 2 1)
          (rematch (verticalCfg 2 1) (initState [] (mkItems [[97], [98], [99]])))).prev =
        (if (verticalCfg 2 1).lines ≤ 0 then some (0 - (verticalCfg 2 1).lines) else some 0) :=
  ⟨by decide, by decide, by decide, by decide,
    (calcoffsets_vertical_page (verticalCfg 2 1)
      (rematch (verticalCfg 2 1) (initState [] (mkItems [[97], [98], [99]]))) 0
      (by decide) (by decide) (by decide) (by decide)).2⟩

/-- C10 as stated fails: with two rows and three matches, `curr` on the head,
`calcoffsets` leaves `prev` on the head (position 0), not `NULL`. -/
theorem calcoffsets_prev_at_head :
    (rematch (verticalCfg 2 1) (initState [] (mkItems [[97], [98], [99]]))).curr = some 0 ∧
      (rematch (verticalCfg 2 1) (initState [] (mkItems [[97], [98], [99]]))).prev = some 0 ∧
      (rematch (verticalCfg 2 1) (initState [] (mkItems [[97], [98], [99]]))).next = some 2 := by
  decide
/-! ## Claims about Return and about `insert` -/

/-- C6, amended: a Return or Enter key without the Control and Alt modifiers writes
exactly one line and exits with status 0; the line is the text of the selected
item when `sel` is present and Shift is not held, and the raw buffer content when
`sel` is `NULL` or Shift is held.  With an empty match list and the buffer `"xyz"`
the line is `"xyz"`. -/
theorem confirm_writes_one_line (cfg : Config) (s : State) (ev : KeyEvent)
    (hk : ev.key = .Return ∨ ev.key = .Enter) (hc : ev.ctrl = false) (ha : ev.alt = false) :
    (∃ s1, keypress cfg s ev = some s1 ∧ s1.status = .exited 0 ∧
        s1.out = s.out ++ [chosenText s ev.shift] ∧ s1.items = s.items) ∧
      (s.sel = none → chosenText s ev.shift = cstr s.text) ∧
      (∀ p, s.sel = some p → ev.shift = false →
        chosenText s ev.shift = cstr (nodeText s.items s.matched p)) ∧
      (∃ s1, keypress (verticalCfg 2 1)
          (rematch (verticalCfg 2 1) (initState [120, 121, 122] (mkItems [[97]])))
          (returnKey false false) = some s1 ∧ s1.out = [[120, 121, 122]]) := by
  refine ⟨?_, ?_, ?_, ?_⟩
  · unfold keypress
    simp only [hc, ha, Bool.false_eq_true, if_false]
    rcases hk with hk | hk <;> rw [hk] <;>
      refine ⟨_, rfl, rfl, ?_, rfl⟩ <;>
      · unfold chosenText
        cases s.sel <;> rfl
  · intro h; unfold chosenText; rw [h]
  · intro p h hs; unfold chosenText; rw [h, hs]; rfl
  · exact ⟨_, rfl, by decide⟩

/-- C6 at the item `"ab"` selected by the query `"a"`, Return without modifiers. -/
theorem confirm_writes_one_line_witness :
    (returnKey false false).key = .Return ∧
      ∃ s1, keypress (verticalCfg 2 1) (rematch (verticalCfg 2 1) (initState [97] (mkItems [[97, 98]])))
          (returnKey false false) = some s1 ∧ s1.status = .exited 0 ∧
        s1.out = (rematch (verticalCfg 2 1) (initState [97] (mkItems [[97, 98]]))).out ++
          [chosenText (rematch (verticalCfg 2 1) (initState [97] (mkItems [[97, 98]])))
            (returnKey false false).shift] ∧
        s1.items = (rematch (verticalCfg 2 1) (initState [97] (mkItems [[97, 98]]))).items :=
  ⟨rfl, (confirm_writes_one_line (verticalCfg 2 1)
    (rematch (verticalCfg 2 1) (initState [97] (mkItems [[97, 98]]))) (returnKey false false)
    (Or.inl rfl) rfl rfl).1⟩

/-- C6 as stated fails: with the item `"abc"` selected and the buffer `"a"`,
Shift+Return writes the buffer content `"a"`, not the selected item's text. -/
theorem confirm_with_shift_writes_buffer :
    (rematch (verticalCfg 2 1) (initState [97] (mkItems [[97, 98, 99]]))).sel = some 0 ∧
      cstr (nodeText (mkItems [[97, 98, 99]])
        (rematch (verticalCfg 2 1) (initState [97] (mkItems [[97, 98, 99]]))).matched 0) =
          [97, 98, 99] ∧
      (keypress (verticalCfg 2 1) (rematch (verticalCfg 2 1) (initState [97] (mkItems [[97, 98, 99]])))
        (returnKey false true)).map (fun s => s.out) = some [[97]] := by
  decide

/-- C7, the code at the failing input: a Return key with the Control modifier is
taken by the Control branch of `keypress`, which only breaks; nothing is written,
no `out` flag is set and the session keeps running.  For the selected item `"a"`
the output stays empty and the item stays unmarked. -/
theorem control_return_does_nothing (cfg : Config) (s : State) (alt shift : Bool)
    (buf : List Nat) (len cur : Nat) :
    keypress cfg s ⟨.Return, true, alt, shift, buf, len, cur⟩ = some { s with cursor := cur } ∧
      (rematch (verticalCfg 2 1) (initState [] (mkItems [[97]]))).sel = some 0 ∧
      (keypress (verticalCfg 2 1) (rematch (verticalCfg 2 1) (initState [] (mkItems [[97]])))
        (returnKey true false)).map (fun s => (s.out, s.items, s.status)) =
          some ([], mkItems [[97]], .running) := by
  refine ⟨rfl, by decide, by decide⟩

theorem rematch_text (cfg : Config) (s : State) : (rematch cfg s).text = s.text := by
  unfold rematch calcoffsets; simp only; split <;> rfl

theorem rematch_cursor (cfg : Config) (s : State) : (rematch cfg s).cursor = s.cursor := by
  unfold rematch calcoffsets; simp only; split <;> rfl

theorem cstr_append_zero (src rest : List Nat) (hz : ∀ b ∈ src, b ≠ 0) :
    cstr (src ++ 0 :: rest) = src := by
  induction src with
  | nil => simp [cstr]
  | cons c src ih =>
    have hc : c ≠ 0 := hz c (List.mem_cons_self _ _)
    rw [List.cons_append, cstr_cons_ne c _ hc, ih (fun b hb => hz b (List.mem_cons_of_mem _ hb))]

/-- Within the capacity `insert` replaces the start of the buffer and does not
splice: for every buffer, every cursor, every NUL-free byte string `str` and
every count `n` of at most its length with `n + 1 <= sizeof text`, when a NUL is
left in the buffer (the terminator of `str` when `n` is its length, or a NUL of
the old content behind the copy), `insert(str, n)` overwrites the first `n + 1`
bytes of the buffer with the first `n + 1` bytes of `str` and its terminating
NUL, whatever the old content and the cursor were, leaves the rest of the buffer,
its size and the cursor as they were, and rebuilds the match list; when `n` is
the length of `str` the content becomes exactly `str`. -/
theorem insert_replaces_content (cfg : Config) (s : State) (src : List Nat) (n : Nat)
    (hz : ∀ b ∈ src, b ≠ 0) (hn : n ≤ src.length) (hfit : n + 1 ≤ s.text.length)
    (hnul : n = src.length ∨ 0 ∈ s.text.drop (n + 1)) :
    ∃ s1, insert cfg s (some src) (n : Int) = some s1 ∧
      s1 = rematch cfg { s with text := (src ++ [0]).take (n + 1) ++ s.text.drop (n + 1) } ∧
      s1.text.take n = src.take n ∧ s1.text.drop (n + 1) = s.text.drop (n + 1) ∧
      s1.text.length = s.text.length ∧ s1.cursor = s.cursor ∧
      (n = src.length → cstr s1.text = src ∧ strlen s1.text ≤ s.text.length - 1) := by
  have hneg : ¬ ((n : Int) + 1 < 0) := by omega
  have ht : ((n : Int) + 1).toNat = n + 1 := by omega
  have hl : ((src ++ [0]).take (n + 1)).length = n + 1 := by
    rw [List.length_take, List.length_append, List.length_singleton]; omega
  have hmem : 0 ∈ (src ++ [0]).take (n + 1) ++ s.text.drop (n + 1) := by
    rcases hnul with he | hr
    · subst he
      rw [List.take_of_length_le (by simp)]
      simp
    · exact List.mem_append_right _ hr
  refine ⟨rematch cfg { s with text := (src ++ [0]).take (n + 1) ++ s.text.drop (n + 1) }, ?_,
    rfl, ?_, ?_, ?_, ?_, ?_⟩
  · unfold insert
    rw [if_neg hneg, ht, if_neg (by omega)]
    simp only
    rw [if_pos ⟨hfit, by omega⟩, if_pos hmem]
  · rw [rematch_text]
    show ((src ++ [0]).take (n + 1) ++ s.text.drop (n + 1)).take n = src.take n
    rw [List.take_append_of_le_length (by omega), List.take_take, Nat.min_eq_left (by omega),
      List.take_append_of_le_length hn]
  · rw [rematch_text]
    show ((src ++ [0]).take (n + 1) ++ s.text.drop (n + 1)).drop (n + 1) = _
    rw [List.drop_append_of_le_length (by omega), List.drop_eq_nil_of_le (by omega),
      List.nil_append]
  · rw [rematch_text]
    show ((src ++ [0]).take (n + 1) ++ s.text.drop (n + 1)).length = _
    rw [List.length_append, hl, List.length_drop]
    omega
  · rw [rematch_cursor]
  · intro he
    subst he
    have htake : (src ++ [0]).take (src.length + 1) = src ++ [0] := by
      rw [List.take_of_length_le (by simp)]
    have hc : cstr ((src ++ [0]).take (src.length + 1) ++ s.text.drop (src.length + 1)) = src := by
      rw [htake, List.append_assoc]
      exact cstr_append_zero src _ hz
    constructor
    · rw [rematch_text]; exact hc
    · unfold strlen
      rw [rematch_text]
      show (cstr ((src ++ [0]).take (src.length + 1) ++ s.text.drop (src.length + 1))).length ≤ _
      rw [hc]; omega

/-- The replacement at a buffer of four bytes holding `"ab"` and the string `"x"`. -/
theorem insert_replaces_content_witness :
    (∀ b ∈ [120], b ≠ 0) ∧ 1 ≤ [120].length ∧
      1 + 1 ≤ (initState [97, 98, 0, 0] []).text.length ∧
      ∃ s1, insert (verticalCfg 2 1) (initState [97, 98, 0, 0] []) (some [120]) ((1 : Nat) : Int) =
          some s1 ∧
        s1 = rematch (verticalCfg 2 1)
          { initState [97, 98, 0, 0] [] with
            text := ([120] ++ [0]).take (1 + 1) ++
              (initState [97, 98, 0, 0] []).text.drop (1 + 1) } ∧
        s1.text.take 1 = [120].take 1 ∧
        s1.text.drop (1 + 1) = (initState [97, 98, 0, 0] []).text.drop (1 + 1) ∧
        s1.text.length = (initState [97, 98, 0, 0] []).text.length ∧
        s1.cursor = (initState [97, 98, 0, 0] []).cursor ∧
        (1 = [120].length →
          cstr s1.text = [120] ∧
            strlen s1.text ≤ (initState [97, 98, 0, 0] []).text.length - 1) :=
  ⟨by decide, by decide, by decide,
    insert_replaces_content (verticalCfg 2 1) (initState [97, 98, 0, 0] []) [120] 1 (by decide)
      (by decide) (by decide) (Or.inl rfl)⟩

/-- The function `insert` does not splice: in a buffer of eight bytes holding
`"ab"`, with the cursor at offset 1, `insert("x", 1)` leaves the content `"x"`, not the splice `"axb"`;
the same happens through `keypress` when a key that is no command arrives while
the line edit holds `"x"` with its cursor at 1. -/
theorem insert_does_not_splice :
    (insert (verticalCfg 2 1)
        { initState [97, 98, 0, 0, 0, 0, 0, 0] [] with cursor := 1 } (some [120]) 1).map
        (fun s => cstr s.text) = some [120] ∧
      (keypress (verticalCfg 2 1) (initState [97, 98, 0, 0, 0, 0, 0, 0] [])
        { key := .other, ctrl := false, alt := false, shift := false, buf := [120], len := 1,
          cursorPos := 1 }).map (fun s => (cstr s.text, s.cursor)) = some ([120], 1) ∧
      spliceAt [97, 98] 1 [120] 7 = [97, 120, 98] := by
  decide

/-- Beyond the capacity `insert` does not truncate: a count larger than
`sizeof text` makes `memcpy` write past the buffer. -/
theorem insert_beyond_capacity (cfg : Config) (s : State) (src : List Nat) (n : Nat)
    (h : s.text.length < n + 1) : insert cfg s (some src) (n : Int) = none := by
  have hn : ¬ ((n : Int) + 1 < 0) := by omega
  have ht : ((n : Int) + 1).toNat = n + 1 := by omega
  unfold insert
  rw [if_neg hn, ht, if_neg (by omega)]
  simp only
  rw [if_neg (by omega)]

/-- A copy that fills the whole buffer with bytes of `str` before its terminator
leaves no NUL in `text`, and `match` reads past the buffer. -/
theorem insert_fills_buffer (cfg : Config) (s : State) (src : List Nat) (n : Nat)
    (hz : ∀ b ∈ src, b ≠ 0) (hlen : s.text.length = n + 1) (hn : n < src.length) :
    insert cfg s (some src) (n : Int) = none := by
  have hneg : ¬ ((n : Int) + 1 < 0) := by omega
  have ht : ((n : Int) + 1).toNat = n + 1 := by omega
  have hmem : ¬ 0 ∈ (src ++ [0]).take (n + 1) ++ s.text.drop (n + 1) := by
    rw [List.take_append_of_le_length (by omega), List.drop_eq_nil_of_le (by omega),
      List.append_nil]
    intro h
    exact hz 0 (List.mem_of_mem_take h) rfl
  unfold insert
  rw [if_neg hneg, ht, if_neg (by omega)]
  simp only
  rw [if_pos ⟨by omega, by omega⟩, if_neg hmem]

/-- C8, the code at the failing inputs: nothing in `insert` truncates.  A key that
is no command reaches `insert(buf, len)` with the UTF-8 bytes and the length of
the line edit's text, and `insert` is `memcpy(text, str, n + 1)` with no test of
`n` against `sizeof text`.  When `len + 1` exceeds `sizeof text` the copy writes
past the buffer; when `len + 1` is `sizeof text` and the text has more bytes than
characters the copy fills the buffer and leaves no NUL, so that `match` reads
past it.  In both cases the handler leaves its objects instead of cutting the
text. -/
theorem insert_overruns_buffer (cfg : Config) (s : State) (ev : KeyEvent) (hc : ev.ctrl = false)
    (ha : ev.alt = false) (hk : ev.key = .other) (hz : ∀ b ∈ ev.buf, b ≠ 0) :
    keypress cfg s ev =
        insert cfg { s with cursor := ev.cursorPos } (some ev.buf) (ev.len : Int) ∧
      (s.text.length < ev.len + 1 → keypress cfg s ev = none) ∧
      (s.text.length = ev.len + 1 → ev.len < ev.buf.length → keypress cfg s ev = none) := by
  have hkp : keypress cfg s ev =
      insert cfg { s with cursor := ev.cursorPos } (some ev.buf) (ev.len : Int) := by
    unfold keypress; simp only [hc, ha, hk, Bool.false_eq_true, if_false]
  refine ⟨hkp, ?_, ?_⟩
  · intro h
    rw [hkp]
    exact insert_beyond_capacity cfg _ ev.buf ev.len h
  · intro h1 h2
    rw [hkp]
    exact insert_fills_buffer cfg _ ev.buf ev.len hz h1 h2

/-- C8 at a buffer of 8192 bytes: a key pressed while the line edit holds 8192
letters `x`, and a key pressed while it holds 8191 characters in 8192 bytes (an
`e` with acute accent, then 8190 letters `x`), both take the handler outside the
buffer. -/
theorem insert_overruns_buffer_witness :
    (longItem 8192).text.length = 8192 ∧
      keypress (verticalCfg 2 1) (longItem 8192)
        (typedKey (List.replicate 8192 120) 8192 8192) = none ∧
      keypress (verticalCfg 2 1) (longItem 8192)
        (typedKey (195 :: 169 :: List.replicate 8190 120) 8191 8191) = none := by
  have hl : (longItem 8192).text.length = 8192 := List.length_replicate _ _
  have hz1 : ∀ b ∈ List.replicate 8192 120, b ≠ 0 := by
    intro b hb
    rw [List.eq_of_mem_replicate hb]
    decide
  have hz2 : ∀ b ∈ 195 :: 169 :: List.replicate 8190 120, b ≠ 0 := by
    intro b hb
    rcases List.mem_cons.1 hb with h | hb
    · rw [h]; decide
    · rcases List.mem_cons.1 hb with h | hb
      · rw [h]; decide
      · rw [List.eq_of_mem_replicate hb]; decide
  have hb2 : (195 :: 169 :: List.replicate 8190 120).length = 8192 := by
    rw [List.length_cons, List.length_cons, List.length_replicate]
  exact ⟨hl,
    (insert_overruns_buffer (verticalCfg 2 1) (longItem 8192)
      (typedKey (List.replicate 8192 120) 8192 8192) rfl rfl rfl hz1).2.1
      (hl.trans_lt (Nat.lt_succ_self 8192)),
    (insert_overruns_buffer (verticalCfg 2 1) (longItem 8192)
      (typedKey (195 :: 169 :: List.replicate 8190 120) 8191 8191) rfl rfl rfl hz2).2.2
      hl (hb2.symm ▸ Nat.lt_succ_self 8191)⟩
/-! ## Claims about the selection keys -/

/-- C11, amended: for every state with `sel` present, Down sets `sel` to its right
neighbour when there is one and otherwise changes nothing, and moves `curr` to
`next` (recomputing the page) exactly when that neighbour is `next`; Up sets
`sel` to its left neighbour when there is one and otherwise changes nothing, and
moves `curr` to `prev` (recomputing the page) exactly when the old `sel` was
`curr`, that is when the neighbour lies just before the page; in every other case
`curr`, `prev` and `next` are unchanged.  The variable `cursor` holds the line
edit's cursor position, as after every key. -/
theorem move_next_and_prev (cfg : Config) (s : State) (ev : KeyEvent) (p : Nat)
    (hs : s.sel = some p) (hc : ev.ctrl = false) (ha : ev.alt = false) :
    (ev.key = .Down → p + 1 < s.matched.length → some (p + 1) = s.next →
        keypress cfg s ev = some (calcoffsets cfg
          { s with cursor := ev.cursorPos, sel := some (p + 1), curr := s.next })) ∧
      (ev.key = .Down → p + 1 < s.matched.length → some (p + 1) ≠ s.next →
        keypress cfg s ev = some { s with cursor := ev.cursorPos, sel := some (p + 1) }) ∧
      (ev.key = .Down → ¬ p + 1 < s.matched.length →
        keypress cfg s ev = some { s with cursor := ev.cursorPos }) ∧
      (ev.key = .Up → 0 < p → some p = s.curr →
        keypress cfg s ev = some (calcoffsets cfg
          { s with cursor := ev.cursorPos, sel := some (p - 1), curr := s.prev })) ∧
      (ev.key = .Up → 0 < p → some p ≠ s.curr →
        keypress cfg s ev = some { s with cursor := ev.cursorPos, sel := some (p - 1) }) ∧
      (ev.key = .Up → p = 0 → keypress cfg s ev = some { s with cursor := ev.cursorPos }) := by
  refine ⟨?_, ?_, ?_, ?_, ?_, ?_⟩
  · intro hk h1 h2
    rw [keypress_down cfg s ev hc ha hk]
    unfold keyDown
    simp only [hs, right, h1, if_true]
    rw [if_pos h2]
  · intro hk h1 h2
    rw [keypress_down cfg s ev hc ha hk]
    unfold keyDown
    simp only [hs, right, h1, if_true]
    rw [if_neg h2]
  · intro hk h1
    rw [keypress_down cfg s ev hc ha hk]
    unfold keyDown
    simp only [hs, right, h1, if_false]
  · intro hk h1 h2
    rw [keypress_up cfg s ev hc ha hk]
    unfold keyUp
    simp only [hs, left, h1, if_true]
    rw [if_pos h2]
  · intro hk h1 h2
    rw [keypress_up cfg s ev hc ha hk]
    unfold keyUp
    simp only [hs, left, h1, if_true]
    rw [if_neg h2]
  · intro hk h1
    rw [keypress_up cfg s ev hc ha hk]
    unfold keyUp
    simp only [hs, left, h1, Nat.lt_irrefl, if_false]

/-- C11 at five matches in two rows: Down from the head selects the second match
and leaves the page alone, since the third match is `next`. -/
theorem move_next_and_prev_witness :
    fiveItems.sel = some 0 ∧
      keypress (verticalCfg 2 1) fiveItems (plainKey .Down 0 0) =
        some { fiveItems with cursor := 0, sel := some 1 } :=
  ⟨by decide,
    (move_next_and_prev (verticalCfg 2 1) fiveItems (plainKey .Down 0 0) 0 (by decide) rfl
      rfl).2.1 rfl (by decide) (by decide)⟩

/-- C11 as stated fails for Up: with five matches in two rows, two Down keys put
`sel` and `curr` on the third match with `prev` on the head; Up then selects the
second match, which is not `prev`, and yet `curr` moves to `prev`. -/
theorem up_moves_page_before_reaching_prev :
    pointers (run (verticalCfg 2 1) fiveItems [plainKey .Down 0 0, plainKey .Down 0 0]) =
        some (some 0, some 2, some 4, some 2) ∧
      pointers (run (verticalCfg 2 1) fiveItems
          [plainKey .Down 0 0, plainKey .Down 0 0, plainKey .Up 0 0]) =
        some (some 0, some 0, some 2, some 1) := by
  decide

/-- C12, amended: Alt+J sets `sel = curr =` the old `next` and recomputes the page
when `next` is not `NULL`, and returns with `sel`, `curr`, `prev` and `next`
unchanged when it is; Alt+K sets `sel = curr =` the old `prev` and recomputes the
page when `prev` is not `NULL`, and returns with the four pointers unchanged when
it is.  With `curr` on the head of the match list `prev` is the head itself, so
Alt+K then sets `sel` to the head and leaves `curr`, `prev` and `next` as they
were.  The variable `cursor` holds the line edit's cursor position, as after
every key. -/
theorem page_jump_keys (cfg : Config) (s : State) (ev : KeyEvent) (hc : ev.ctrl = false)
    (ha : ev.alt = true) :
    (∀ q, ev.key = .J → s.next = some q →
        keypress cfg s ev = some (calcoffsets cfg
          { s with cursor := ev.cursorPos, sel := some q, curr := some q })) ∧
      (ev.key = .J → s.next = none →
        keypress cfg s ev = some { s with cursor := ev.cursorPos }) ∧
      (∀ q, ev.key = .K → s.prev = some q →
        keypress cfg s ev = some (calcoffsets cfg
          { s with cursor := ev.cursorPos, sel := some q, curr := some q })) ∧
      (ev.key = .K → s.prev = none →
        keypress cfg s ev = some { s with cursor := ev.cursorPos }) ∧
      (ev.key = .K → s.curr = some 0 →
        s.next = pageNext cfg s.items s.matched s.curr →
        s.prev = pagePrev cfg s.items s.matched s.curr →
        ∃ s1, keypress cfg s ev = some s1 ∧ s1.sel = some 0 ∧ s1.curr = s.curr ∧
          s1.prev = s.prev ∧ s1.next = s.next) := by
  refine ⟨?_, ?_, ?_, ?_, ?_⟩
  · intro q hk hq
    rw [keypress_altJ cfg s ev hc ha hk, hq]
  · intro hk hq
    rw [keypress_altJ cfg s ev hc ha hk, hq]
  · intro q hk hq
    rw [keypress_altK cfg s ev hc ha hk, hq]
  · intro hk hq
    rw [keypress_altK cfg s ev hc ha hk, hq]
  · intro hk hcur hn hp
    have hp0 : s.prev = some 0 := by
      rw [hp, hcur]; simp [pagePrev, prevLoop]
    rw [keypress_altK cfg s ev hc ha hk, hp0]
    refine ⟨_, rfl, ?_, ?_, ?_, ?_⟩
    · rw [calcoffsets_sel]
    · rw [calcoffsets_curr]; exact hcur.symm
    · rw [calcoffsets_eq]
      show pagePrev cfg s.items s.matched (some 0) = some 0
      simp [pagePrev, prevLoop]
    · rw [calcoffsets_eq]
      show pageNext cfg s.items s.matched (some 0) = s.next
      rw [hn, hcur]

/-- C12 at five matches in two rows, the page at the head: Alt+J makes the third
match `sel` and `curr`. -/
theorem page_jump_keys_witness :
    fiveItems.next = some 2 ∧
      keypress (verticalCfg 2 1) fiveItems (altKey .J 0 0) =
        some (calcoffsets (verticalCfg 2 1)
          { fiveItems with cursor := 0, sel := some 2, curr := some 2 }) :=
  ⟨by decide,
    (page_jump_keys (verticalCfg 2 1) fiveItems (altKey .J 0 0) rfl rfl).1 2 rfl (by decide)⟩

/-- C12 as stated fails for Alt+K on the first page: with five matches in two rows
and `sel` on the second match, `curr` is the head and `prev` is the head too;
Alt+K moves `sel` to the head. -/
theorem page_prev_at_head_moves_sel :
    pointers (run (verticalCfg 2 1) fiveItems [plainKey .Down 0 0]) =
        some (some 0, some 0, some 2, some 1) ∧
      pointers (run (verticalCfg 2 1) fiveItems [plainKey .Down 0 0, altKey .K 0 0]) =
        some (some 0, some 0, some 2, some 0) := by
  decide

/-- C13, amended: the Home key is decided by the test `sel == matches` alone.
When `sel` is the head of the match list (both `NULL` for the empty list) the key
sets `cursor` to 0 and leaves `sel`, `curr`, `prev`, `next` and the buffer
unchanged.  Otherwise it sets `sel = curr =` the head, recomputes `next` and
`prev` from the head and leaves the buffer unchanged; it does not assign
`cursor`, which is left at the line edit's cursor position that `keypress`
copies into it on entry, so the text cursor changes whenever it was not in step
with the line edit. -/
theorem home_key_by_selection (cfg : Config) (s : State) (ev : KeyEvent)
    (hc : ev.ctrl = false) (ha : ev.alt = false) (hk : ev.key = .Home) :
    (s.sel = head s → keypress cfg s ev = some { s with cursor := 0 }) ∧
      (s.matched = [] → s.sel = none → keypress cfg s ev = some { s with cursor := 0 }) ∧
      (s.sel ≠ head s →
        keypress cfg s ev =
          some { s with cursor := ev.cursorPos, sel := head s, curr := head s,
                        next := pageNext cfg s.items s.matched (head s),
                        prev := pagePrev cfg s.items s.matched (head s) }) := by
  have hkp := keypress_home cfg s ev hc ha hk
  refine ⟨?_, ?_, ?_⟩
  · intro h
    rw [hkp, if_pos h]
  · intro hm hs
    have h : s.sel = head s := by unfold head; rw [if_pos hm, hs]
    rw [hkp, if_pos h]
  · intro h
    rw [hkp, if_neg h, calcoffsets_eq]

/-- C13 at five matches in two rows.  With `sel` on the second match and `cursor`
at 0, Home pressed while the line edit's cursor is at 2 selects the head and
leaves `cursor` at 2; with `sel` on the head and `cursor` at 3, Home sets `cursor`
to 0. -/
theorem home_key_by_selection_witness :
    secondSelected.sel = some 1 ∧ head secondSelected = some 0 ∧ secondSelected.cursor = 0 ∧
      keypress (verticalCfg 2 1) secondSelected (plainKey .Home 2 2) =
        some { secondSelected with
          cursor := 2, sel := head secondSelected, curr := head secondSelected,
          next := pageNext (verticalCfg 2 1) secondSelected.items secondSelected.matched
            (head secondSelected),
          prev := pagePrev (verticalCfg 2 1) secondSelected.items secondSelected.matched
            (head secondSelected) } ∧
      keypress (verticalCfg 2 1) { fiveItems with cursor := 3 } (plainKey .Home 3 3) =
        some { fiveItems with cursor := 0 } :=
  ⟨by decide, by decide, by decide,
    (home_key_by_selection (verticalCfg 2 1) secondSelected (plainKey .Home 2 2) rfl rfl
      rfl).2.2 (by decide),
    (home_key_by_selection (verticalCfg 2 1) { fiveItems with cursor := 3 }
      (plainKey .Home 3 3) rfl rfl rfl).1 (by decide)⟩

/-- C13 as stated fails for the text cursor.  With the buffer `ab` and the matches
`ab` and `abc`, Down pressed while the line edit's cursor is behind its two
characters leaves `cursor` at 2 and `sel` on the second match; Home pressed with
the line edit's cursor at 0 then selects the head and leaves `cursor` at 0, not
at 2. -/
theorem home_moves_text_cursor :
    (run (verticalCfg 2 1)
          (rematch (verticalCfg 2 1)
            (initState [97, 98, 0, 0] (mkItems [[97, 98], [97, 98, 99]])))
          [plainKey .Down 2 2]).map (fun s => (s.sel, s.cursor, cstr s.text)) =
        some (some 1, 2, [97, 98]) ∧
      (run (verticalCfg 2 1)
          (rematch (verticalCfg 2 1)
            (initState [97, 98, 0, 0] (mkItems [[97, 98], [97, 98, 99]])))
          [plainKey .Down 2 2, plainKey .Home 2 0]).map
        (fun s => (s.sel, s.cursor, cstr s.text)) =
        some (some 0, 0, [97, 98]) := by
  decide

/-- C16: in the vertical layout with `N > 0` rows of positive height, for every
match list and every state whose `next` and `prev` are those `calcoffsets`
computes from `curr` and whose `next` is not `NULL`, Alt+J followed by Alt+K
returns, restores `curr`, `prev` and `next`, and leaves `sel` on the original
`curr`. -/
theorem page_jump_round_trip (cfg : Config) (s : State) (evJ evK : KeyEvent)
    (hl : 0 < cfg.lines) (hbh : 0 < cfg.bh)
    (hn : s.next = pageNext cfg s.items s.matched s.curr)
    (hp : s.prev = pagePrev cfg s.items s.matched s.curr)
    (hnx : s.next ≠ none)
    (hJ : evJ.ctrl = false ∧ evJ.alt = true ∧ evJ.key = .J)
    (hK : evK.ctrl = false ∧ evK.alt = true ∧ evK.key = .K) :
    ∃ s2, run cfg s [evJ, evK] = some s2 ∧ s2.curr = s.curr ∧ s2.prev = s.prev ∧
      s2.next = s.next ∧ s2.sel = s.curr := by
  cases hcur : s.curr with
  | none =>
    rw [hcur] at hn
    exact absurd hn hnx
  | some c =>
    rw [hcur] at hn hp
    have hv := nextLoop_vertical cfg hl hbh s.items (s.matched.drop c) 0 c (Nat.zero_le _)
    simp only [Nat.cast_zero, zero_mul, Nat.sub_zero] at hv
    have hq : s.next = some (c + cfg.lines) := by
      rw [hn]
      show nextLoop cfg s.items (s.matched.drop c) 0 c = _
      rw [hv]
      by_cases h : cfg.lines < (s.matched.drop c).length
      · rw [if_pos h]
      · rw [if_neg h] at hv
        exact absurd (hn.trans hv) hnx
    have hpv := prevLoop_vertical cfg hl hbh s.items s.matched (c + cfg.lines) 0 (Nat.zero_le _)
    simp only [Nat.cast_zero, zero_mul, Nat.sub_zero, Nat.add_sub_cancel] at hpv
    obtain ⟨s1, hs1⟩ : ∃ s1, s1 = calcoffsets cfg
        { s with cursor := evJ.cursorPos, sel := some (c + cfg.lines),
                 curr := some (c + cfg.lines) } := ⟨_, rfl⟩
    have h1 : keypress cfg s evJ = some s1 := by
      rw [hs1, keypress_altJ cfg s evJ hJ.1 hJ.2.1 hJ.2.2, hq]
    have h1p : s1.prev = some c := by
      rw [hs1, calcoffsets_eq]
      show some (prevLoop cfg s.items s.matched (c + cfg.lines) 0) = some c
      rw [hpv]
    have h1i : s1.items = s.items := by rw [hs1, calcoffsets_eq]
    have h1m : s1.matched = s.matched := by rw [hs1, calcoffsets_eq]
    have h2 : keypress cfg s1 evK = some (calcoffsets cfg
        { s1 with cursor := evK.cursorPos, sel := some c, curr := some c }) := by
      rw [keypress_altK cfg s1 evK hK.1 hK.2.1 hK.2.2, h1p]
    refine ⟨calcoffsets cfg { s1 with cursor := evK.cursorPos, sel := some c, curr := some c },
      ?_, ?_, ?_, ?_, ?_⟩
    · show (keypress cfg s evJ).bind (fun t => (keypress cfg t evK).bind (fun u => some u)) = _
      rw [h1, Option.some_bind, h2, Option.some_bind]
    · rw [calcoffsets_curr]
    · rw [calcoffsets_eq, hp]
      show pagePrev cfg s1.items s1.matched (some c) = _
      rw [h1i, h1m]
    · rw [calcoffsets_eq, hn]
      show pageNext cfg s1.items s1.matched (some c) = _
      rw [h1i, h1m]
    · rw [calcoffsets_sel]

/-- C16 at five matches in two rows, the page at the head: Alt+J then Alt+K gives
back `prev`, `curr` and `next`, with `sel` on the head. -/
theorem page_jump_round_trip_witness :
    0 < (verticalCfg 2 1).lines ∧ 0 < (verticalCfg 2 1).bh ∧ fiveItems.next ≠ none ∧
      ∃ s2, run (verticalCfg 2 1) fiveItems [altKey .J 0 0, altKey .K 0 0] = some s2 ∧
        s2.curr = fiveItems.curr ∧ s2.prev = fiveItems.prev ∧ s2.next = fiveItems.next ∧
        s2.sel = fiveItems.curr :=
  ⟨by decide, by decide, by decide,
    page_jump_round_trip (verticalCfg 2 1) fiveItems (altKey .J 0 0) (altKey .K 0 0) (by decide)
      (by decide) (by decide) (by decide) (by decide) ⟨rfl, rfl, rfl⟩ ⟨rfl, rfl, rfl⟩⟩

/-- C14, amended: the End key is decided by the text cursor, not by the selection.
When the line edit's cursor stands at the end of its text the key sets `cursor`
to the length of the buffer and leaves `sel`, `curr`, `prev`, `next` and the
buffer unchanged, wherever `sel` is.  Otherwise, in a layout that is vertical or
has a horizontal budget that is not negative, and in a state whose page is the
one `calcoffsets` computes with `sel` inside it, the key sets `sel` to the tail
of the match list and moves `curr` so that the recomputed page covers the tail
(`curr <= tail` and `next = NULL`); the buffer and the match list are unchanged
and `cursor` holds the line edit's cursor position. -/
theorem end_key_by_cursor (cfg : Config) (s : State) (ev : KeyEvent) (hc : ev.ctrl = false)
    (ha : ev.alt = false) (hk : ev.key = .End) :
    (ev.cursorPos = ev.len → keypress cfg s ev = some { s with cursor := strlen s.text }) ∧
      (ev.cursorPos ≠ ev.len → Budgeted cfg → PageInv cfg s →
        ∃ s1, keypress cfg s ev = some s1 ∧ s1.sel = matchend s ∧ s1.next = none ∧
          (∀ t, matchend s = some t → ∃ c, s1.curr = some c ∧ c ≤ t) ∧
          s1.next = pageNext cfg s.items s.matched s1.curr ∧
          s1.prev = pagePrev cfg s.items s.matched s1.curr ∧
          s1.text = s.text ∧ s1.matched = s.matched ∧ s1.cursor = ev.cursorPos) := by
  have hkp := keypress_end cfg s ev hc ha hk
  refine ⟨?_, ?_⟩
  · intro h
    rw [hkp, if_pos h]
  · intro h hB hinv
    rw [hkp, if_neg h]
    have hcur : PageInv cfg { s with cursor := ev.cursorPos } := hinv
    have hI := PageInv.keyEnd cfg hB _ hcur
    obtain ⟨f1, f2, f3, f4, f5⟩ := keyEnd_frame cfg { s with cursor := ev.cursorPos }
    have hme : matchend { s with cursor := ev.cursorPos } = matchend s := rfl
    rw [hme] at f1
    have hnext : (keyEnd cfg { s with cursor := ev.cursorPos }).next = none := by
      cases hx : (keyEnd cfg { s with cursor := ev.cursorPos }).next with
      | none => rfl
      | some nx =>
        exfalso
        have hlt := hI.next_lt nx hx
        rw [f5] at hlt
        have hlt' : nx < s.matched.length := hlt
        have hm : s.matched ≠ [] := by intro e; rw [e] at hlt'; simp at hlt'
        have hsel : (keyEnd cfg { s with cursor := ev.cursorPos }).sel =
            some (s.matched.length - 1) := by
          rw [f1]; unfold matchend; rw [if_neg hm]
        obtain ⟨_, _, _, hs⟩ := hI
        rw [hsel] at hs
        obtain ⟨_, c, _, _, hnx⟩ := hs
        have := hnx nx hx
        omega
    refine ⟨_, rfl, f1, hnext, ?_, ?_, ?_, f2, f5, f3⟩
    · intro t ht
      obtain ⟨_, _, _, hs⟩ := hI
      rw [f1, ht] at hs
      obtain ⟨_, c, hc1, hc2, _⟩ := hs
      exact ⟨c, hc1, hc2⟩
    · have := hI.2.1
      rw [f4, f5] at this
      exact this
    · have := hI.2.2.1
      rw [f4, f5] at this
      exact this

/-- C14 at five matches in two rows with `sel` on the head: End with the line
edit's cursor before the end of its text selects the tail. -/
theorem end_key_by_cursor_witness :
    (plainKey .End 1 0).cursorPos ≠ (plainKey .End 1 0).len ∧ Budgeted (verticalCfg 2 1) ∧
      PageInv (verticalCfg 2 1) fiveItems ∧
      ∃ s1, keypress (verticalCfg 2 1) fiveItems (plainKey .End 1 0) = some s1 ∧
        s1.sel = matchend fiveItems ∧ s1.next = none ∧
        (∀ t, matchend fiveItems = some t → ∃ c, s1.curr = some c ∧ c ≤ t) ∧
        s1.next = pageNext (verticalCfg 2 1) fiveItems.items fiveItems.matched s1.curr ∧
        s1.prev = pagePrev (verticalCfg 2 1) fiveItems.items fiveItems.matched s1.curr ∧
        s1.text = fiveItems.text ∧ s1.matched = fiveItems.matched ∧ s1.cursor = 0 :=
  ⟨by decide, by decide, PageInv.rematch (verticalCfg 2 1) (by decide) _ (by decide),
    (end_key_by_cursor (verticalCfg 2 1) fiveItems (plainKey .End 1 0) rfl rfl rfl).2 (by decide)
      (by decide) (PageInv.rematch (verticalCfg 2 1) (by decide) _ (by decide))⟩

/-- C14 as stated fails both ways.  With five matches in two rows and `sel` on the
head, End with the line edit's cursor at the end of its text leaves `sel` on the
head although the tail is the fifth match.  With one match, which is head and
tail, and the buffer `a`, End with the line edit's cursor before its one
character leaves `cursor` at 0, not at the length 1 of the buffer.  And in the
horizontal layout with a pixel budget of `-1`, End ends with `curr = NULL` and
`next` on the tail. -/
theorem end_key_ignores_selection :
    matchend fiveItems = some 4 ∧
      pointers (run (verticalCfg 2 1) fiveItems [plainKey .End 0 0]) =
        some (some 0, some 0, some 2, some 0) ∧
      (rematch (verticalCfg 2 1) (initState [97, 0, 0, 0] (mkItems [[97], [98]]))).sel =
        matchend (rematch (verticalCfg 2 1) (initState [97, 0, 0, 0] (mkItems [[97], [98]]))) ∧
      (run (verticalCfg 2 1)
          (rematch (verticalCfg 2 1) (initState [97, 0, 0, 0] (mkItems [[97], [98]])))
          [plainKey .End 1 0]).map (fun s => (s.sel, s.cursor, strlen s.text)) =
        some (some 0, 0, 1) ∧
      pointers (run (horizontalCfg (-1) 5)
          (rematch (horizontalCfg (-1) 5) (initState [0, 0, 0, 0] (mkItems [[97], [98]])))
          [plainKey .End 1 0]) =
        some (some 1, none, some 1, some 1) := by
  decide

/-- C15, amended: for every state with `sel` present, Tab leaves in the buffer the
selected item's text cut to `sizeof text - 1` bytes and `cursor` equal to the new
buffer length, and the match list, `curr` and `sel` afterwards are exactly those
produced by `match` on the new buffer (so `sel = curr =` the head of the new
match list); when the item's text fits, having at most `sizeof text - 1` bytes,
the buffer content is the item's text and the previously selected item is in the
exact band.  When `sel` is `NULL` the key returns at once: nothing changes, and
`cursor` holds the line edit's cursor position as after every key. -/
theorem tab_copies_selection (cfg : Config) (s : State) (ev : KeyEvent) (hc : ev.ctrl = false)
    (ha : ev.alt = false) (hk : ev.key = .Tab) :
    (s.sel = none → keypress cfg s ev = some { s with cursor := ev.cursorPos }) ∧
      (∀ p i it, s.sel = some p → s.matched[p]? = some i → s.items[i]? = some it →
        0 < s.text.length →
        ∃ s1, keypress cfg s ev = some s1 ∧
          cstr s1.text = (cstr it.text).take (s.text.length - 1) ∧
          s1.text.length = s.text.length ∧
          s1.cursor = strlen s1.text ∧
          s1 = rematch cfg { s with cursor := s1.cursor, text := s1.text } ∧
          s1.matched = matchList cfg.ci s.items s1.text ∧
          s1.sel = head s1 ∧ s1.curr = head s1 ∧
          (strlen it.text ≤ s.text.length - 1 →
            cstr s1.text = cstr it.text ∧
              i ∈ (matchBands cfg.ci s.items s1.text).exact)) := by
  refine ⟨?_, ?_⟩
  · intro hs
    rw [keypress_tab cfg s ev hc ha hk, hs]
  · intro p i it hs hi hit hlen
    obtain ⟨T, hT, hTl, hkp⟩ := keypress_tab_selected cfg s ev p i it hc ha hk hs hi hit hlen
    have ht : (rematch cfg { s with cursor := strlen T, text := T }).text = T := rematch_text _ _
    have hcu : (rematch cfg { s with cursor := strlen T, text := T }).cursor = strlen T :=
      rematch_cursor _ _
    have hm : (rematch cfg { s with cursor := strlen T, text := T }).matched =
        matchList cfg.ci s.items T := rematch_matched _ _
    refine ⟨_, hkp, ?_, ?_, ?_, ?_, ?_, ?_, ?_, ?_⟩
    · rw [ht]; exact hT
    · rw [ht]; exact hTl
    · rw [ht]; exact hcu
    · rw [ht, hcu]
    · rw [ht]; exact hm
    · rw [rematch_sel]
      unfold head
      rw [hm]
    · rw [rematch_curr]
      unfold head
      rw [hm]
    · intro hfit
      have hfull : cstr T = cstr it.text := by
        rw [hT]
        exact List.take_of_length_le hfit
      rw [ht]
      refine ⟨hfull, ?_⟩
      rw [matchBands_eq]
      show i ∈ exactBand cfg.ci s.items T
      unfold exactBand
      rw [storeOrder_mem]
      refine ⟨it, hit, decide_eq_true ⟨candidate_of_cstr_eq cfg.ci T it hfull, Or.inr ?_⟩⟩
      unfold EqualUnder
      rw [hfull]

/-- C15 at five one-letter matches and a buffer of four bytes, `sel` on the head:
Tab leaves the text of the first item in the buffer. -/
theorem tab_copies_selection_witness :
    fiveItems.sel = some 0 ∧ fiveItems.matched[0]? = some 0 ∧
      fiveItems.items[0]? = some ⟨[97], false⟩ ∧ 0 < fiveItems.text.length ∧
      ∃ s1, keypress (verticalCfg 2 1) fiveItems (plainKey .Tab 0 0) = some s1 ∧
        cstr s1.text = (cstr (Item.mk [97] false).text).take (fiveItems.text.length - 1) ∧
        s1.text.length = fiveItems.text.length ∧
        s1.cursor = strlen s1.text ∧
        s1 = rematch (verticalCfg 2 1) { fiveItems with cursor := s1.cursor, text := s1.text } ∧
        s1.matched = matchList (verticalCfg 2 1).ci fiveItems.items s1.text ∧
        s1.sel = head s1 ∧ s1.curr = head s1 ∧
        (strlen (Item.mk [97] false).text ≤ fiveItems.text.length - 1 →
          cstr s1.text = cstr (Item.mk [97] false).text ∧
            0 ∈ (matchBands (verticalCfg 2 1).ci fiveItems.items s1.text).exact) :=
  ⟨by decide, by decide, by decide, by decide,
    (tab_copies_selection (verticalCfg 2 1) fiveItems (plainKey .Tab 0 0) rfl rfl rfl).2 0 0
      ⟨[97], false⟩ (by decide) (by decide) (by decide) (by decide)⟩

/-- C15 as stated fails for an item longer than the buffer allows.  With a buffer
of four bytes and the selected item `abcdef`, Tab leaves `abc` in the buffer, and
the item is then in the band of the matches that begin with the query, not in
the exact band.  With a buffer of 8192 bytes and a selected item of 8192 letters,
Tab leaves 8191 bytes in the buffer. -/
theorem tab_cuts_long_item :
    (run (verticalCfg 2 1)
          (rematch (verticalCfg 2 1)
            (initState [0, 0, 0, 0] (mkItems [[97, 98, 99, 100, 101, 102]])))
          [plainKey .Tab 0 0]).map
        (fun s => (s.sel, cstr s.text, s.cursor, matchBands false s.items s.text)) =
        some (some 0, [97, 98, 99], 3, ⟨[], [0], []⟩) ∧
      strlen (nodeText (longItem 8192).items (longItem 8192).matched 0) = 8192 ∧
      ∃ s1, keypress (verticalCfg 2 1) (longItem 8192) (plainKey .Tab 0 0) = some s1 ∧
        strlen s1.text = 8191 := by
  have hz : ∀ b ∈ List.replicate 8192 97, b ≠ 0 := by
    intro b hb
    rw [List.eq_of_mem_replicate hb]
    decide
  have hcs : cstr (List.replicate 8192 97) = List.replicate 8192 97 := cstr_eq_self hz
  refine ⟨by decide, ?_, ?_⟩
  · show strlen (List.replicate 8192 97) = 8192
    unfold strlen
    rw [hcs, List.length_replicate]
  · obtain ⟨T, hT, _, hkp⟩ := keypress_tab_selected (verticalCfg 2 1) (longItem 8192)
      (plainKey .Tab 0 0) 0 0 ⟨List.replicate 8192 97, false⟩ rfl rfl rfl rfl rfl rfl
      (by show 0 < (List.replicate 8192 0).length; rw [List.length_replicate]; decide)
    refine ⟨_, hkp, ?_⟩
    rw [rematch_text]
    show (cstr T).length = 8191
    have e1 : (longItem 8192).text = List.replicate 8192 0 := rfl
    have e2 : (Item.mk (List.replicate 8192 97) false).text = List.replicate 8192 97 := rfl
    rw [hT, e1, e2, hcs, List.length_take, List.length_replicate, List.length_replicate]
    decide

end Qdmenu
